import Mathlib

/-!
NBODY-NZGDC18: the octree of the N-body simulator.

A shallow embedding of `src/NZGDC18/Octree.h` (recursive insert and query) and of
`src/NZGDC18-V3/Octree.h` (iterative insert and query threaded through the `scratch`
pointer), with `Vec4` from `src/NZGDC18-V1/Vec4.h`.

Conventions of the embedding.

* Arithmetic is exact: `float`/`double` become `ℚ`. Rounding is not modelled: here a weighted
  mean of two different values lies strictly between them, while the value the code stores
  can round onto one of them. What rests on this (`octant_ne_of_pos`, `Built.insert_ok`,
  `octant_stable` and their consequences) is a statement about exact arithmetic.
* A value of type `Octree σ` is an `Octree*`: `null` is `nullptr`, `node` is a live object
  with the fields of the class in declaration order. `σ` is the type of the `scratch`
  slot: `Unit` for the class of `src/NZGDC18` (which has none), `Ptr` for V3.
* A pointer held in a local variable or in a `scratch` slot of V3 is the path (child
  indices from the object the method was called on) of the node it points to; `none` is
  `nullptr`. Mutation through such a pointer is `modifyAt`.
* A call returns `Except Fault`: a `Fault` is a failed `assert` (assertions are compiled
  in), a call or field access through a null pointer, or an exact division by zero.
* The `while` loops of V3 carry an iteration budget computed from the tree, and raise
  `Fault.fuel` when it is used up; `insertImpl_fuel_suffices` shows that `insertImpl` never
  does. The recursive `insert` is defined by well-founded recursion and needs none.
* The callback `f` of V3's query is observed through the list of its arguments, in call
  order; `results` of the recursive query is the list passed in, extended.
-/

namespace NZGDC18

/-- Position in 3D and mass: `Vector4<F>` of `Vec4.h`, over exact rationals. -/
@[ext]
structure Vec4 where
  x : ℚ
  y : ℚ
  z : ℚ
  w : ℚ
deriving DecidableEq

namespace Vec4

/-- The operator `Vector4::operator-`: component-wise on the position, weight reset to `F()`. -/
def sub (a r : Vec4) : Vec4 := ⟨a.x - r.x, a.y - r.y, a.z - r.z, 0⟩

/-- The method `Vector4::normSquared`. -/
def normSquared (a : Vec4) : ℚ := a.x * a.x + a.y * a.y + a.z * a.z

end Vec4

/-- The ways a call can fail to produce a result. -/
inductive Fault where
  | assertion
  | nullDeref
  | divByZero
  | fuel
deriving DecidableEq

/-- An `Octree*`: `null` or a node with `origin`, `children`, `scratch`, `is_clean`. -/
inductive Octree (σ : Type) where
  | null : Octree σ
  | node (origin : Vec4) (children : Fin 8 → Octree σ) (scratch : σ) (is_clean : Bool) : Octree σ

namespace Octree

variable {σ : Type}

/-- The test `p == nullptr`. -/
def isNull : Octree σ → Bool
  | null => true
  | node _ _ _ _ => false

/-- The method `Octree::isLeafNode` on a node with the given `children`: only `children[0]` is
inspected. -/
def isLeafNode (children : Fin 8 → Octree σ) : Bool := (children 0).isNull

/-- The default constructor `Octree()`: origin `(0,0,0,0)`, no children, clean. -/
def fresh (s : σ) : Octree σ := node ⟨0, 0, 0, 0⟩ (fun _ => null) s true

/-- Number of levels below (and including) a pointer; `0` for `nullptr`. -/
def height : Octree σ → Nat
  | null => 0
  | node _ children _ _ => 1 + Finset.univ.sup (fun i => height (children i))

/-- Number of nodes reachable from a pointer. -/
def size : Octree σ → Nat
  | null => 0
  | node _ children _ _ => 1 + ∑ i, size (children i)

/-- Termination measure of the recursive `insert`. -/
def insertMeasure : Octree σ → Nat
  | null => 0
  | node o children s is_clean => 2 * height (node o children s is_clean) + (if is_clean then 0 else 1)

end Octree

open Octree

/-- The method `Octree::getOctantContainingPoint`, with `origin` the field of the node. -/
def getOctantContainingPoint (origin point : Vec4) : Fin 8 :=
  let oct : Fin 8 := 0
  let oct := if point.x ≥ origin.x then oct ||| 4 else oct
  let oct := if point.y ≥ origin.y then oct ||| 2 else oct
  let oct := if point.z ≥ origin.z then oct ||| 1 else oct
  oct

/-- The function `Octree::CentreofMass`; the three divisions by `w_acc` fault when `w_acc` is zero. -/
def CentreofMass (a b : Vec4) : Except Fault Vec4 :=
  let x_acc : ℚ := 0
  let y_acc : ℚ := 0
  let z_acc : ℚ := 0
  let w_acc : ℚ := 0
  let x_acc := x_acc + a.x * a.w
  let y_acc := y_acc + a.y * a.w
  let z_acc := z_acc + a.z * a.w
  let w_acc := w_acc + a.w
  let x_acc := x_acc + b.x * b.w
  let y_acc := y_acc + b.y * b.w
  let z_acc := z_acc + b.z * b.w
  let w_acc := w_acc + b.w
  if w_acc = 0 then throw Fault.divByZero
  else pure ⟨x_acc / w_acc, y_acc / w_acc, z_acc / w_acc, w_acc⟩

/-- One round of the loop of `UpdateCentreOfMass`: `p = c->origin`, then the four
accumulations. -/
def accumulate {σ : Type} (acc : Vec4) (c : Octree σ) : Except Fault Vec4 :=
  match c with
  | null => throw Fault.nullDeref
  | node p _ _ _ => pure ⟨acc.x + p.x * p.w, acc.y + p.y * p.w, acc.z + p.z * p.w, acc.w + p.w⟩

/-- The method `Octree::UpdateCentreOfMass` on the node `this`. -/
def UpdateCentreOfMass {σ : Type} : Octree σ → Except Fault (Octree σ)
  | null => throw Fault.nullDeref
  | node _ children scratch is_clean =>
    if isLeafNode children then throw Fault.assertion
    else do
      let acc ← (List.finRange 8).foldlM (fun acc i => accumulate acc (children i)) ⟨0, 0, 0, 0⟩
      if acc.w = 0 then throw Fault.divByZero
      else pure (node ⟨acc.x / acc.w, acc.y / acc.w, acc.z / acc.w, acc.w⟩ children scratch is_clean)

/-- The recursive `Octree::insert` of `src/NZGDC18/Octree.h`. -/
def insert : Octree Unit → Vec4 → Except Fault (Octree Unit)
  | null, _ => throw Fault.nullDeref
  | node origin children scratch is_clean, point =>
    if isLeafNode children then
      if hc : is_clean = true then
        pure (node point children scratch false)
      else if point.x = origin.x ∧ point.y = origin.y ∧ point.z = origin.z then
        pure (node { origin with w := origin.w + point.w } children scratch is_clean)
      else do
        let children : Fin 8 → Octree Unit := fun _ => fresh ()
        let old := origin
        let origin ← CentreofMass old point
        let oct_origin := getOctantContainingPoint origin old
        let oct_point := getOctantContainingPoint origin point
        if ha : oct_point = oct_origin then throw Fault.assertion
        else do
          let c ← insert (children oct_origin) old
          let children := Function.update children oct_origin c
          let c ← insert (children oct_point) point
          let children := Function.update children oct_point c
          UpdateCentreOfMass (node origin children scratch is_clean)
    else do
      let octant := getOctantContainingPoint origin point
      let c ← insert (children octant) point
      let children := Function.update children octant c
      UpdateCentreOfMass (node origin children scratch is_clean)
termination_by t => insertMeasure t
decreasing_by
  · have hf : is_clean = false := by simpa using hc
    subst hf
    have key : ∀ (o : Vec4) (ch : Fin 8 → Octree Unit) (u : Unit),
        insertMeasure (fresh ()) < insertMeasure (node o ch u false) := by
      intro o ch u
      have h0 : (Finset.univ.sup fun _ : Fin 8 => 0) = 0 := by
        simp [Finset.sup_eq_bot_iff]
      have h1 : height (fresh ()) = 1 := by
        simp only [fresh, height, h0]
      have h2 : insertMeasure (fresh ()) = 2 := by
        simp only [fresh, insertMeasure] at h1 ⊢
        rw [h1]; rfl
      have h3 : 1 ≤ height (node o ch u false) := by
        rw [height.eq_2 o ch u false]; omega
      rw [h2]
      simp only [insertMeasure, Bool.false_eq_true, if_false]
      omega
    exact key _ _ _
  · have hf : is_clean = false := by simpa using hc
    subst hf
    have key : ∀ (o : Vec4) (ch : Fin 8 → Octree Unit) (u : Unit),
        insertMeasure (fresh ()) < insertMeasure (node o ch u false) := by
      intro o ch u
      have h0 : (Finset.univ.sup fun _ : Fin 8 => 0) = 0 := by
        simp [Finset.sup_eq_bot_iff]
      have h1 : height (fresh ()) = 1 := by
        simp only [fresh, height, h0]
      have h2 : insertMeasure (fresh ()) = 2 := by
        simp only [fresh, insertMeasure] at h1 ⊢
        rw [h1]; rfl
      have h3 : 1 ≤ height (node o ch u false) := by
        rw [height.eq_2 o ch u false]; omega
      rw [h2]
      simp only [insertMeasure, Bool.false_eq_true, if_false]
      omega
    simp only [Function.update_noteq ha]
    exact key _ _ _
  · have key : ∀ (o : Vec4) (ch : Fin 8 → Octree Unit) (u : Unit) (c : Bool) (i : Fin 8),
        insertMeasure (ch i) < insertMeasure (node o ch u c) := by
      intro o ch u c i
      have h : height (ch i) ≤ Finset.univ.sup (fun i => height (ch i)) :=
        Finset.le_sup (f := fun i => height (ch i)) (Finset.mem_univ i)
      cases hch : ch i with
      | null => simp [insertMeasure, height]
      | node o2 ch2 u2 c2 =>
        rw [hch] at h
        simp only [insertMeasure]
        rw [height.eq_2 o ch u c]
        split <;> split <;> omega
    exact key _ _ _ _ _

/-- The method `Octree::getPointsInsideRadiusLeafImpl` on a node with the given `origin`. -/
def getPointsInsideRadiusLeafImpl (origin source : Vec4) (radius_sqr : ℚ)
    (results : List Vec4) : List Vec4 :=
  let diff := source.sub origin
  let dist := diff.normSquared
  if dist ≤ radius_sqr then results ++ [origin] else results

/-- The method `Octree::getPointsInsideRaduisInnerImpl` on a node with the given `origin`; `call i`
is the call `children[i]->getPointsInsideRadiusSqr(source, radius_sqr, results)`. -/
def getPointsInsideRaduisInnerImpl (origin : Vec4)
    (call : Fin 8 → List Vec4 → Except Fault (List Vec4))
    (source : Vec4) (radius_sqr : ℚ) (results : List Vec4) : Except Fault (List Vec4) :=
  (List.finRange 8).foldlM (fun results i =>
    let diff := source.sub origin
    let dist := diff.normSquared
    if dist > radius_sqr then pure (results ++ [origin])
    else call i results) results

/-- The recursive `Octree::getPointsInsideRadiusSqr` of `src/NZGDC18/Octree.h`; the
result is the content of `results` after the call. -/
def getPointsInsideRadiusSqr {σ : Type} :
    Octree σ → Vec4 → ℚ → List Vec4 → Except Fault (List Vec4)
  | null, _, _, _ => throw Fault.nullDeref
  | node origin children _ is_clean, source, radius_sqr, results =>
    if isLeafNode children && !is_clean then
      pure (getPointsInsideRadiusLeafImpl origin source radius_sqr results)
    else
      getPointsInsideRaduisInnerImpl origin
        (fun i results => getPointsInsideRadiusSqr (children i) source radius_sqr results)
        source radius_sqr results

/-- The loop of `ConstructOctTree` in the driver: a default-constructed tree, then one
`insert` per point. -/
def ConstructOctTree (points : List Vec4) : Except Fault (Octree Unit) :=
  points.foldlM insert (fresh ())

/-! ## The drivers: `Force` -/

/-- The method `Vector4::norm`; `sqrtf` is the square root of the C library, a parameter of
the embedding. -/
def Vec4.norm (sqrtf : ℚ → ℚ) (a : Vec4) : ℚ := sqrtf (a.x * a.x + a.y * a.y + a.z * a.z)

/-- The operator `Vector4::operator/(F r)`; the three divisions fault when `r` is zero. -/
def Vec4.div (a : Vec4) (r : ℚ) : Except Fault Vec4 :=
  if r = 0 then throw Fault.divByZero else pure ⟨a.x / r, a.y / r, a.z / r, 0⟩

/-- The method `Vector4::normalized`: `*this / norm()`. -/
def Vec4.normalized (sqrtf : ℚ → ℚ) (a : Vec4) : Except Fault Vec4 :=
  a.div (a.norm sqrtf)

/-- The free operator `operator*(F r, const Vector4<F>& v)`. -/
def Vec4.scale (r : ℚ) (v : Vec4) : Vec4 := ⟨v.x * r, v.y * r, v.z * r, v.w * r⟩

/-- The function `Force` of `src/NZGDC18/NZGDC18.cpp`; the division by `r2` faults when `r2`
is zero. -/
def Force (sqrtf : ℚ → ℚ) (a b : Vec4) (G : ℚ) : Except Fault Vec4 := do
  let offs := b.sub a
  let r2 := offs.normSquared
  let n ← offs.normalized sqrtf
  let quotient ← if r2 = 0 then throw Fault.divByZero else pure ((a.w * b.w) / r2)
  let magnitude := G * quotient
  let force := Vec4.scale magnitude n
  pure force

/-- The function `Force` of `src/NZGDC18-V1/NZGDC18.cpp`. -/
def V1.Force (sqrtf : ℚ → ℚ) (a b : Vec4) (G : ℚ) : Except Fault Vec4 := do
  let offs := b.sub a
  let r2 := offs.normSquared
  if r2 = 0 then
    pure ⟨0, 0, 0, 0⟩
  else do
    let n ← offs.normalized sqrtf
    let quotient ← if r2 = 0 then throw Fault.divByZero else pure ((a.w * b.w) / r2)
    let magnitude := G * quotient
    let force := Vec4.scale magnitude n
    pure force

/-- The function `Force` of `src/NZGDC18-V2/NZGDC18.cpp` (the counter `FORCE_COUNTER` is
left out). -/
def V2.Force (sqrtf : ℚ → ℚ) (a b : Vec4) (G : ℚ) : Except Fault Vec4 := do
  let offs := b.sub a
  let r2 := offs.normSquared
  if r2 = 0 then
    pure ⟨0, 0, 0, 0⟩
  else do
    let n ← offs.normalized sqrtf
    let quotient ← if r2 = 0 then throw Fault.divByZero else pure ((a.w * b.w) / r2)
    let magnitude := G * quotient
    let force := Vec4.scale magnitude n
    pure force

/-! ## V3: the iterative insert and query -/

/-- A path of child indices, from the object a method was called on down to a node. -/
abbrev Path := List (Fin 8)

/-- An `Octree*` held in a variable or in a `scratch` slot of V3: `none` is `nullptr`. -/
abbrev Ptr := Option Path

namespace Octree

variable {σ : Type}

/-- The pointer reached by following `children[i]` along the path. -/
def subtree : Octree σ → Path → Octree σ
  | t, [] => t
  | null, _ :: _ => null
  | node _ children _ _, i :: rest => subtree (children i) rest

/-- Run `f` on the object at the end of the path, in place. -/
def modifyAt (f : Octree σ → Except Fault (Octree σ)) : Octree σ → Path → Except Fault (Octree σ)
  | t, [] => f t
  | null, _ :: _ => throw Fault.nullDeref
  | node origin children scratch is_clean, i :: rest => do
    let c ← modifyAt f (children i) rest
    pure (node origin (Function.update children i c) scratch is_clean)

/-- The tree with the object at the end of the path replaced by `u`: the state of the heap
after the object a pointer leads to has been written. -/
def graft : Octree σ → Path → Octree σ → Octree σ
  | _, [], u => u
  | null, _ :: _, _ => null
  | node origin children scratch is_clean, i :: rest, u =>
    node origin (Function.update children i (graft (children i) rest u)) scratch is_clean

end Octree

namespace V3

/-- The assignment `this->scratch = v`. -/
def setScratch (v : Ptr) : Octree Ptr → Except Fault (Octree Ptr)
  | null => throw Fault.nullDeref
  | node origin children _ is_clean => pure (node origin children v is_clean)

/-- The read `this->scratch`. -/
def getScratch : Octree Ptr → Except Fault Ptr
  | null => throw Fault.nullDeref
  | node _ _ scratch _ => pure scratch

/-- The assignment `this->origin = v`. -/
def setOrigin (v : Vec4) : Octree Ptr → Except Fault (Octree Ptr)
  | null => throw Fault.nullDeref
  | node _ children scratch is_clean => pure (node v children scratch is_clean)

/-- The first loop of `insertImpl` (lines 83-92): `tree` is the whole tree, `root` and
`tail` are the two local pointers. -/
def descend (point : Vec4) : Nat → Octree Ptr → Path → Ptr → Except Fault (Octree Ptr × Path × Ptr)
  | 0, _, _, _ => throw Fault.fuel
  | fuel + 1, tree, root, tail =>
    match tree.subtree root with
    | null => throw Fault.nullDeref
    | node origin children _ _ =>
      if isLeafNode children then pure (tree, root, tail)
      else do
        let tree ← tree.modifyAt (setScratch tail) root
        let tail := some root
        let octant := getOctantContainingPoint origin point
        descend point fuel tree (root ++ [octant]) tail

/-- Lines 95-131 of `insertImpl`, on the leaf `root` the first loop stopped at. -/
def leafStep (point : Vec4) : Octree Ptr → Except Fault (Octree Ptr)
  | null => throw Fault.nullDeref
  | node origin children scratch is_clean =>
    if is_clean then
      pure (node point children scratch false)
    else if point.x = origin.x ∧ point.y = origin.y ∧ point.z = origin.z then
      pure (node { origin with w := origin.w + point.w } children scratch is_clean)
    else do
      let children : Fin 8 → Octree Ptr := fun _ => fresh none
      let old := origin
      let origin ← CentreofMass old point
      let oct_origin := getOctantContainingPoint origin old
      let oct_point := getOctantContainingPoint origin point
      if oct_point = oct_origin then throw Fault.assertion
      else do
        let c ← setOrigin old (children oct_origin)
        let children := Function.update children oct_origin c
        let c ← setOrigin point (children oct_point)
        let children := Function.update children oct_point c
        pure (node origin children scratch is_clean)

/-- The last loop of `insertImpl` (lines 136-140). -/
def updateLoop : Nat → Octree Ptr → Ptr → Except Fault (Octree Ptr)
  | _, tree, none => pure tree
  | 0, _, some _ => throw Fault.fuel
  | fuel + 1, tree, some root => do
    let tree ← tree.modifyAt UpdateCentreOfMass root
    let next ← getScratch (tree.subtree root)
    updateLoop fuel tree next

/-- The function `Octree::insertImpl(root, point)` of V3, with `tree` the object `root` points to. The
first loop descends one level per round and the last one runs once per level descended,
which bounds their rounds. -/
def insertImpl (tree : Octree Ptr) (point : Vec4) : Except Fault (Octree Ptr) := do
  let tail : Ptr := none
  let (tree, root, tail) ← descend point (tree.height + 1) tree [] tail
  let tree ← tree.modifyAt (leafStep point) root
  let tree ← tree.modifyAt (setScratch tail) root
  updateLoop root.length tree tail

/-- The method `Octree::insert` of V3. -/
def insert (tree : Octree Ptr) (point : Vec4) : Except Fault (Octree Ptr) :=
  insertImpl tree point

/-- One round of the `for` loop of lines 187-192: `c = root->children[i]`,
`c->scratch = root->scratch`, `root->scratch = c`. -/
def pushChild (root : Path) (tree : Octree Ptr) (i : Fin 8) : Except Fault (Octree Ptr) := do
  let c := root ++ [i]
  let s ← getScratch (tree.subtree root)
  let tree ← tree.modifyAt (setScratch s) c
  tree.modifyAt (setScratch (some c)) root

/-- The `for` loop of lines 187-192, pushing the eight children of `root` on the work
list. -/
def pushChildren (tree : Octree Ptr) (root : Path) : Except Fault (Octree Ptr) :=
  (List.finRange 8).foldlM (pushChild root) tree

/-- The `while` loop of `getPointsInsideRadiusSqrImpl` (lines 155-199); `out` collects
the arguments `f` is called with, in call order. -/
def queryLoop (source : Vec4) (radius_sqr : ℚ) :
    Nat → Octree Ptr → Ptr → Ptr → List Vec4 → Except Fault (Octree Ptr × List Vec4)
  | _, tree, none, _, out => pure (tree, out)
  | 0, _, some _, _, _ => throw Fault.fuel
  | fuel + 1, tree, some root, tail, out =>
    match tree.subtree root with
    | null => throw Fault.nullDeref
    | node origin children _ is_clean => do
      let (tree, out) ←
        if is_clean then
          pure (tree, out)
        else if isLeafNode children then
          let diff := source.sub origin
          let dist := diff.normSquared
          if dist ≤ radius_sqr then pure (tree, out ++ [origin]) else pure (tree, out)
        else
          let diff := source.sub origin
          let dist := diff.normSquared
          if dist > radius_sqr then pure (tree, out ++ [origin])
          else do
            let tree ← pushChildren tree root
            pure (tree, out)
      match tail with
      | none => throw Fault.nullDeref
      | some t => do
        let tail ← getScratch (tree.subtree t)
        queryLoop source radius_sqr fuel tree tail tail out

/-- The function `Octree::getPointsInsideRadiusSqrImpl(root, source, radius_sqr, f)` of V3, with `tree`
the object `root` points to. Each round of the loop takes one node off the work list, and
a node is put on it at most once, which bounds the rounds by the number of nodes. -/
def getPointsInsideRadiusSqrImpl (tree : Octree Ptr) (source : Vec4) (radius_sqr : ℚ) :
    Except Fault (Octree Ptr × List Vec4) := do
  let root : Path := []
  let tail : Ptr := some root
  let tree ← tree.modifyAt (setScratch none) root
  queryLoop source radius_sqr tree.size tree (some root) tail []

/-- The method `Octree::getPointsInsideRadiusSqr` of V3; the result is the list of the arguments of
the calls of `f`. -/
def getPointsInsideRadiusSqr (tree : Octree Ptr) (source : Vec4) (radius_sqr : ℚ) :
    Except Fault (List Vec4) := do
  let (_, out) ← getPointsInsideRadiusSqrImpl tree source radius_sqr
  pure out

/-- The `while` loop of `getPointsInsideRadiusSqrImpl` as in `queryLoop`, with a record
`seen` of the nodes `root` has pointed to, one per round, in order. The record is not
part of the source: it serves to state which nodes the loop visits. -/
def queryLoopVisits (source : Vec4) (radius_sqr : ℚ) :
    Nat → Octree Ptr → Ptr → Ptr → List Vec4 → List Path →
      Except Fault (Octree Ptr × List Vec4 × List Path)
  | _, tree, none, _, out, seen => pure (tree, out, seen)
  | 0, _, some _, _, _, _ => throw Fault.fuel
  | fuel + 1, tree, some root, tail, out, seen =>
    match tree.subtree root with
    | null => throw Fault.nullDeref
    | node origin children _ is_clean => do
      let (tree, out) ←
        if is_clean then
          pure (tree, out)
        else if isLeafNode children then
          let diff := source.sub origin
          let dist := diff.normSquared
          if dist ≤ radius_sqr then pure (tree, out ++ [origin]) else pure (tree, out)
        else
          let diff := source.sub origin
          let dist := diff.normSquared
          if dist > radius_sqr then pure (tree, out ++ [origin])
          else do
            let tree ← pushChildren tree root
            pure (tree, out)
      match tail with
      | none => throw Fault.nullDeref
      | some t => do
        let tail ← getScratch (tree.subtree t)
        queryLoopVisits source radius_sqr fuel tree tail tail out (seen ++ [root])

/-- The function `getPointsInsideRadiusSqrImpl` with the record of the visited nodes. -/
def getPointsInsideRadiusSqrImplVisits (tree : Octree Ptr) (source : Vec4) (radius_sqr : ℚ) :
    Except Fault (Octree Ptr × List Vec4 × List Path) := do
  let root : Path := []
  let tail : Ptr := some root
  let tree ← tree.modifyAt (setScratch none) root
  queryLoopVisits source radius_sqr tree.size tree (some root) tail [] []

/-- A default-constructed V3 tree, then one `insert` per point. -/
def insertAll (points : List Vec4) : Except Fault (Octree Ptr) :=
  points.foldlM insert (fresh none)

end V3

/-! ## Vocabulary of the properties -/

namespace Octree

variable {σ : Type}

/-- The `origin` field behind a pointer (`(0,0,0,0)` behind `nullptr`). -/
def originOf : Octree σ → Vec4
  | null => ⟨0, 0, 0, 0⟩
  | node origin _ _ _ => origin

/-- The `is_clean` field behind a pointer (`true` behind `nullptr`). -/
def cleanOf : Octree σ → Bool
  | null => true
  | node _ _ _ is_clean => is_clean

/-- Sum of `origin.w` over the eight children. -/
def wsum (children : Fin 8 → Octree σ) : ℚ := ∑ i, (children i).originOf.w

/-- Sum of `origin.x * origin.w` over the eight children. -/
def xsum (children : Fin 8 → Octree σ) : ℚ := ∑ i, (children i).originOf.x * (children i).originOf.w

/-- Sum of `origin.y * origin.w` over the eight children. -/
def ysum (children : Fin 8 → Octree σ) : ℚ := ∑ i, (children i).originOf.y * (children i).originOf.w

/-- Sum of `origin.z * origin.w` over the eight children. -/
def zsum (children : Fin 8 → Octree σ) : ℚ := ∑ i, (children i).originOf.z * (children i).originOf.w

/-- A node has no children at all: all eight child pointers are null. -/
def NoChildren (children : Fin 8 → Octree σ) : Prop := ∀ i, (children i).isNull = true

/-- A node has all its children: all eight child pointers are non-null. -/
def AllChildren (children : Fin 8 → Octree σ) : Prop := ∀ i, (children i).isNull = false

/-- A property of the fields of a node holds at every node below a pointer. -/
def Forall (P : Vec4 → (Fin 8 → Octree σ) → σ → Bool → Prop) : Octree σ → Prop
  | null => True
  | node origin children scratch is_clean =>
    P origin children scratch is_clean ∧ ∀ i, Forall P (children i)

/-- Sum of `origin.w` over the leaf nodes (nodes without children) below a pointer. -/
def leafWeight : Octree σ → ℚ
  | null => 0
  | node origin children _ _ =>
    if ∀ i, (children i).isNull = true then origin.w else ∑ i, leafWeight (children i)

end Octree

/-- The value `CentreofMass(a, b)` computes when it divides by a non-zero weight. -/
def com (a b : Vec4) : Vec4 :=
  ⟨(a.x * a.w + b.x * b.w) / (a.w + b.w), (a.y * a.w + b.y * b.w) / (a.w + b.w),
    (a.z * a.w + b.z * b.w) / (a.w + b.w), a.w + b.w⟩

/-- The eight children a split leaves behind: fresh nodes, but for the one holding `old`
at index `i` and the one holding `point` at index `j`. -/
def splitChildren {σ : Type} (s : σ) (i j : Fin 8) (old point : Octree σ) : Fin 8 → Octree σ :=
  Function.update (Function.update (fun _ => fresh s) i old) j point

/-- The trees the recursive `insert` builds from points of positive weight: an empty
leaf, an occupied leaf of positive weight, or a node with eight such children whose
aggregate is the weighted mean of the children's. -/
inductive Built : Octree Unit → Prop where
  | empty (s : Unit) : Built (node ⟨0, 0, 0, 0⟩ (fun _ => null) s true)
  | leaf (o : Vec4) (s : Unit) : 0 < o.w → Built (node o (fun _ => null) s false)
  | inner (o : Vec4) (ch : Fin 8 → Octree Unit) (s : Unit) : (∀ i, Built (ch i)) → 0 < o.w →
      o.w = wsum ch → o.x * o.w = xsum ch → o.y * o.w = ysum ch → o.z * o.w = zsum ch →
      Built (node o ch s false)

/-- The structural invariant at one node: no child at all, or all eight. -/
def ZeroOrEight {σ : Type} (_ : Vec4) (children : Fin 8 → Octree σ) (_ : σ) (_ : Bool) : Prop :=
  NoChildren children ∨ AllChildren children

/-- Mass conservation at one node, one level deep: a node with children carries the sum
of the weights of its eight children. -/
def SumOfChildren {σ : Type} (origin : Vec4) (children : Fin 8 → Octree σ) (_ : σ) (_ : Bool) :
    Prop :=
  ¬ NoChildren children → origin.w = wsum children

/-- Both invariants at one node. -/
def NodeInv {σ : Type} (origin : Vec4) (children : Fin 8 → Octree σ) (s : σ) (c : Bool) : Prop :=
  ZeroOrEight origin children s c ∧ SumOfChildren origin children s c

/-- Mass conservation at one node, as the specification words it: a node with children
carries the sum of the weights of the leaves below it. -/
def SumOfLeaves {σ : Type} (origin : Vec4) (children : Fin 8 → Octree σ) (s : σ) (c : Bool) :
    Prop :=
  ¬ NoChildren children → origin.w = leafWeight (node origin children s c)

/-- The `scratch` slot of the node at the end of a path (`none` when the path leaves the
tree). -/
def scratchAt (t : Octree Ptr) (path : Path) : Option Ptr :=
  match t.subtree path with
  | null => none
  | node _ _ scratch _ => some scratch

/-- The pointer to the parent of the node a path leads to: what the first loop of
`insertImpl` keeps in `tail`. -/
def parentPtr (path : Path) : Ptr :=
  if path = [] then none else some path.dropLast

/-- Both invariants hold at every node, but for the nodes a path passes through before its
end, where nothing is required: the state of the tree between the update of a leaf and
the updates of its ancestors. -/
def InvAlong {σ : Type} : Path → Octree σ → Prop
  | [], t => Forall NodeInv t
  | _ :: _, null => False
  | i :: rest, node _ children _ _ =>
    (∀ k, k ≠ i → Forall NodeInv (children k)) ∧ InvAlong rest (children i)

/-- The structural invariant with its consequence for `isLeafNode`: a node has no child or
all eight, and the test of `children[0]` alone tells which. -/
def LeafTestExact {σ : Type} (origin : Vec4) (children : Fin 8 → Octree σ) (s : σ) (c : Bool) :
    Prop :=
  ZeroOrEight origin children s c ∧ (isLeafNode children = true ↔ NoChildren children)

/-- The point `(0,0,0)` with weight `1`. -/
def p000 : Vec4 := ⟨0, 0, 0, 1⟩

/-- The point `(1,1,1)` with weight `1`. -/
def p111 : Vec4 := ⟨1, 1, 1, 1⟩

/-- The point `(2,2,2)` with weight `1`. -/
def p222 : Vec4 := ⟨2, 2, 2, 1⟩

/-- The tree the recursive `insert` builds from `p000` then `p111`: an interior root with
`p000` in child `0`, `p111` in child `7` and six empty leaves. -/
def twoTree : Octree Unit :=
  node ⟨1 / 2, 1 / 2, 1 / 2, 2⟩
    (splitChildren () 0 7 (node p000 (fun _ => null) () false) (node p111 (fun _ => null) () false))
    () false

/-- The tree the recursive `insert` builds from `p111` then `p222`. -/
def twoTreeB : Octree Unit :=
  node ⟨3 / 2, 3 / 2, 3 / 2, 2⟩
    (splitChildren () 0 7 (node p111 (fun _ => null) () false) (node p222 (fun _ => null) () false))
    () false

/-- The tree V3's `insert` builds from `p000` then `p111`: as `twoTree`, but the two
children written by the split keep `is_clean = true`. -/
def twoTree3 : Octree Ptr :=
  node ⟨1 / 2, 1 / 2, 1 / 2, 2⟩
    (splitChildren none 0 7 (node p000 (fun _ => null) none true)
      (node p111 (fun _ => null) none true))
    none false

/-- The tree V3's `insert` builds from `p000`, `p111`, `p222`: `p222` has taken the place
of `p111` in child `7`. -/
def threeTree3 : Octree Ptr :=
  node ⟨1, 1, 1, 2⟩
    (splitChildren none 0 7 (node p000 (fun _ => null) none true)
      (node p222 (fun _ => null) (some []) false))
    none false

/-- The same tree with every scratch slot set to `s`: the representation in another
version of the class of a tree with the same `origin`, `children` and `is_clean`. -/
def withScratch {σ τ : Type} (s : τ) : Octree σ → Octree τ
  | null => null
  | node origin children _ is_clean =>
    node origin (fun i => withScratch s (children i)) s is_clean

/-- The object behind a pointer after `p->scratch = v` (nothing behind `nullptr`). -/
def setScratchOf (v : Ptr) : Octree Ptr → Octree Ptr
  | null => null
  | node origin children _ is_clean => node origin children v is_clean

/-- The effect of the rounds `i ∈ l` of the loop of `pushChildren` on the children and on
the scratch slot of the node whose children are pushed. -/
def linkChildren : List (Fin 8) → (Fin 8 → Octree Ptr) → Ptr → (Fin 8 → Octree Ptr) × Ptr
  | [], g, s => (g, s)
  | i :: l, g, s => linkChildren l (Function.update g i (setScratchOf s (g i))) (some [i])

/-- The child indices in the order in which the work list hands them out: `7` down to
`0`. -/
def childOrder : List (Fin 8) := [7, 6, 5, 4, 3, 2, 1, 0]

/-- The decision rule of the query in the words of the specification: a node with
`is_clean` contributes nothing; a non-clean leaf (a node without children) contributes its
`origin` iff `|source - origin|^2 <= radius_sqr`; a non-clean interior node contributes its
`origin` once if `|source - origin|^2 > radius_sqr`, and otherwise the concatenation of its
children's contributions in child-index order `7` down to `0`. -/
def specContributions {σ : Type} (source : Vec4) (radius_sqr : ℚ) : Octree σ → List Vec4
  | null => []
  | node origin children _ is_clean =>
    if is_clean then []
    else if ∀ i, (children i).isNull = true then
      if (source.sub origin).normSquared ≤ radius_sqr then [origin] else []
    else if (source.sub origin).normSquared > radius_sqr then [origin]
    else childOrder.flatMap fun i => specContributions source radius_sqr (children i)

/-- The nodes the decision rule looks at, as paths from the node the query is called on,
which is at `path`: the node itself, then, where the rule descends, the nodes it looks at
under the children `7` down to `0`. -/
def visited {σ : Type} (source : Vec4) (radius_sqr : ℚ) : Octree σ → Path → List Path
  | null, _ => []
  | node origin children _ is_clean, path =>
    path ::
      (if is_clean then []
      else if ∀ i, (children i).isNull = true then []
      else if (source.sub origin).normSquared > radius_sqr then []
      else childOrder.flatMap fun i => visited source radius_sqr (children i) (path ++ [i]))

/-- The pointer at the head of the work list made of the children `l` of the node at
`path`, followed by `nxt`. -/
def headPtr (path : Path) (nxt : Ptr) : List (Fin 8) → Ptr
  | [] => nxt
  | i :: _ => some (path ++ [i])

/-- The scratch slots of the children `l` of the node at `path` chain them in this
order, the last one leading to `nxt`. -/
def Chained (path : Path) (nxt : Ptr) (ch : Fin 8 → Octree Ptr) :
    List (Fin 8) → (Fin 8 → Octree Ptr) → Prop
  | [], _ => True
  | i :: rest, g => g i = setScratchOf (headPtr path nxt rest) (ch i) ∧ Chained path nxt ch rest g

/-- What the loop does from the moment it reaches the node `t` at `path` until it reaches
the node that followed `t` on the work list. -/
def SubtreeDone (source : Vec4) (radius_sqr : ℚ) (t : Octree Ptr) : Prop :=
  ∀ (tree : Octree Ptr) (path : Path) (nxt : Ptr) (fuel : Nat) (out : List Vec4)
    (seen : List Path), tree.subtree path = setScratchOf nxt t →
    ∃ u, V3.queryLoopVisits source radius_sqr
          (fuel + (visited source radius_sqr t path).length) tree (some path) (some path)
          out seen =
        V3.queryLoopVisits source radius_sqr fuel (tree.graft path u) nxt nxt
          (out ++ specContributions source radius_sqr t) (seen ++ visited source radius_sqr t path)

/-- Trees reachable from a fresh `Octree` by calls of the recursive `insert` that return. -/
inductive Reachable : Octree Unit → Prop where
  | fresh : Reachable (fresh ())
  | step (t t' : Octree Unit) (point : Vec4) : Reachable t → insert t point = Except.ok t' →
      Reachable t'

/-- Trees reachable from a fresh `Octree` by calls of V3's `insert` that return. -/
inductive V3.Reachable : Octree Ptr → Prop where
  | fresh : V3.Reachable (fresh none)
  | step (t t' : Octree Ptr) (point : Vec4) : V3.Reachable t →
      V3.insert t point = Except.ok t' → V3.Reachable t'

/-! ## The centre of mass of the children -/

theorem finRange_eight : List.finRange 8 = [0, 1, 2, 3, 4, 5, 6, 7] := by decide

theorem accumulate_ok {σ : Type} (acc : Vec4) (c : Octree σ) (h : c.isNull = false) :
    accumulate acc c = Except.ok ⟨acc.x + c.originOf.x * c.originOf.w,
      acc.y + c.originOf.y * c.originOf.w, acc.z + c.originOf.z * c.originOf.w,
      acc.w + c.originOf.w⟩ := by
  cases c with
  | null => simp [isNull] at h
  | node o ch s k => rfl

theorem accumulate_null {σ : Type} (acc : Vec4) (c : Octree σ) (h : c.isNull = true) :
    accumulate acc c = Except.error Fault.nullDeref := by
  cases c with
  | null => rfl
  | node o ch s k => simp [isNull] at h

theorem foldlM_accumulate_ok {σ : Type} (ch : Fin 8 → Octree σ) (l : List (Fin 8))
    (h : ∀ i ∈ l, (ch i).isNull = false) (acc : Vec4) :
    l.foldlM (fun acc i => accumulate acc (ch i)) acc = Except.ok
      ⟨acc.x + (l.map fun i => (ch i).originOf.x * (ch i).originOf.w).sum,
       acc.y + (l.map fun i => (ch i).originOf.y * (ch i).originOf.w).sum,
       acc.z + (l.map fun i => (ch i).originOf.z * (ch i).originOf.w).sum,
       acc.w + (l.map fun i => (ch i).originOf.w).sum⟩ := by
  induction l generalizing acc with
  | nil => simp [pure, Except.pure]
  | cons i l ih =>
    rw [List.foldlM_cons, accumulate_ok acc (ch i) (h i (List.mem_cons_self _ _))]
    have := ih (fun j hj => h j (List.mem_cons_of_mem _ hj))
      ⟨acc.x + (ch i).originOf.x * (ch i).originOf.w, acc.y + (ch i).originOf.y * (ch i).originOf.w,
        acc.z + (ch i).originOf.z * (ch i).originOf.w, acc.w + (ch i).originOf.w⟩
    simp only [bind, Except.bind]
    rw [this]
    simp only [List.map_cons, List.sum_cons, add_assoc]

theorem foldlM_accumulate_null {σ : Type} (ch : Fin 8 → Octree σ) (l : List (Fin 8))
    (j : Fin 8) (hj : j ∈ l) (h : (ch j).isNull = true) (acc : Vec4) :
    ∃ e, l.foldlM (fun acc i => accumulate acc (ch i)) acc = Except.error e := by
  induction l generalizing acc with
  | nil => simp at hj
  | cons i l ih =>
    rw [List.foldlM_cons]
    cases hi : (ch i).isNull with
    | true =>
      rw [accumulate_null acc (ch i) hi]
      exact ⟨_, rfl⟩
    | false =>
      rw [accumulate_ok acc (ch i) hi]
      simp only [bind, Except.bind]
      rcases List.mem_cons.1 hj with rfl | hj'
      · rw [h] at hi; cases hi
      · exact ih hj' _

/-- The result of `UpdateCentreOfMass` on a node with eight children of non-zero total weight. -/
theorem UpdateCentreOfMass_ok {σ : Type} (o : Vec4) (ch : Fin 8 → Octree σ) (s : σ) (c : Bool)
    (hall : AllChildren ch) (hw : wsum ch ≠ 0) :
    UpdateCentreOfMass (node o ch s c) =
      Except.ok (node ⟨xsum ch / wsum ch, ysum ch / wsum ch, zsum ch / wsum ch, wsum ch⟩ ch s c) := by
  have h0 : isLeafNode ch = false := hall 0
  simp only [UpdateCentreOfMass, h0, Bool.false_eq_true, if_false]
  rw [foldlM_accumulate_ok ch _ (fun i _ => hall i)]
  simp only [bind, Except.bind, zero_add]
  have e1 : ((List.finRange 8).map fun i => (ch i).originOf.w).sum = wsum ch := by
    rw [wsum, Fin.sum_univ_def]
  have e2 : ((List.finRange 8).map fun i => (ch i).originOf.x * (ch i).originOf.w).sum = xsum ch := by
    rw [xsum, Fin.sum_univ_def]
  have e3 : ((List.finRange 8).map fun i => (ch i).originOf.y * (ch i).originOf.w).sum = ysum ch := by
    rw [ysum, Fin.sum_univ_def]
  have e4 : ((List.finRange 8).map fun i => (ch i).originOf.z * (ch i).originOf.w).sum = zsum ch := by
    rw [zsum, Fin.sum_univ_def]
  rw [e1, e2, e3, e4]
  simp only [hw, if_false]
  rfl

/-- What a returning call of `UpdateCentreOfMass` has done. -/
theorem UpdateCentreOfMass_inv {σ : Type} (o : Vec4) (ch : Fin 8 → Octree σ) (s : σ) (c : Bool)
    (t : Octree σ) (h : UpdateCentreOfMass (node o ch s c) = Except.ok t) :
    AllChildren ch ∧ wsum ch ≠ 0 ∧
      t = node ⟨xsum ch / wsum ch, ysum ch / wsum ch, zsum ch / wsum ch, wsum ch⟩ ch s c := by
  have hall : AllChildren ch := by
    intro j
    by_contra hj
    have hj' : (ch j).isNull = true := by simpa using hj
    obtain ⟨e, he⟩ := foldlM_accumulate_null ch (List.finRange 8) j (List.mem_finRange j) hj'
      ⟨0, 0, 0, 0⟩
    simp only [UpdateCentreOfMass] at h
    split at h
    · cases h
    · rw [he] at h
      cases h
  by_cases hw : wsum ch = 0
  · have h0 : isLeafNode ch = false := hall 0
    simp only [UpdateCentreOfMass, h0, Bool.false_eq_true, if_false] at h
    rw [foldlM_accumulate_ok ch _ (fun i _ => hall i)] at h
    simp only [bind, Except.bind, zero_add] at h
    have e1 : ((List.finRange 8).map fun i => (ch i).originOf.w).sum = wsum ch := by
      rw [wsum, Fin.sum_univ_def]
    rw [e1, hw] at h
    simp at h
  · refine ⟨hall, hw, ?_⟩
    rw [UpdateCentreOfMass_ok o ch s c hall hw] at h
    cases h
    rfl

/-! ## The recursive insert, case by case -/

theorem CentreofMass_ok (a b : Vec4) (h : a.w + b.w ≠ 0) :
    CentreofMass a b = Except.ok (com a b) := by
  simp only [CentreofMass, zero_add, h, if_false]
  rfl

theorem CentreofMass_inv (a b c : Vec4) (h : CentreofMass a b = Except.ok c) :
    a.w + b.w ≠ 0 ∧ c = com a b := by
  by_cases hw : a.w + b.w = 0
  · simp only [CentreofMass, zero_add, hw, if_true] at h
    cases h
  · rw [CentreofMass_ok a b hw] at h
    cases h
    exact ⟨hw, rfl⟩

theorem getOctant_eq_iff (o a b : Vec4) :
    getOctantContainingPoint o a = getOctantContainingPoint o b ↔
      ((a.x ≥ o.x ↔ b.x ≥ o.x) ∧ (a.y ≥ o.y ↔ b.y ≥ o.y) ∧ (a.z ≥ o.z ↔ b.z ≥ o.z)) := by
  unfold getOctantContainingPoint
  by_cases h1 : a.x ≥ o.x <;> by_cases h2 : a.y ≥ o.y <;> by_cases h3 : a.z ≥ o.z <;>
  by_cases h4 : b.x ≥ o.x <;> by_cases h5 : b.y ≥ o.y <;> by_cases h6 : b.z ≥ o.z <;>
  simp [h1, h2, h3, h4, h5, h6] <;> decide

/-- A weighted mean of two different numbers, with positive weights, separates them. -/
theorem mean_separates (u v a b : ℚ) (ha : 0 < a) (hb : 0 < b) (huv : v ≠ u) :
    ¬ (v ≥ (u * a + v * b) / (a + b) ↔ u ≥ (u * a + v * b) / (a + b)) := by
  have hab : 0 < a + b := by linarith
  rw [ge_iff_le, ge_iff_le, div_le_iff₀ hab, div_le_iff₀ hab]
  rcases lt_or_gt_of_ne huv with h | h
  · intro hiff
    have h1 : u * a + v * b ≤ u * (a + b) := by nlinarith
    have h2 := hiff.2 h1
    nlinarith
  · intro hiff
    have h1 : u * a + v * b ≤ v * (a + b) := by nlinarith
    have h2 := hiff.1 h1
    nlinarith

/-- With positive weights the assertion `oct_point != oct_origin` of the split holds. -/
theorem octant_ne_of_pos (old point : Vec4) (ho : 0 < old.w) (hp : 0 < point.w)
    (hne : ¬ (point.x = old.x ∧ point.y = old.y ∧ point.z = old.z)) :
    getOctantContainingPoint (com old point) point ≠
      getOctantContainingPoint (com old point) old := by
  intro h
  rw [getOctant_eq_iff] at h
  obtain ⟨hx, hy, hz⟩ := h
  apply hne
  refine ⟨?_, ?_, ?_⟩
  · by_contra hd
    exact mean_separates old.x point.x old.w point.w ho hp hd hx
  · by_contra hd
    exact mean_separates old.y point.y old.w point.w ho hp hd hy
  · by_contra hd
    exact mean_separates old.z point.z old.w point.w ho hp hd hz

theorem sum_splitChildren {σ : Type} (F : Octree σ → ℚ) (s : σ) (hF : F (fresh s) = 0)
    (i j : Fin 8) (hij : j ≠ i) (A B : Octree σ) :
    ∑ k, F (splitChildren s i j A B k) = F A + F B := by
  have h : ∀ k, F (splitChildren s i j A B k) =
      (if k = i then F A else 0) + (if k = j then F B else 0) := by
    intro k
    unfold splitChildren
    by_cases hk : k = j
    · subst hk
      simp [hij]
    · by_cases hk2 : k = i
      · subst hk2
        simp [hk]
      · simp [hk, hk2, hF]
  simp only [h, Finset.sum_add_distrib, Finset.sum_ite_eq', Finset.mem_univ, if_true]

theorem wsum_splitChildren {σ : Type} (s : σ) (i j : Fin 8) (hij : j ≠ i) (A B : Octree σ) :
    wsum (splitChildren s i j A B) = A.originOf.w + B.originOf.w :=
  sum_splitChildren (fun t => t.originOf.w) s rfl i j hij A B

theorem xsum_splitChildren {σ : Type} (s : σ) (i j : Fin 8) (hij : j ≠ i) (A B : Octree σ) :
    xsum (splitChildren s i j A B) =
      A.originOf.x * A.originOf.w + B.originOf.x * B.originOf.w :=
  sum_splitChildren (fun t => t.originOf.x * t.originOf.w) s (by simp [fresh, originOf]) i j hij A B

theorem ysum_splitChildren {σ : Type} (s : σ) (i j : Fin 8) (hij : j ≠ i) (A B : Octree σ) :
    ysum (splitChildren s i j A B) =
      A.originOf.y * A.originOf.w + B.originOf.y * B.originOf.w :=
  sum_splitChildren (fun t => t.originOf.y * t.originOf.w) s (by simp [fresh, originOf]) i j hij A B

theorem zsum_splitChildren {σ : Type} (s : σ) (i j : Fin 8) (hij : j ≠ i) (A B : Octree σ) :
    zsum (splitChildren s i j A B) =
      A.originOf.z * A.originOf.w + B.originOf.z * B.originOf.w :=
  sum_splitChildren (fun t => t.originOf.z * t.originOf.w) s (by simp [fresh, originOf]) i j hij A B

theorem splitChildren_allChildren {σ : Type} (s : σ) (i j : Fin 8) (A B : Octree σ)
    (hA : A.isNull = false) (hB : B.isNull = false) : AllChildren (splitChildren s i j A B) := by
  intro k
  unfold splitChildren
  by_cases hk : k = j
  · subst hk
    simpa using hB
  · by_cases hk2 : k = i
    · subst hk2
      simpa [hk] using hA
    · simp [hk, hk2, fresh, isNull]

theorem insert_clean (o : Vec4) (ch : Fin 8 → Octree Unit) (s : Unit) (p : Vec4)
    (hl : isLeafNode ch = true) :
    insert (node o ch s true) p = Except.ok (node p ch s false) := by
  rw [insert]
  simp [hl]
  rfl

theorem insert_fresh (p : Vec4) :
    insert (fresh ()) p = Except.ok (node p (fun _ => null) () false) :=
  insert_clean _ _ _ _ rfl

theorem insert_merge (o : Vec4) (ch : Fin 8 → Octree Unit) (s : Unit) (p : Vec4)
    (hl : isLeafNode ch = true) (hx : p.x = o.x) (hy : p.y = o.y) (hz : p.z = o.z) :
    insert (node o ch s false) p = Except.ok (node ⟨o.x, o.y, o.z, o.w + p.w⟩ ch s false) := by
  rw [insert]
  simp [hl, hx, hy, hz]
  rfl

theorem insert_interior (o : Vec4) (ch : Fin 8 → Octree Unit) (s : Unit) (c : Bool) (p : Vec4)
    (hl : isLeafNode ch = false) :
    insert (node o ch s c) p =
      (insert (ch (getOctantContainingPoint o p)) p).bind fun t =>
        UpdateCentreOfMass (node o (Function.update ch (getOctantContainingPoint o p) t) s c) := by
  rw [insert]
  simp [hl]
  rfl

/-- The split branch before its final `UpdateCentreOfMass`. -/
theorem insert_split_raw (o : Vec4) (ch : Fin 8 → Octree Unit) (s : Unit) (p : Vec4)
    (hl : isLeafNode ch = true) (hne : ¬ (p.x = o.x ∧ p.y = o.y ∧ p.z = o.z))
    (hw : o.w + p.w ≠ 0)
    (hoct : getOctantContainingPoint (com o p) p ≠ getOctantContainingPoint (com o p) o) :
    insert (node o ch s false) p =
      UpdateCentreOfMass (node (com o p)
        (splitChildren () (getOctantContainingPoint (com o p) o)
          (getOctantContainingPoint (com o p) p)
          (node o (fun _ => null) () false) (node p (fun _ => null) () false)) s false) := by
  rw [insert]
  simp only [hl, if_true, Bool.false_eq_true, dite_false, hne, if_false]
  rw [CentreofMass_ok o p hw]
  simp only [bind, Except.bind, hoct, dite_false, insert_fresh, Function.update_noteq hoct]
  rfl

theorem insert_split (o : Vec4) (ch : Fin 8 → Octree Unit) (s : Unit) (p : Vec4)
    (hl : isLeafNode ch = true) (hne : ¬ (p.x = o.x ∧ p.y = o.y ∧ p.z = o.z))
    (hw : o.w + p.w ≠ 0)
    (hoct : getOctantContainingPoint (com o p) p ≠ getOctantContainingPoint (com o p) o) :
    insert (node o ch s false) p =
      Except.ok (node (com o p)
        (splitChildren () (getOctantContainingPoint (com o p) o)
          (getOctantContainingPoint (com o p) p)
          (node o (fun _ => null) () false) (node p (fun _ => null) () false)) s false) := by
  rw [insert_split_raw o ch s p hl hne hw hoct]
  have hall := splitChildren_allChildren () (getOctantContainingPoint (com o p) o)
    (getOctantContainingPoint (com o p) p)
    (node o (fun _ => null) () false) (node p (fun _ => null) () false) rfl rfl
  have e1 := wsum_splitChildren () _ _ hoct
    (node o (fun _ => null) () false) (node p (fun _ => null) () false)
  rw [UpdateCentreOfMass_ok _ _ _ _ hall (by rw [e1]; exact hw), e1,
    xsum_splitChildren () _ _ hoct, ysum_splitChildren () _ _ hoct, zsum_splitChildren () _ _ hoct]
  rfl

/-! ## The recursive insert on trees built from positive weights -/

theorem Built.isNull_false {t : Octree Unit} (h : Built t) : t.isNull = false := by
  cases h <;> rfl

theorem sum_update_child {σ : Type} (F : Octree σ → ℚ) (ch : Fin 8 → Octree σ) (j : Fin 8)
    (c : Octree σ) :
    ∑ k, F (Function.update ch j c k) = ∑ k, F (ch k) + (F c - F (ch j)) := by
  have h : ∀ k, F (Function.update ch j c k) = F (ch k) + (if k = j then F c - F (ch j) else 0) := by
    intro k
    by_cases hk : k = j
    · subst hk
      simp
    · simp [hk]
  simp only [h, Finset.sum_add_distrib, Finset.sum_ite_eq', Finset.mem_univ, if_true]

/-- One `insert` of a positive-weight point into a built tree returns a built tree whose
root weight and root moments grew by those of the point. -/
theorem Built.insert_ok {t : Octree Unit} (ht : Built t) (p : Vec4) (hp : 0 < p.w) :
    ∃ t', insert t p = Except.ok t' ∧ Built t' ∧
      t'.originOf.w = t.originOf.w + p.w ∧
      t'.originOf.x * t'.originOf.w = t.originOf.x * t.originOf.w + p.x * p.w ∧
      t'.originOf.y * t'.originOf.w = t.originOf.y * t.originOf.w + p.y * p.w ∧
      t'.originOf.z * t'.originOf.w = t.originOf.z * t.originOf.w + p.z * p.w := by
  induction ht with
  | empty s =>
    refine ⟨_, insert_clean _ _ _ _ rfl, Built.leaf p s hp, ?_, ?_, ?_, ?_⟩ <;> simp [originOf]
  | leaf o s ho =>
    by_cases hsame : p.x = o.x ∧ p.y = o.y ∧ p.z = o.z
    · obtain ⟨hx, hy, hz⟩ := hsame
      refine ⟨_, insert_merge o _ s p rfl hx hy hz, Built.leaf _ s (by show 0 < o.w + p.w; linarith),
        ?_, ?_, ?_, ?_⟩
      · simp [originOf]
      · simp only [originOf]; rw [hx]; ring
      · simp only [originOf]; rw [hy]; ring
      · simp only [originOf]; rw [hz]; ring
    · have hw : o.w + p.w ≠ 0 := by
        have : 0 < o.w + p.w := by linarith
        exact ne_of_gt this
      have hoct := octant_ne_of_pos o p ho hp hsame
      refine ⟨_, insert_split o _ s p rfl hsame hw hoct, ?_, ?_, ?_, ?_, ?_⟩
      · have e1 : (com o p).w = wsum (splitChildren () (getOctantContainingPoint (com o p) o)
            (getOctantContainingPoint (com o p) p)
            (node o (fun _ => null) () false) (node p (fun _ => null) () false)) := by
          rw [wsum_splitChildren () _ _ hoct]; rfl
        have e2 : (com o p).x * (com o p).w = xsum (splitChildren ()
            (getOctantContainingPoint (com o p) o) (getOctantContainingPoint (com o p) p)
            (node o (fun _ => null) () false) (node p (fun _ => null) () false)) := by
          rw [xsum_splitChildren () _ _ hoct]
          simp only [com, originOf]
          field_simp
        have e3 : (com o p).y * (com o p).w = ysum (splitChildren ()
            (getOctantContainingPoint (com o p) o) (getOctantContainingPoint (com o p) p)
            (node o (fun _ => null) () false) (node p (fun _ => null) () false)) := by
          rw [ysum_splitChildren () _ _ hoct]
          simp only [com, originOf]
          field_simp
        have e4 : (com o p).z * (com o p).w = zsum (splitChildren ()
            (getOctantContainingPoint (com o p) o) (getOctantContainingPoint (com o p) p)
            (node o (fun _ => null) () false) (node p (fun _ => null) () false)) := by
          rw [zsum_splitChildren () _ _ hoct]
          simp only [com, originOf]
          field_simp
        refine Built.inner _ _ s ?_ (by show 0 < o.w + p.w; linarith) e1 e2 e3 e4
        intro k
        unfold splitChildren
        by_cases hk : k = getOctantContainingPoint (com o p) p
        · subst hk
          simpa using Built.leaf p () hp
        · by_cases hk2 : k = getOctantContainingPoint (com o p) o
          · subst hk2
            simpa [hk] using Built.leaf o () ho
          · simpa [hk, hk2, fresh] using Built.empty ()
      · simp [originOf, com]
      · simp only [originOf, com]; field_simp
      · simp only [originOf, com]; field_simp
      · simp only [originOf, com]; field_simp
  | inner o ch s hch ho hw hx hy hz ih =>
    have hl : isLeafNode ch = false := (hch 0).isNull_false
    obtain ⟨c, hc, hcb, cw, cx, cy, cz⟩ := ih (getOctantContainingPoint o p)
    have hall : AllChildren (Function.update ch (getOctantContainingPoint o p) c) := by
      intro k
      by_cases hk : k = getOctantContainingPoint o p
      · subst hk
        simpa using hcb.isNull_false
      · simpa [hk] using (hch k).isNull_false
    have ew : wsum (Function.update ch (getOctantContainingPoint o p) c) = o.w + p.w := by
      rw [wsum, sum_update_child (fun t => t.originOf.w), cw, hw, wsum]
      ring
    have ex : xsum (Function.update ch (getOctantContainingPoint o p) c) = o.x * o.w + p.x * p.w := by
      rw [xsum, sum_update_child (fun t => t.originOf.x * t.originOf.w), cx, hx, xsum]
      ring
    have ey : ysum (Function.update ch (getOctantContainingPoint o p) c) = o.y * o.w + p.y * p.w := by
      rw [ysum, sum_update_child (fun t => t.originOf.y * t.originOf.w), cy, hy, ysum]
      ring
    have ez : zsum (Function.update ch (getOctantContainingPoint o p) c) = o.z * o.w + p.z * p.w := by
      rw [zsum, sum_update_child (fun t => t.originOf.z * t.originOf.w), cz, hz, zsum]
      ring
    have hpos : 0 < o.w + p.w := by linarith
    have hne : wsum (Function.update ch (getOctantContainingPoint o p) c) ≠ 0 := by
      rw [ew]; exact ne_of_gt hpos
    refine ⟨node ⟨xsum (Function.update ch (getOctantContainingPoint o p) c) /
          wsum (Function.update ch (getOctantContainingPoint o p) c),
        ysum (Function.update ch (getOctantContainingPoint o p) c) /
          wsum (Function.update ch (getOctantContainingPoint o p) c),
        zsum (Function.update ch (getOctantContainingPoint o p) c) /
          wsum (Function.update ch (getOctantContainingPoint o p) c),
        wsum (Function.update ch (getOctantContainingPoint o p) c)⟩
        (Function.update ch (getOctantContainingPoint o p) c) s false, ?_, ?_, ?_, ?_, ?_, ?_⟩
    · rw [insert_interior o ch s false p hl, hc]
      exact UpdateCentreOfMass_ok o _ s false hall hne
    · refine Built.inner _ _ s ?_ (by show 0 < wsum _; rw [ew]; exact hpos) rfl ?_ ?_ ?_
      · intro k
        by_cases hk : k = getOctantContainingPoint o p
        · subst hk
          simpa using hcb
        · simpa [hk] using hch k
      · show xsum _ / wsum _ * wsum _ = xsum _
        field_simp
      · show ysum _ / wsum _ * wsum _ = ysum _
        field_simp
      · show zsum _ / wsum _ * wsum _ = zsum _
        field_simp
    · simp only [originOf]; exact ew
    · simp only [originOf]; rw [div_mul_cancel₀ _ hne]; exact ex
    · simp only [originOf]; rw [div_mul_cancel₀ _ hne]; exact ey
    · simp only [originOf]; rw [div_mul_cancel₀ _ hne]; exact ez

theorem Built.origin_of_weight_zero {t : Octree Unit} (h : Built t) (hw : t.originOf.w = 0) :
    t.originOf = ⟨0, 0, 0, 0⟩ := by
  cases h with
  | empty s => rfl
  | leaf o s ho => simp only [originOf] at hw; rw [hw] at ho; exact absurd ho (lt_irrefl _)
  | inner o ch s hch ho => simp only [originOf] at hw; rw [hw] at ho; exact absurd ho (lt_irrefl _)

theorem Built.weight_pos {t : Octree Unit} (h : Built t) (hc : t.cleanOf = false) :
    0 < t.originOf.w := by
  cases h with
  | empty s => cases hc
  | leaf o s ho => exact ho
  | inner o ch s hch ho => exact ho

theorem Built.exists_node {t : Octree Unit} (h : Built t) :
    ∃ ch s c, t = node t.originOf ch s c := by
  cases h with
  | empty s => exact ⟨_, _, _, rfl⟩
  | leaf o s ho => exact ⟨_, _, _, rfl⟩
  | inner o ch s hch ho => exact ⟨_, _, _, rfl⟩

/-- Inserting a list of positive-weight points, one at a time, into a built tree. -/
theorem Built.foldlM_insert_ok (ps : List Vec4) (hpos : ∀ p ∈ ps, 0 < p.w) :
    ∀ {t : Octree Unit}, Built t → ∃ t', ps.foldlM insert t = Except.ok t' ∧ Built t' ∧
      t'.originOf.w = t.originOf.w + (ps.map fun p => p.w).sum ∧
      t'.originOf.x * t'.originOf.w =
        t.originOf.x * t.originOf.w + (ps.map fun p => p.x * p.w).sum ∧
      t'.originOf.y * t'.originOf.w =
        t.originOf.y * t.originOf.w + (ps.map fun p => p.y * p.w).sum ∧
      t'.originOf.z * t'.originOf.w =
        t.originOf.z * t.originOf.w + (ps.map fun p => p.z * p.w).sum := by
  induction ps with
  | nil =>
    intro t ht
    exact ⟨t, rfl, ht, by simp, by simp, by simp, by simp⟩
  | cons p ps ih =>
    intro t ht
    obtain ⟨t1, h1, hb1, w1, x1, y1, z1⟩ := ht.insert_ok p (hpos p (List.mem_cons_self _ _))
    obtain ⟨t2, h2, hb2, w2, x2, y2, z2⟩ :=
      ih (fun q hq => hpos q (List.mem_cons_of_mem _ hq)) hb1
    refine ⟨t2, ?_, hb2, ?_, ?_, ?_, ?_⟩
    · rw [List.foldlM_cons, h1]
      exact h2
    · rw [w2, w1]; simp only [List.map_cons, List.sum_cons]; ring
    · rw [x2, x1]; simp only [List.map_cons, List.sum_cons]; ring
    · rw [y2, y1]; simp only [List.map_cons, List.sum_cons]; ring
    · rw [z2, z1]; simp only [List.map_cons, List.sum_cons]; ring

/-- The recursive build from positive weights returns a tree whose root carries the total
weight and the total moments of the points. -/
theorem ConstructOctTree_ok (ps : List Vec4) (hpos : ∀ p ∈ ps, 0 < p.w) :
    ∃ t, ConstructOctTree ps = Except.ok t ∧ Built t ∧
      t.originOf.w = (ps.map fun p => p.w).sum ∧
      t.originOf.x * t.originOf.w = (ps.map fun p => p.x * p.w).sum ∧
      t.originOf.y * t.originOf.w = (ps.map fun p => p.y * p.w).sum ∧
      t.originOf.z * t.originOf.w = (ps.map fun p => p.z * p.w).sum := by
  obtain ⟨t, h, hb, hw, hx, hy, hz⟩ := Built.foldlM_insert_ok ps hpos (Built.empty ())
  refine ⟨t, h, hb, ?_, ?_, ?_, ?_⟩
  · rw [hw]; simp [originOf]
  · rw [hx]; simp [originOf]
  · rw [hy]; simp [originOf]
  · rw [hz]; simp [originOf]

/-! ## The invariants of every reachable tree (any weights) -/

theorem noChildren_null {σ : Type} : NoChildren (fun _ : Fin 8 => (null : Octree σ)) :=
  fun _ => rfl

theorem nodeInv_of_noChildren {σ : Type} (o : Vec4) (ch : Fin 8 → Octree σ) (s : σ) (c : Bool)
    (h : NoChildren ch) : NodeInv o ch s c :=
  ⟨Or.inl h, fun hn => absurd h hn⟩

theorem forall_leaf {σ : Type} (P : Vec4 → (Fin 8 → Octree σ) → σ → Bool → Prop)
    (o : Vec4) (s : σ) (c : Bool) (h : P o (fun _ => null) s c) :
    Forall P (node o (fun _ => null) s c) :=
  ⟨h, fun _ => trivial⟩

theorem forall_nodeInv_fresh {σ : Type} (s : σ) : Forall NodeInv (fresh s) :=
  forall_leaf _ _ _ _ (nodeInv_of_noChildren _ _ _ _ noChildren_null)

theorem forall_splitChildren {σ : Type} (P : Vec4 → (Fin 8 → Octree σ) → σ → Bool → Prop)
    (s : σ) (i j : Fin 8) (A B : Octree σ) (hf : Forall P (fresh s)) (hA : Forall P A)
    (hB : Forall P B) (k : Fin 8) : Forall P (splitChildren s i j A B k) := by
  unfold splitChildren
  by_cases hk : k = j
  · subst hk
    simpa using hB
  · by_cases hk2 : k = i
    · subst hk2
      simpa [hk] using hA
    · simpa [hk, hk2] using hf

theorem forall_update {σ : Type} (P : Vec4 → (Fin 8 → Octree σ) → σ → Bool → Prop)
    (ch : Fin 8 → Octree σ) (j : Fin 8) (c : Octree σ) (hch : ∀ i, Forall P (ch i))
    (hc : Forall P c) (k : Fin 8) : Forall P (Function.update ch j c k) := by
  by_cases hk : k = j
  · subst hk
    simpa using hc
  · simpa [hk] using hch k

theorem CentreofMass_zero (a b : Vec4) (h : a.w + b.w = 0) :
    CentreofMass a b = Except.error Fault.divByZero := by
  simp only [CentreofMass, zero_add, h, if_true]
  rfl

/-- What a returning call of the split branch of the recursive `insert` has done. -/
theorem insert_split_inv (o : Vec4) (ch : Fin 8 → Octree Unit) (s : Unit) (p : Vec4)
    (t' : Octree Unit) (hl : isLeafNode ch = true)
    (hne : ¬ (p.x = o.x ∧ p.y = o.y ∧ p.z = o.z))
    (h : insert (node o ch s false) p = Except.ok t') :
    o.w + p.w ≠ 0 ∧
    getOctantContainingPoint (com o p) p ≠ getOctantContainingPoint (com o p) o ∧
    t' = node (com o p)
        (splitChildren () (getOctantContainingPoint (com o p) o)
          (getOctantContainingPoint (com o p) p)
          (node o (fun _ => null) () false) (node p (fun _ => null) () false)) s false := by
  by_cases hw : o.w + p.w = 0
  · rw [insert] at h
    simp only [hl, if_true, Bool.false_eq_true, dite_false, hne, if_false] at h
    rw [CentreofMass_zero o p hw] at h
    cases h
  · by_cases hoct : getOctantContainingPoint (com o p) p = getOctantContainingPoint (com o p) o
    · rw [insert] at h
      simp only [hl, if_true, Bool.false_eq_true, dite_false, hne, if_false] at h
      rw [CentreofMass_ok o p hw] at h
      simp only [bind, Except.bind, hoct, dite_true] at h
      cases h
    · rw [insert_split o ch s p hl hne hw hoct] at h
      cases h
      exact ⟨hw, hoct, rfl⟩

/-- A returning call of the recursive `insert` keeps both invariants at every node. -/
theorem insert_preserves_nodeInv (t : Octree Unit) :
    ∀ (p : Vec4) (t' : Octree Unit), Forall NodeInv t → insert t p = Except.ok t' →
      Forall NodeInv t' := by
  induction t with
  | null =>
    intro p t' _ h
    rw [insert] at h
    cases h
  | node o ch s c ih =>
    intro p t' hinv h
    obtain ⟨hnode, hchildren⟩ := hinv
    cases hl : isLeafNode ch with
    | true =>
      have hno : NoChildren ch := by
        rcases hnode.1 with h1 | h1
        · exact h1
        · have := h1 0
          rw [isLeafNode] at hl
          rw [hl] at this
          cases this
      cases c with
      | true =>
        rw [insert_clean o ch s p hl] at h
        cases h
        exact ⟨nodeInv_of_noChildren _ _ _ _ hno, hchildren⟩
      | false =>
        by_cases hsame : p.x = o.x ∧ p.y = o.y ∧ p.z = o.z
        · rw [insert_merge o ch s p hl hsame.1 hsame.2.1 hsame.2.2] at h
          cases h
          exact ⟨nodeInv_of_noChildren _ _ _ _ hno, hchildren⟩
        · obtain ⟨hw, hoct, rfl⟩ := insert_split_inv o ch s p t' hl hsame h
          refine ⟨⟨Or.inr (splitChildren_allChildren _ _ _ _ _ rfl rfl), fun _ => ?_⟩, ?_⟩
          · rw [wsum_splitChildren () _ _ hoct]
            rfl
          · intro k
            exact forall_splitChildren _ _ _ _ _ _ (forall_nodeInv_fresh ())
              (forall_leaf _ _ _ _ (nodeInv_of_noChildren _ _ _ _ noChildren_null))
              (forall_leaf _ _ _ _ (nodeInv_of_noChildren _ _ _ _ noChildren_null)) k
    | false =>
      rw [insert_interior o ch s c p hl] at h
      cases hc : insert (ch (getOctantContainingPoint o p)) p with
      | error e =>
        rw [hc] at h
        cases h
      | ok c' =>
        rw [hc] at h
        obtain ⟨hall, _, rfl⟩ := UpdateCentreOfMass_inv o
          (Function.update ch (getOctantContainingPoint o p) c') s c t' h
        refine ⟨⟨Or.inr hall, fun _ => rfl⟩, ?_⟩
        intro k
        exact forall_update _ _ _ _ hchildren
          (ih _ p c' (hchildren _) hc) k

/-- Every tree the recursive `insert` can reach satisfies both invariants at every node. -/
theorem reachable_nodeInv {t : Octree Unit} (h : Reachable t) : Forall NodeInv t := by
  induction h with
  | fresh => exact forall_nodeInv_fresh ()
  | step t t' p _ hins ih => exact insert_preserves_nodeInv t p t' ih hins

/-- In a tree satisfying both invariants every pointer carries the weight of the leaves
below it. -/
theorem weight_eq_leafWeight {σ : Type} (t : Octree σ) (h : Forall NodeInv t) :
    t.originOf.w = leafWeight t := by
  induction t with
  | null => rfl
  | node o ch s c ih =>
    obtain ⟨hnode, hchildren⟩ := h
    by_cases hno : NoChildren ch
    · have : (∀ i, (ch i).isNull = true) := hno
      simp only [leafWeight, originOf, this, implies_true, if_true]
    · have hno' : ¬ (∀ i, (ch i).isNull = true) := hno
      simp only [leafWeight, originOf, hno', if_false]
      rw [hnode.2 hno, wsum]
      exact Finset.sum_congr rfl (fun i _ => ih i (hchildren i))

theorem forall_imp {σ : Type} (P Q : Vec4 → (Fin 8 → Octree σ) → σ → Bool → Prop)
    (t : Octree σ) (h : Forall P t)
    (himp : ∀ o ch s c, Forall P (node o ch s c) → Q o ch s c) : Forall Q t := by
  induction t with
  | null => trivial
  | node o ch s c ih =>
    exact ⟨himp o ch s c h, fun i => ih i (h.2 i)⟩

theorem sumOfLeaves_of_nodeInv {σ : Type} (t : Octree σ) (h : Forall NodeInv t) :
    Forall SumOfLeaves t :=
  forall_imp _ _ t h (fun o ch s c hn _ => weight_eq_leafWeight (node o ch s c) hn)

/-! ## V3: paths, the scratch chain, and the invariants -/

theorem subtree_nil {σ : Type} (t : Octree σ) : t.subtree [] = t := by
  cases t <;> rfl

theorem modifyAt_nil {σ : Type} (f : Octree σ → Except Fault (Octree σ)) (t : Octree σ) :
    modifyAt f t [] = f t := by
  cases t <;> rfl

theorem modifyAt_cons_inv {σ : Type} (f : Octree σ → Except Fault (Octree σ)) (t t' : Octree σ)
    (i : Fin 8) (rest : Path) (h : modifyAt f t (i :: rest) = Except.ok t') :
    ∃ o ch s c c', t = node o ch s c ∧ modifyAt f (ch i) rest = Except.ok c' ∧
      t' = node o (Function.update ch i c') s c := by
  cases t with
  | null => simp [modifyAt, throw, throwThe, MonadExceptOf.throw] at h
  | node o ch s c =>
    simp only [modifyAt] at h
    cases hc : modifyAt f (ch i) rest with
    | error e => rw [hc] at h; cases h
    | ok c' =>
      rw [hc] at h
      cases h
      exact ⟨o, ch, s, c, c', rfl, hc, rfl⟩

theorem subtree_append {σ : Type} (t : Octree σ) (p q : Path) :
    t.subtree (p ++ q) = (t.subtree p).subtree q := by
  induction p generalizing t with
  | nil => rw [subtree_nil]; rfl
  | cons i p ih =>
    cases t with
    | null => cases q <;> rfl
    | node o ch s c => exact ih (ch i)

/-- A modification at the end of a path leaves the scratch slots above it alone. -/
theorem scratchAt_modifyAt_above (f : Octree Ptr → Except Fault (Octree Ptr)) (path : Path) :
    ∀ (t t' : Octree Ptr) (j : Nat), j < path.length → modifyAt f t path = Except.ok t' →
      scratchAt t' (path.take j) = scratchAt t (path.take j) := by
  induction path with
  | nil => intro t t' j hj; simp at hj
  | cons i rest ih =>
    intro t t' j hj h
    obtain ⟨o, ch, s, c, c', rfl, hc, rfl⟩ := modifyAt_cons_inv f t t' i rest h
    cases j with
    | zero => rfl
    | succ j =>
      have hj' : j < rest.length := by simpa using hj
      have := ih (ch i) c' j hj' hc
      simpa [scratchAt, subtree] using this

/-- After `root->scratch = v` the slot of `root` holds `v`. -/
theorem scratchAt_setScratch (v : Ptr) (path : Path) :
    ∀ (t t' : Octree Ptr), modifyAt (V3.setScratch v) t path = Except.ok t' →
      scratchAt t' path = some v := by
  induction path with
  | nil =>
    intro t t' h
    cases t with
    | null => cases h
    | node o ch s c => cases h; rfl
  | cons i rest ih =>
    intro t t' h
    obtain ⟨o, ch, s, c, c', rfl, hc, rfl⟩ := modifyAt_cons_inv _ t t' i rest h
    have := ih (ch i) c' hc
    simpa [scratchAt, subtree] using this

/-- A call of `UpdateCentreOfMass` somewhere in the tree changes no scratch slot. -/
theorem scratchAt_update (path : Path) :
    ∀ (t t' : Octree Ptr) (q : Path), modifyAt UpdateCentreOfMass t path = Except.ok t' →
      scratchAt t' q = scratchAt t q := by
  induction path with
  | nil =>
    intro t t' q h
    cases t with
    | null => cases h
    | node o ch s c =>
      obtain ⟨_, _, rfl⟩ := UpdateCentreOfMass_inv o ch s c t' h
      cases q <;> rfl
  | cons i rest ih =>
    intro t t' q h
    obtain ⟨o, ch, s, c, c', rfl, hc, rfl⟩ := modifyAt_cons_inv _ t t' i rest h
    cases q with
    | nil => rfl
    | cons k q =>
      by_cases hk : k = i
      · subst hk
        have := ih (ch k) c' q hc
        simpa [scratchAt, subtree] using this
      · simp [scratchAt, subtree, hk]

/-- A modification that keeps the root fields `origin` and nullness of the object it works
on, and the invariants below it, keeps the invariants of the whole tree. -/
theorem modifyAt_frame {σ : Type} (f : Octree σ → Except Fault (Octree σ)) (path : Path) :
    ∀ (t t' : Octree σ),
      (∀ u, f (t.subtree path) = Except.ok u →
        u.originOf = (t.subtree path).originOf ∧ u.isNull = (t.subtree path).isNull ∧
        (Forall NodeInv (t.subtree path) → Forall NodeInv u)) →
      modifyAt f t path = Except.ok t' → Forall NodeInv t →
      t'.originOf = t.originOf ∧ t'.isNull = t.isNull ∧ Forall NodeInv t' := by
  induction path with
  | nil =>
    intro t t' hf h hinv
    rw [modifyAt_nil] at h
    rw [subtree_nil] at hf
    obtain ⟨h1, h2, h3⟩ := hf t' h
    exact ⟨h1, h2, h3 hinv⟩
  | cons i rest ih =>
    intro t t' hf h hinv
    obtain ⟨o, ch, s, c, c', rfl, hc, rfl⟩ := modifyAt_cons_inv f t t' i rest h
    obtain ⟨e1, e2, e3⟩ := ih (ch i) c' hf hc (hinv.2 i)
    refine ⟨rfl, rfl, ⟨?_, ?_⟩, forall_update _ _ _ _ hinv.2 e3⟩
    · rcases hinv.1.1 with hno | hall
      · left
        intro k
        by_cases hk : k = i
        · subst hk
          simpa [e2] using hno k
        · simpa [hk] using hno k
      · right
        intro k
        by_cases hk : k = i
        · subst hk
          simpa [e2] using hall k
        · simpa [hk] using hall k
    · intro hn
      have hn' : ¬ NoChildren ch := by
        intro hno
        apply hn
        intro k
        by_cases hk : k = i
        · subst hk
          simpa [e2] using hno k
        · simpa [hk] using hno k
      have := hinv.1.2 hn'
      show o.w = wsum (Function.update ch i c')
      rw [this, wsum, wsum, sum_update_child (fun t => t.originOf.w), e1]
      ring

/-- A modification at the end of a path, in a tree satisfying the invariants, leaves a
tree that satisfies them off the path. -/
theorem invAlong_of_modifyAt {σ : Type} (f : Octree σ → Except Fault (Octree σ)) (path : Path) :
    ∀ (t t' : Octree σ),
      (∀ u, f (t.subtree path) = Except.ok u → Forall NodeInv u) →
      modifyAt f t path = Except.ok t' → Forall NodeInv t → InvAlong path t' := by
  induction path with
  | nil =>
    intro t t' hf h _
    rw [modifyAt_nil] at h
    rw [subtree_nil] at hf
    exact hf t' h
  | cons i rest ih =>
    intro t t' hf h hinv
    obtain ⟨o, ch, s, c, c', rfl, hc, rfl⟩ := modifyAt_cons_inv f t t' i rest h
    refine ⟨fun k hk => ?_, ?_⟩
    · simpa [hk] using hinv.2 k
    · simpa using ih (ch i) c' hf hc (hinv.2 i)

/-- The same, starting from a tree that satisfies the invariants off the path. -/
theorem invAlong_modifyAt {σ : Type} (f : Octree σ → Except Fault (Octree σ)) (path : Path) :
    ∀ (t t' : Octree σ),
      (∀ u, Forall NodeInv (t.subtree path) → f (t.subtree path) = Except.ok u →
        Forall NodeInv u) →
      modifyAt f t path = Except.ok t' → InvAlong path t → InvAlong path t' := by
  induction path with
  | nil =>
    intro t t' hf h hinv
    rw [modifyAt_nil] at h
    rw [subtree_nil] at hf
    exact hf t' hinv h
  | cons i rest ih =>
    intro t t' hf h hinv
    obtain ⟨o, ch, s, c, c', rfl, hc, rfl⟩ := modifyAt_cons_inv f t t' i rest h
    refine ⟨fun k hk => ?_, ?_⟩
    · simpa [hk] using hinv.1 k hk
    · simpa using ih (ch i) c' hf hc hinv.2

/-- A call of `UpdateCentreOfMass` on the parent of the end of the path repairs the parent. -/
theorem invAlong_update {σ : Type} (path : Path) (i : Fin 8) :
    ∀ (t t' : Octree σ), modifyAt UpdateCentreOfMass t path = Except.ok t' →
      InvAlong (path ++ [i]) t → InvAlong path t' := by
  induction path with
  | nil =>
    intro t t' h hinv
    cases t with
    | null => cases h
    | node o ch s c =>
      obtain ⟨hall, _, rfl⟩ := UpdateCentreOfMass_inv o ch s c t' h
      refine ⟨⟨Or.inr hall, fun _ => rfl⟩, fun k => ?_⟩
      by_cases hk : k = i
      · subst hk
        exact hinv.2
      · exact hinv.1 k hk
  | cons j rest ih =>
    intro t t' h hinv
    obtain ⟨o, ch, s, c, c', rfl, hc, rfl⟩ := modifyAt_cons_inv _ t t' j rest h
    refine ⟨fun k hk => ?_, ?_⟩
    · simpa [hk] using hinv.1 k hk
    · simpa using ih (ch j) c' hc hinv.2

theorem forall_subtree {σ : Type} (P : Vec4 → (Fin 8 → Octree σ) → σ → Bool → Prop)
    (path : Path) : ∀ (t : Octree σ), Forall P t → Forall P (t.subtree path) := by
  induction path with
  | nil => intro t h; rw [subtree_nil]; exact h
  | cons i rest ih =>
    intro t h
    cases t with
    | null => exact h
    | node o ch s c => exact ih (ch i) (h.2 i)

theorem getScratch_subtree (t : Octree Ptr) (path : Path) (v : Ptr)
    (h : V3.getScratch (t.subtree path) = Except.ok v) : scratchAt t path = some v := by
  unfold scratchAt
  cases hs : t.subtree path with
  | null => rw [hs] at h; cases h
  | node o ch s c => rw [hs] at h; cases h; rfl

theorem setScratch_inv (v : Ptr) (t u : Octree Ptr) (h : V3.setScratch v t = Except.ok u) :
    u.originOf = t.originOf ∧ u.isNull = t.isNull ∧ (Forall NodeInv t → Forall NodeInv u) := by
  cases t with
  | null => cases h
  | node o ch s c =>
    cases h
    exact ⟨rfl, rfl, fun hinv => hinv⟩

theorem parentPtr_concat (path : Path) (i : Fin 8) : parentPtr (path ++ [i]) = some path := by
  simp [parentPtr]

/-- The state the first loop of `insertImpl` keeps, and the state it stops in: `tail` points
to the parent of `root`, every node above `root` has its parent in its scratch slot, and
`root` is a leaf. -/
theorem descend_spec (point : Vec4) (fuel : Nat) :
    ∀ (tree : Octree Ptr) (root : Path) (tail : Ptr) (tree' : Octree Ptr) (root' : Path)
      (tail' : Ptr),
      V3.descend point fuel tree root tail = Except.ok (tree', root', tail') →
      tail = parentPtr root →
      (∀ j, j < root.length → scratchAt tree (root.take j) = some (parentPtr (root.take j))) →
      tail' = parentPtr root' ∧
      (∀ j, j < root'.length →
        scratchAt tree' (root'.take j) = some (parentPtr (root'.take j))) ∧
      ∃ o ch s c, tree'.subtree root' = node o ch s c ∧ isLeafNode ch = true := by
  induction fuel with
  | zero =>
    intro tree root tail tree' root' tail' h
    cases h
  | succ fuel ih =>
    intro tree root tail tree' root' tail' h htail hchain
    simp only [V3.descend] at h
    cases hs : tree.subtree root with
    | null =>
      rw [hs] at h
      cases h
    | node o ch s c =>
      rw [hs] at h
      simp only at h
      cases hl : isLeafNode ch with
      | true =>
        rw [hl] at h
        simp only [if_true] at h
        cases h
        exact ⟨htail, hchain, o, ch, s, c, hs, hl⟩
      | false =>
        rw [hl] at h
        simp only [Bool.false_eq_true, if_false] at h
        cases hm : modifyAt (V3.setScratch tail) tree root with
        | error e =>
          rw [hm] at h
          cases h
        | ok tree2 =>
          rw [hm] at h
          refine ih tree2 (root ++ [getOctantContainingPoint o point]) (some root) tree' root'
            tail' h (parentPtr_concat _ _).symm ?_
          intro j hj
          rw [List.length_append, List.length_singleton] at hj
          by_cases hjl : j < root.length
          · rw [List.take_append_of_le_length (le_of_lt hjl),
              scratchAt_modifyAt_above _ root tree tree2 j hjl hm]
            exact hchain j hjl
          · have hje : j = root.length := by omega
            subst hje
            rw [List.take_left, scratchAt_setScratch tail root tree tree2 hm, htail]

/-- The first loop of `insertImpl` writes scratch slots only: the invariants are kept. -/
theorem descend_preserves_nodeInv (point : Vec4) (fuel : Nat) :
    ∀ (tree : Octree Ptr) (root : Path) (tail : Ptr) (tree' : Octree Ptr) (root' : Path)
      (tail' : Ptr),
      V3.descend point fuel tree root tail = Except.ok (tree', root', tail') →
      Forall NodeInv tree → Forall NodeInv tree' := by
  induction fuel with
  | zero =>
    intro tree root tail tree' root' tail' h
    cases h
  | succ fuel ih =>
    intro tree root tail tree' root' tail' h hinv
    simp only [V3.descend] at h
    cases hs : tree.subtree root with
    | null =>
      rw [hs] at h
      cases h
    | node o ch s c =>
      rw [hs] at h
      simp only at h
      cases hl : isLeafNode ch with
      | true =>
        rw [hl] at h
        simp only [if_true] at h
        cases h
        exact hinv
      | false =>
        rw [hl] at h
        simp only [Bool.false_eq_true, if_false] at h
        cases hm : modifyAt (V3.setScratch tail) tree root with
        | error e =>
          rw [hm] at h
          cases h
        | ok tree2 =>
          rw [hm] at h
          exact ih tree2 _ _ tree' root' tail' h
            (modifyAt_frame _ root tree tree2 (fun u hu => setScratch_inv tail _ u hu) hm hinv).2.2

/-- What a returning call of the split branch of `leafStep` has done: both points are
written into fresh children whose `is_clean` flag stays set. -/
theorem leafStep_split_inv (o : Vec4) (ch : Fin 8 → Octree Ptr) (s : Ptr) (p : Vec4)
    (t' : Octree Ptr) (hne : ¬ (p.x = o.x ∧ p.y = o.y ∧ p.z = o.z))
    (h : V3.leafStep p (node o ch s false) = Except.ok t') :
    o.w + p.w ≠ 0 ∧
    getOctantContainingPoint (com o p) p ≠ getOctantContainingPoint (com o p) o ∧
    t' = node (com o p)
        (splitChildren none (getOctantContainingPoint (com o p) o)
          (getOctantContainingPoint (com o p) p)
          (node o (fun _ => null) none true) (node p (fun _ => null) none true)) s false := by
  by_cases hw : o.w + p.w = 0
  · simp only [V3.leafStep, Bool.false_eq_true, if_false, hne] at h
    rw [CentreofMass_zero o p hw] at h
    cases h
  · by_cases hoct : getOctantContainingPoint (com o p) p = getOctantContainingPoint (com o p) o
    · simp only [V3.leafStep, Bool.false_eq_true, if_false, hne] at h
      rw [CentreofMass_ok o p hw] at h
      simp only [bind, Except.bind, hoct, if_true] at h
      cases h
    · simp only [V3.leafStep, Bool.false_eq_true, if_false, hne] at h
      rw [CentreofMass_ok o p hw] at h
      simp only [bind, Except.bind, hoct, if_false, fresh, V3.setOrigin,
        Function.update_same, Function.update_noteq hoct, pure, Except.pure] at h
      cases h
      exact ⟨hw, hoct, rfl⟩

/-- A call of `leafStep` on a leaf satisfying the invariants returns a tree satisfying them. -/
theorem leafStep_preserves (p : Vec4) (o : Vec4) (ch : Fin 8 → Octree Ptr) (s : Ptr) (c : Bool)
    (u : Octree Ptr) (hl : isLeafNode ch = true) (hinv : Forall NodeInv (node o ch s c))
    (h : V3.leafStep p (node o ch s c) = Except.ok u) : Forall NodeInv u := by
  have hno : NoChildren ch := by
    rcases hinv.1.1 with h1 | h1
    · exact h1
    · have := h1 0
      rw [isLeafNode] at hl
      rw [hl] at this
      cases this
  cases c with
  | true =>
    simp only [V3.leafStep, if_true] at h
    cases h
    exact ⟨nodeInv_of_noChildren _ _ _ _ hno, hinv.2⟩
  | false =>
    by_cases hsame : p.x = o.x ∧ p.y = o.y ∧ p.z = o.z
    · simp only [V3.leafStep, Bool.false_eq_true, if_false, hsame, and_self, if_true] at h
      cases h
      exact ⟨nodeInv_of_noChildren _ _ _ _ hno, hinv.2⟩
    · obtain ⟨hw, hoct, rfl⟩ := leafStep_split_inv o ch s p u hsame h
      refine ⟨⟨Or.inr (splitChildren_allChildren _ _ _ _ _ rfl rfl), fun _ => ?_⟩, ?_⟩
      · rw [wsum_splitChildren none _ _ hoct]
        rfl
      · intro k
        exact forall_splitChildren _ _ _ _ _ _ (forall_nodeInv_fresh none)
          (forall_leaf _ _ _ _ (nodeInv_of_noChildren _ _ _ _ noChildren_null))
          (forall_leaf _ _ _ _ (nodeInv_of_noChildren _ _ _ _ noChildren_null)) k

/-- The last loop of `insertImpl`, started at an ancestor of the leaf with the ancestors'
scratch slots chained to the root, repairs every ancestor. -/
theorem updateLoop_spec (root : Path) (j : Nat) :
    ∀ (fuel : Nat) (tree tree' : Octree Ptr), j < root.length →
      InvAlong (root.take (j + 1)) tree →
      (∀ k, k ≤ j → scratchAt tree (root.take k) = some (parentPtr (root.take k))) →
      V3.updateLoop fuel tree (some (root.take j)) = Except.ok tree' →
      Forall NodeInv tree' := by
  induction j with
  | zero =>
    intro fuel tree tree' hj hinv hchain h
    cases fuel with
    | zero => cases h
    | succ fuel =>
      simp only [V3.updateLoop] at h
      cases hm : modifyAt UpdateCentreOfMass tree (root.take 0) with
      | error e => rw [hm] at h; cases h
      | ok tree1 =>
        rw [hm] at h
        simp only [bind, Except.bind] at h
        cases hg : V3.getScratch (tree1.subtree (root.take 0)) with
        | error e => rw [hg] at h; cases h
        | ok next =>
          rw [hg] at h
          simp only at h
          have h1 := getScratch_subtree tree1 _ next hg
          rw [scratchAt_update _ tree tree1 _ hm, hchain 0 (le_refl 0)] at h1
          have hnext : next = none := by
            simp [parentPtr] at h1
            exact h1.symm
          subst hnext
          have hi : InvAlong (root.take 0) tree1 := by
            rw [← List.take_concat_get' root 0 hj] at hinv
            exact invAlong_update _ _ tree tree1 hm hinv
          cases fuel <;> (simp only [V3.updateLoop] at h; cases h; exact hi)
  | succ j ih =>
    intro fuel tree tree' hj hinv hchain h
    cases fuel with
    | zero => cases h
    | succ fuel =>
      simp only [V3.updateLoop] at h
      cases hm : modifyAt UpdateCentreOfMass tree (root.take (j + 1)) with
      | error e => rw [hm] at h; cases h
      | ok tree1 =>
        rw [hm] at h
        simp only [bind, Except.bind] at h
        cases hg : V3.getScratch (tree1.subtree (root.take (j + 1))) with
        | error e => rw [hg] at h; cases h
        | ok next =>
          rw [hg] at h
          simp only at h
          have h1 := getScratch_subtree tree1 _ next hg
          rw [scratchAt_update _ tree tree1 _ hm, hchain (j + 1) (le_refl _)] at h1
          have hdl : (root.take (j + 1)).dropLast = root.take j := by
            rw [List.dropLast_eq_take]
            simp only [List.take_take, List.length_take]
            congr 1
            omega
          have hne : root.take (j + 1) ≠ [] := by
            intro he
            have := congrArg List.length he
            simp only [List.length_take, List.length_nil] at this
            omega
          have hnext : next = some (root.take j) := by
            simp only [parentPtr, hne, if_false, hdl, Option.some.injEq] at h1
            exact h1.symm
          subst hnext
          have hi : InvAlong (root.take (j + 1)) tree1 := by
            rw [← List.take_concat_get' root (j + 1) hj] at hinv
            exact invAlong_update _ _ tree tree1 hm hinv
          refine ih fuel tree1 tree' (by omega) hi ?_ h
          intro k hk
          rw [scratchAt_update _ tree tree1 _ hm]
          exact hchain k (by omega)

/-- A returning call of V3's `insertImpl` keeps both invariants at every node. -/
theorem insertImpl_preserves_nodeInv (t t' : Octree Ptr) (p : Vec4)
    (hinv : Forall NodeInv t) (h : V3.insertImpl t p = Except.ok t') : Forall NodeInv t' := by
  simp only [V3.insertImpl, bind, Except.bind] at h
  cases hd : V3.descend p (t.height + 1) t [] none with
  | error e => rw [hd] at h; cases h
  | ok r =>
    obtain ⟨tree1, root, tail⟩ := r
    rw [hd] at h
    simp only at h
    obtain ⟨htail, hchain, o, ch, s, c, hs, hl⟩ :=
      descend_spec p _ t [] none tree1 root tail hd rfl (fun j hj => by simp at hj)
    have hinv1 : Forall NodeInv tree1 :=
      descend_preserves_nodeInv p _ t [] none tree1 root tail hd hinv
    cases hm : modifyAt (V3.leafStep p) tree1 root with
    | error e => rw [hm] at h; cases h
    | ok tree2 =>
      rw [hm] at h
      simp only at h
      cases hm2 : modifyAt (V3.setScratch tail) tree2 root with
      | error e => rw [hm2] at h; cases h
      | ok tree3 =>
        rw [hm2] at h
        simp only at h
        have hi2 : InvAlong root tree2 := by
          refine invAlong_of_modifyAt _ root tree1 tree2 ?_ hm hinv1
          intro u hu
          rw [hs] at hu
          have := forall_subtree NodeInv root tree1 hinv1
          rw [hs] at this
          exact leafStep_preserves p o ch s c u hl this hu
        have hi3 : InvAlong root tree3 :=
          invAlong_modifyAt _ root tree2 tree3
            (fun u hf hu => (setScratch_inv tail _ u hu).2.2 hf) hm2 hi2
        have hchain3 : ∀ j, j < root.length →
            scratchAt tree3 (root.take j) = some (parentPtr (root.take j)) := by
          intro j hj
          rw [scratchAt_modifyAt_above _ root tree2 tree3 j hj hm2,
            scratchAt_modifyAt_above _ root tree1 tree2 j hj hm]
          exact hchain j hj
        by_cases hr : root = []
        · subst hr
          subst htail
          cases hlen : ([] : Path).length <;>
            (simp only [parentPtr, if_true, V3.updateLoop] at h; cases h; exact hi3)
        · have hlen : 0 < root.length := List.length_pos.2 hr
          have htl : tail = some (root.take (root.length - 1)) := by
            rw [htail, parentPtr, if_neg hr, List.dropLast_eq_take]
          rw [htl] at h
          refine updateLoop_spec root (root.length - 1) _ tree3 t' (by omega) ?_ ?_ h
          · have : root.length - 1 + 1 = root.length := by omega
            rw [this, List.take_length]
            exact hi3
          · intro k hk
            exact hchain3 k (by omega)

/-- Every tree V3's `insert` can reach satisfies both invariants at every node. -/
theorem reachable_nodeInv_v3 {t : Octree Ptr} (h : V3.Reachable t) : Forall NodeInv t := by
  induction h with
  | fresh => exact forall_nodeInv_fresh none
  | step t t' p _ hins ih => exact insertImpl_preserves_nodeInv t t' p ih hins

/-! ## The recursive query, case by case -/

theorem query_leaf {σ : Type} (o : Vec4) (ch : Fin 8 → Octree σ) (s : σ) (source : Vec4)
    (radius_sqr : ℚ) (results : List Vec4) (hl : isLeafNode ch = true) :
    getPointsInsideRadiusSqr (node o ch s false) source radius_sqr results =
      Except.ok (getPointsInsideRadiusLeafImpl o source radius_sqr results) := by
  simp only [getPointsInsideRadiusSqr, hl, Bool.not_false, Bool.and_self, if_true]
  rfl

theorem query_occupied_leaf {σ : Type} (o : Vec4) (s : σ) (source : Vec4)
    (radius_sqr : ℚ) (results : List Vec4) :
    getPointsInsideRadiusSqr (node o (fun _ => null) s false) source radius_sqr results =
      Except.ok (getPointsInsideRadiusLeafImpl o source radius_sqr results) :=
  query_leaf o _ s source radius_sqr results rfl

theorem query_inner {σ : Type} (o : Vec4) (ch : Fin 8 → Octree σ) (s : σ) (c : Bool)
    (source : Vec4) (radius_sqr : ℚ) (results : List Vec4)
    (h : (isLeafNode ch && !c) = false) :
    getPointsInsideRadiusSqr (node o ch s c) source radius_sqr results =
      getPointsInsideRaduisInnerImpl o
        (fun i results => getPointsInsideRadiusSqr (ch i) source radius_sqr results)
        source radius_sqr results := by
  simp only [getPointsInsideRadiusSqr, h, Bool.false_eq_true, if_false]

theorem foldlM_far (o : Vec4) (call : Fin 8 → List Vec4 → Except Fault (List Vec4))
    (source : Vec4) (radius_sqr : ℚ) (hfar : (source.sub o).normSquared > radius_sqr)
    (l : List (Fin 8)) : ∀ results : List Vec4,
    l.foldlM (fun results i =>
      let diff := source.sub o
      let dist := diff.normSquared
      if dist > radius_sqr then pure (results ++ [o])
      else call i results) results = Except.ok (results ++ List.replicate l.length o) := by
  induction l with
  | nil => intro results; simp [pure, Except.pure]
  | cons i l ih =>
    intro results
    rw [List.foldlM_cons]
    simp only [hfar, if_true, bind, Except.bind, pure, Except.pure]
    have := ih (results ++ [o])
    simp only [hfar, if_true, pure, Except.pure] at this
    rw [this, List.length_cons, List.replicate_succ, List.append_assoc]
    rfl

/-- The far branch of `getPointsInsideRaduisInnerImpl` sits inside the loop over the
children: the node's `origin` is appended once per round, eight times in all. -/
theorem inner_far (o : Vec4) (call : Fin 8 → List Vec4 → Except Fault (List Vec4))
    (source : Vec4) (radius_sqr : ℚ) (results : List Vec4)
    (hfar : (source.sub o).normSquared > radius_sqr) :
    getPointsInsideRaduisInnerImpl o call source radius_sqr results =
      Except.ok (results ++ List.replicate 8 o) := by
  unfold getPointsInsideRaduisInnerImpl
  rw [foldlM_far o call source radius_sqr hfar]
  simp

theorem inner_near (o : Vec4) (call : Fin 8 → List Vec4 → Except Fault (List Vec4))
    (source : Vec4) (radius_sqr : ℚ) (results : List Vec4)
    (hnear : ¬ (source.sub o).normSquared > radius_sqr) :
    getPointsInsideRaduisInnerImpl o call source radius_sqr results =
      (List.finRange 8).foldlM (fun results i => call i results) results := by
  unfold getPointsInsideRaduisInnerImpl
  simp only [hnear, if_false]

/-- An empty leaf is handled by the loop over the children, with its eight null
children: far from the source its `origin` `(0,0,0,0)` is appended eight times. -/
theorem query_fresh_far {σ : Type} (s : σ) (source : Vec4) (radius_sqr : ℚ)
    (results : List Vec4) (hfar : (source.sub ⟨0, 0, 0, 0⟩).normSquared > radius_sqr) :
    getPointsInsideRadiusSqr (fresh s) source radius_sqr results =
      Except.ok (results ++ List.replicate 8 ⟨0, 0, 0, 0⟩) := by
  rw [fresh, query_inner _ _ _ _ _ _ _ (by rfl), inner_far _ _ _ _ _ hfar]

/-- An empty leaf near the source: the loop calls through `children[0]`, which is null. -/
theorem query_fresh_near {σ : Type} (s : σ) (source : Vec4) (radius_sqr : ℚ)
    (results : List Vec4) (hnear : ¬ (source.sub ⟨0, 0, 0, 0⟩).normSquared > radius_sqr) :
    getPointsInsideRadiusSqr (fresh s) source radius_sqr results =
      Except.error Fault.nullDeref := by
  rw [fresh, query_inner _ _ _ _ _ _ _ (by rfl), inner_near _ _ _ _ _ hnear, finRange_eight]
  rfl

/-! ## Two concrete builds -/

theorem com_p000_p111 : com p000 p111 = ⟨1 / 2, 1 / 2, 1 / 2, 2⟩ := by
  simp only [com, p000, p111]
  norm_num

theorem octant_half_p000 : getOctantContainingPoint ⟨1 / 2, 1 / 2, 1 / 2, 2⟩ p000 = 0 := by
  simp only [getOctantContainingPoint, p000]
  norm_num

theorem octant_half_p111 : getOctantContainingPoint ⟨1 / 2, 1 / 2, 1 / 2, 2⟩ p111 = 7 := by
  simp only [getOctantContainingPoint, p111]
  norm_num
  decide

theorem insert_p000_p111 :
    insert (node p000 (fun _ => null) () false) p111 = Except.ok twoTree := by
  have hne : ¬ (p111.x = p000.x ∧ p111.y = p000.y ∧ p111.z = p000.z) := by
    simp [p000, p111]
  have hw : p000.w + p111.w ≠ 0 := by
    simp only [p000, p111]; norm_num
  have hoct : getOctantContainingPoint (com p000 p111) p111 ≠
      getOctantContainingPoint (com p000 p111) p000 := by
    rw [com_p000_p111, octant_half_p000, octant_half_p111]
    decide
  rw [insert_split p000 (fun _ => null) () p111 rfl hne hw hoct, com_p000_p111, octant_half_p000,
    octant_half_p111]
  rfl

theorem construct_p000_p111 : ConstructOctTree [p000, p111] = Except.ok twoTree := by
  simp only [ConstructOctTree, List.foldlM_cons, List.foldlM_nil, insert_fresh, bind,
    Except.bind, insert_p000_p111]
  rfl

theorem insert_p111_p222 :
    insert (node p111 (fun _ => null) () false) p222 = Except.ok twoTreeB := by
  have hne : ¬ (p222.x = p111.x ∧ p222.y = p111.y ∧ p222.z = p111.z) := by
    simp [p222, p111]
  have hw : p111.w + p222.w ≠ 0 := by
    simp only [p222, p111]; norm_num
  have hc : com p111 p222 = ⟨3 / 2, 3 / 2, 3 / 2, 2⟩ := by
    simp only [com, p111, p222]
    norm_num
  have h1 : getOctantContainingPoint ⟨3 / 2, 3 / 2, 3 / 2, 2⟩ p111 = 0 := by
    simp only [getOctantContainingPoint, p111]
    norm_num
  have h2 : getOctantContainingPoint ⟨3 / 2, 3 / 2, 3 / 2, 2⟩ p222 = 7 := by
    simp only [getOctantContainingPoint, p222]
    norm_num
    decide
  have hoct : getOctantContainingPoint (com p111 p222) p222 ≠
      getOctantContainingPoint (com p111 p222) p111 := by
    rw [hc, h1, h2]
    decide
  rw [insert_split p111 (fun _ => null) () p222 rfl hne hw hoct, hc, h1, h2]
  rfl

theorem construct_p111_p222 : ConstructOctTree [p111, p222] = Except.ok twoTreeB := by
  simp only [ConstructOctTree, List.foldlM_cons, List.foldlM_nil, insert_fresh, bind,
    Except.bind, insert_p111_p222]
  rfl

theorem splitChildren_zero {σ : Type} (s : σ) (A B : Octree σ) :
    splitChildren s 0 7 A B 0 = A := by
  simp [splitChildren, Function.update_apply]

theorem splitChildren_seven {σ : Type} (s : σ) (A B : Octree σ) :
    splitChildren s 0 7 A B 7 = B := by
  simp [splitChildren, Function.update_apply]

theorem splitChildren_between {σ : Type} (s : σ) (A B : Octree σ) (k : Fin 8) (h0 : k ≠ 0)
    (h7 : k ≠ 7) : splitChildren s 0 7 A B k = fresh s := by
  simp [splitChildren, Function.update_apply, h0, h7]

theorem foldlM_insert_same (x y z : ℚ) (ps : List Vec4)
    (hsame : ∀ p ∈ ps, p.x = x ∧ p.y = y ∧ p.z = z) : ∀ w : ℚ,
    ps.foldlM insert (node ⟨x, y, z, w⟩ (fun _ => null) () false) =
      Except.ok (node ⟨x, y, z, w + (ps.map fun p => p.w).sum⟩ (fun _ => null) () false) := by
  induction ps with
  | nil => intro w; simp [pure, Except.pure]
  | cons p ps ih =>
    intro w
    obtain ⟨hx, hy, hz⟩ := hsame p (List.mem_cons_self _ _)
    rw [List.foldlM_cons, insert_merge ⟨x, y, z, w⟩ (fun _ => null) () p rfl hx hy hz]
    simp only [bind, Except.bind]
    rw [ih (fun q hq => hsame q (List.mem_cons_of_mem _ hq))]
    simp only [List.map_cons, List.sum_cons, add_assoc]

theorem reachable_twoTree : Reachable twoTree :=
  Reachable.step _ _ p111 (Reachable.step _ _ p000 Reachable.fresh (insert_fresh p000))
    insert_p000_p111

/-! ## V3: the iterative insert, case by case -/

theorem descend_leaf (point : Vec4) (n : Nat) (tree : Octree Ptr) (root : Path) (tail : Ptr)
    (o : Vec4) (ch : Fin 8 → Octree Ptr) (s : Ptr) (c : Bool)
    (hs : tree.subtree root = node o ch s c) (hl : isLeafNode ch = true) :
    V3.descend point (n + 1) tree root tail = Except.ok (tree, root, tail) := by
  simp only [V3.descend, hs, hl, if_true]
  rfl

theorem descend_inner (point : Vec4) (n : Nat) (tree : Octree Ptr) (root : Path) (tail : Ptr)
    (o : Vec4) (ch : Fin 8 → Octree Ptr) (s : Ptr) (c : Bool)
    (hs : tree.subtree root = node o ch s c) (hl : isLeafNode ch = false) :
    V3.descend point (n + 1) tree root tail =
      (modifyAt (V3.setScratch tail) tree root).bind fun tree =>
        V3.descend point n tree (root ++ [getOctantContainingPoint o point]) (some root) := by
  simp only [V3.descend, hs, hl, Bool.false_eq_true, if_false]
  rfl

theorem updateLoop_none (n : Nat) (tree : Octree Ptr) :
    V3.updateLoop n tree none = Except.ok tree := by
  cases n <;> rfl

/-- A call of `insertImpl` on a leaf: the two loops are skipped. -/
theorem insertImpl_leaf (o : Vec4) (ch : Fin 8 → Octree Ptr) (s : Ptr) (c : Bool) (p : Vec4)
    (hl : isLeafNode ch = true) :
    V3.insertImpl (node o ch s c) p =
      (V3.leafStep p (node o ch s c)).bind (V3.setScratch none) := by
  simp only [V3.insertImpl, descend_leaf p _ (node o ch s c) [] none o ch s c rfl hl, bind,
    Except.bind, modifyAt_nil]
  cases V3.leafStep p (node o ch s c) with
  | error e => rfl
  | ok t =>
    simp only
    cases V3.setScratch none t with
    | error e => rfl
    | ok t2 => exact updateLoop_none _ _

theorem height_node_eq {σ : Type} (o : Vec4) (ch : Fin 8 → Octree σ) (s : σ) (c : Bool) :
    (node o ch s c).height = Finset.univ.sup (fun i => height (ch i)) + 1 := by
  rw [height, Nat.add_comm]

theorem subtree_singleton {σ : Type} (o : Vec4) (ch : Fin 8 → Octree σ) (s : σ) (c : Bool)
    (i : Fin 8) : (node o ch s c).subtree [i] = ch i := by
  simp only [subtree, subtree_nil]

theorem modifyAt_singleton {σ : Type} (f : Octree σ → Except Fault (Octree σ)) (o : Vec4)
    (ch : Fin 8 → Octree σ) (s : σ) (c : Bool) (i : Fin 8) :
    modifyAt f (node o ch s c) [i] =
      (f (ch i)).bind fun t => Except.ok (node o (Function.update ch i t) s c) := by
  simp only [modifyAt, modifyAt_nil]
  rfl

/-- A call of `insertImpl` on a node whose child for the point is a leaf: one round of each
loop. -/
theorem insertImpl_child_leaf (o : Vec4) (ch : Fin 8 → Octree Ptr) (s : Ptr) (c : Bool)
    (p : Vec4) (o2 : Vec4) (ch2 : Fin 8 → Octree Ptr) (s2 : Ptr) (c2 : Bool)
    (hl : isLeafNode ch = false)
    (hc : ch (getOctantContainingPoint o p) = node o2 ch2 s2 c2) (hl2 : isLeafNode ch2 = true) :
    V3.insertImpl (node o ch s c) p =
      (V3.leafStep p (node o2 ch2 s2 c2)).bind fun c1 =>
        (V3.setScratch (some []) c1).bind fun c2 =>
          UpdateCentreOfMass (node o (Function.update ch (getOctantContainingPoint o p) c2)
            none c) := by
  have hd : V3.descend p ((node o ch s c).height + 1) (node o ch s c) [] none =
      Except.ok (node o ch none c, [getOctantContainingPoint o p], some []) := by
    rw [descend_inner p _ (node o ch s c) [] none o ch s c rfl hl, modifyAt_nil, height_node_eq]
    exact descend_leaf p _ (node o ch none c) [getOctantContainingPoint o p] (some []) o2 ch2 s2
      c2 (by rw [subtree_singleton, hc]) hl2
  simp only [V3.insertImpl, hd, bind, Except.bind, modifyAt_singleton, hc]
  cases V3.leafStep p (node o2 ch2 s2 c2) with
  | error e => rfl
  | ok c1 =>
    simp only [modifyAt_singleton, Function.update_same, Except.bind]
    cases V3.setScratch (some []) c1 with
    | error e => rfl
    | ok c2 =>
      simp only [Function.update_idem, List.length_singleton, V3.updateLoop, modifyAt_nil, bind,
        Except.bind]
      cases hu : UpdateCentreOfMass
          (node o (Function.update ch (getOctantContainingPoint o p) c2) none c) with
      | error e => rfl
      | ok t =>
        obtain ⟨_, _, rfl⟩ := UpdateCentreOfMass_inv _ _ _ _ _ hu
        rfl

theorem leafStep_clean (p o : Vec4) (ch : Fin 8 → Octree Ptr) (s : Ptr) :
    V3.leafStep p (node o ch s true) = Except.ok (node p ch s false) := by
  simp only [V3.leafStep, if_true]
  rfl

theorem leafStep_split (o : Vec4) (ch : Fin 8 → Octree Ptr) (s : Ptr) (p : Vec4)
    (hne : ¬ (p.x = o.x ∧ p.y = o.y ∧ p.z = o.z)) (hw : o.w + p.w ≠ 0)
    (hoct : getOctantContainingPoint (com o p) p ≠ getOctantContainingPoint (com o p) o) :
    V3.leafStep p (node o ch s false) = Except.ok (node (com o p)
        (splitChildren none (getOctantContainingPoint (com o p) o)
          (getOctantContainingPoint (com o p) p)
          (node o (fun _ => null) none true) (node p (fun _ => null) none true)) s false) := by
  simp only [V3.leafStep, Bool.false_eq_true, if_false, hne]
  rw [CentreofMass_ok o p hw]
  simp only [bind, Except.bind, hoct, if_false, fresh, V3.setOrigin,
    Function.update_same, Function.update_noteq hoct, pure, Except.pure]
  rfl

theorem insert3_fresh_p000 :
    V3.insert (fresh none) p000 = Except.ok (node p000 (fun _ => null) none false) := by
  rw [V3.insert, fresh, insertImpl_leaf _ (fun _ => null) _ _ _ rfl, leafStep_clean]
  rfl

theorem insert3_p000_p111 :
    V3.insert (node p000 (fun _ => null) none false) p111 = Except.ok twoTree3 := by
  have hne : ¬ (p111.x = p000.x ∧ p111.y = p000.y ∧ p111.z = p000.z) := by
    simp [p000, p111]
  have hw : p000.w + p111.w ≠ 0 := by
    simp only [p000, p111]; norm_num
  have hoct : getOctantContainingPoint (com p000 p111) p111 ≠
      getOctantContainingPoint (com p000 p111) p000 := by
    rw [com_p000_p111, octant_half_p000, octant_half_p111]
    decide
  rw [V3.insert, insertImpl_leaf _ (fun _ => null) _ _ _ rfl,
    leafStep_split p000 _ none p111 hne hw hoct,
    com_p000_p111, octant_half_p000, octant_half_p111]
  rfl

theorem insertAll_p000_p111 : V3.insertAll [p000, p111] = Except.ok twoTree3 := by
  simp only [V3.insertAll, List.foldlM_cons, List.foldlM_nil, insert3_fresh_p000,
    insert3_p000_p111, bind, Except.bind]
  rfl

theorem insert_twoTree3_p222 : V3.insert twoTree3 p222 = Except.ok threeTree3 := by
  have hoct : getOctantContainingPoint ⟨1 / 2, 1 / 2, 1 / 2, 2⟩ p222 = 7 := by
    simp only [getOctantContainingPoint, p222]
    norm_num
    decide
  have hl : isLeafNode (splitChildren (none : Ptr) 0 7 (node p000 (fun _ => null) none true)
      (node p111 (fun _ => null) none true)) = false := by
    simp [isLeafNode, splitChildren_zero, isNull]
  have hupd : Function.update (splitChildren (none : Ptr) 0 7
      (node p000 (fun _ => null) none true)
      (node p111 (fun _ => null) none true)) 7 (node p222 (fun _ => null) (some []) false) =
      splitChildren none 0 7 (node p000 (fun _ => null) none true)
        (node p222 (fun _ => null) (some []) false) := by
    simp only [splitChildren, Function.update_idem]
  have h07 : (7 : Fin 8) ≠ 0 := by decide
  rw [V3.insert, twoTree3, insertImpl_child_leaf _ _ _ _ p222 p111 (fun _ => null) none true hl
    (by rw [hoct, splitChildren_seven]) rfl, leafStep_clean]
  simp only [Except.bind, V3.setScratch, pure, Except.pure, hoct, hupd]
  have hall : AllChildren (splitChildren (none : Ptr) 0 7 (node p000 (fun _ => null) none true)
      (node p222 (fun _ => null) (some []) false)) :=
    splitChildren_allChildren none 0 7 (node p000 (fun _ => null) none true)
      (node p222 (fun _ => null) (some []) false) rfl rfl
  rw [UpdateCentreOfMass_ok _ _ _ _ hall
    (by rw [wsum_splitChildren none _ _ h07]; simp only [originOf, p000, p222]; norm_num),
    wsum_splitChildren none _ _ h07, xsum_splitChildren none _ _ h07,
    ysum_splitChildren none _ _ h07, zsum_splitChildren none _ _ h07, threeTree3]
  simp only [originOf, p000, p222]
  norm_num

theorem insertAll_p000_p111_p222 :
    V3.insertAll [p000, p111, p222] = Except.ok threeTree3 := by
  have h := insertAll_p000_p111
  simp only [V3.insertAll, List.foldlM_cons, List.foldlM_nil] at h ⊢
  cases h1 : V3.insert (fresh none) p000 with
  | error e => rw [h1] at h; cases h
  | ok t1 =>
    rw [h1] at h
    simp only [bind, Except.bind] at h ⊢
    cases h2 : V3.insert t1 p111 with
    | error e => rw [h2] at h; cases h
    | ok t2 =>
      rw [h2] at h
      simp only [pure, Except.pure] at h ⊢
      cases h
      rw [insert_twoTree3_p222]

theorem reachable3_threeTree3 : V3.Reachable threeTree3 :=
  V3.Reachable.step _ _ p222
    (V3.Reachable.step _ _ p111
      (V3.Reachable.step _ _ p000 V3.Reachable.fresh insert3_fresh_p000) insert3_p000_p111)
    insert_twoTree3_p222

/-! ## V3: the iteration budget of `insertImpl` is never used up -/

theorem foldlM_accumulate_error {σ : Type} (ch : Fin 8 → Octree σ) (l : List (Fin 8)) :
    ∀ (acc : Vec4) (e : Fault),
      l.foldlM (fun acc i => accumulate acc (ch i)) acc = Except.error e → e ≠ Fault.fuel := by
  induction l with
  | nil => intro acc e h; cases h
  | cons i l ih =>
    intro acc e h
    rw [List.foldlM_cons] at h
    cases hi : (ch i).isNull with
    | true =>
      rw [accumulate_null acc (ch i) hi] at h
      cases h
      decide
    | false =>
      rw [accumulate_ok acc (ch i) hi] at h
      exact ih _ e h

theorem UpdateCentreOfMass_error {σ : Type} (t : Octree σ) (e : Fault)
    (h : UpdateCentreOfMass t = Except.error e) : e ≠ Fault.fuel := by
  cases t with
  | null => cases h; decide
  | node o ch s c =>
    simp only [UpdateCentreOfMass] at h
    split at h
    · cases h; decide
    · cases hf : (List.finRange 8).foldlM (fun acc i => accumulate acc (ch i)) ⟨0, 0, 0, 0⟩ with
      | error e2 =>
        rw [hf] at h
        cases h
        exact foldlM_accumulate_error ch _ _ _ hf
      | ok acc =>
        rw [hf] at h
        simp only [bind, Except.bind] at h
        split at h
        · cases h; decide
        · cases h

theorem setScratch_error (v : Ptr) (t : Octree Ptr) (e : Fault)
    (h : V3.setScratch v t = Except.error e) : e ≠ Fault.fuel := by
  cases t with
  | null => cases h; decide
  | node o ch s c => cases h

theorem leafStep_error (p : Vec4) (t : Octree Ptr) (e : Fault)
    (h : V3.leafStep p t = Except.error e) : e ≠ Fault.fuel := by
  cases t with
  | null => cases h; decide
  | node o ch s c =>
    cases c with
    | true => rw [leafStep_clean] at h; cases h
    | false =>
      by_cases hsame : p.x = o.x ∧ p.y = o.y ∧ p.z = o.z
      · simp only [V3.leafStep, Bool.false_eq_true, if_false, hsame, and_self, if_true] at h
        cases h
      · by_cases hw : o.w + p.w = 0
        · simp only [V3.leafStep, Bool.false_eq_true, if_false, hsame] at h
          rw [CentreofMass_zero o p hw] at h
          cases h
          decide
        · by_cases hoct : getOctantContainingPoint (com o p) p =
              getOctantContainingPoint (com o p) o
          · simp only [V3.leafStep, Bool.false_eq_true, if_false, hsame] at h
            rw [CentreofMass_ok o p hw] at h
            simp only [bind, Except.bind, hoct, if_true] at h
            cases h
            decide
          · rw [leafStep_split o ch s p hsame hw hoct] at h
            cases h

theorem modifyAt_error {σ : Type} (f : Octree σ → Except Fault (Octree σ))
    (hf : ∀ t e, f t = Except.error e → e ≠ Fault.fuel) (path : Path) :
    ∀ (t : Octree σ) (e : Fault), modifyAt f t path = Except.error e → e ≠ Fault.fuel := by
  induction path with
  | nil => intro t e h; rw [modifyAt_nil] at h; exact hf t e h
  | cons i rest ih =>
    intro t e h
    cases t with
    | null => cases h; decide
    | node o ch s c =>
      simp only [modifyAt] at h
      cases hc : modifyAt f (ch i) rest with
      | error e2 =>
        rw [hc] at h
        cases h
        exact ih _ _ hc
      | ok c2 =>
        rw [hc] at h
        cases h

theorem height_child_lt {σ : Type} (o : Vec4) (ch : Fin 8 → Octree σ) (s : σ) (c : Bool)
    (i : Fin 8) : height (ch i) < height (node o ch s c) := by
  have h : height (ch i) ≤ Finset.univ.sup (fun i => height (ch i)) :=
    Finset.le_sup (f := fun i => height (ch i)) (Finset.mem_univ i)
  rw [height.eq_2 o ch s c]
  omega

theorem subtree_modifyAt_setScratch (v : Ptr) (path : Path) :
    ∀ (t t2 : Octree Ptr), modifyAt (V3.setScratch v) t path = Except.ok t2 →
      t2.subtree path = setScratchOf v (t.subtree path) := by
  induction path with
  | nil =>
    intro t t2 h
    rw [modifyAt_nil] at h
    rw [subtree_nil, subtree_nil]
    cases t with
    | null => cases h
    | node o ch s c => cases h; rfl
  | cons i rest ih =>
    intro t t2 h
    obtain ⟨o, ch, s, c, c2, rfl, hc, rfl⟩ := modifyAt_cons_inv _ t t2 i rest h
    have := ih (ch i) c2 hc
    simpa [subtree] using this

/-- The first loop of `insertImpl` goes one level down per round: a budget above the height
of the tree below `root` is never used up. -/
theorem descend_fuel (point : Vec4) (fuel : Nat) :
    ∀ (tree : Octree Ptr) (root : Path) (tail : Ptr) (e : Fault),
      (tree.subtree root).height < fuel →
      V3.descend point fuel tree root tail = Except.error e → e ≠ Fault.fuel := by
  induction fuel with
  | zero => intro tree root tail e hlt; omega
  | succ fuel ih =>
    intro tree root tail e hlt h
    simp only [V3.descend] at h
    cases hs : tree.subtree root with
    | null =>
      rw [hs] at h
      cases h
      decide
    | node o ch s c =>
      rw [hs] at h hlt
      simp only at h
      cases hl : isLeafNode ch with
      | true =>
        rw [hl] at h
        simp only [if_true] at h
        cases h
      | false =>
        rw [hl] at h
        simp only [Bool.false_eq_true, if_false] at h
        cases hm : modifyAt (V3.setScratch tail) tree root with
        | error e2 =>
          rw [hm] at h
          cases h
          exact modifyAt_error _ (setScratch_error tail) root tree _ hm
        | ok tree2 =>
          rw [hm] at h
          refine ih tree2 _ _ e ?_ h
          rw [subtree_append, subtree_modifyAt_setScratch tail root tree tree2 hm, hs]
          have := height_child_lt o ch s c (getOctantContainingPoint o point)
          simp only [setScratchOf, subtree, subtree_nil]
          omega

/-- The last loop of `insertImpl` goes one level up per round: a budget of the depth of the
leaf is never used up. -/
theorem updateLoop_fuel (root : Path) (j : Nat) :
    ∀ (fuel : Nat) (tree : Octree Ptr) (e : Fault), j < root.length → j < fuel →
      (∀ k, k ≤ j → scratchAt tree (root.take k) = some (parentPtr (root.take k))) →
      V3.updateLoop fuel tree (some (root.take j)) = Except.error e → e ≠ Fault.fuel := by
  induction j with
  | zero =>
    intro fuel tree e hj hf hchain h
    cases fuel with
    | zero => omega
    | succ fuel =>
      simp only [V3.updateLoop] at h
      cases hm : modifyAt UpdateCentreOfMass tree (root.take 0) with
      | error e2 =>
        rw [hm] at h
        cases h
        exact modifyAt_error _ UpdateCentreOfMass_error _ _ _ hm
      | ok tree1 =>
        rw [hm] at h
        simp only [bind, Except.bind] at h
        cases hg : V3.getScratch (tree1.subtree (root.take 0)) with
        | error e2 =>
          have h1 := scratchAt_update _ tree tree1 (root.take 0) hm
          rw [hchain 0 (le_refl 0)] at h1
          unfold scratchAt at h1
          cases hs : tree1.subtree (root.take 0) with
          | null => rw [hs] at h1; cases h1
          | node o ch s c => rw [hs] at hg; cases hg
        | ok next =>
          rw [hg] at h
          simp only at h
          have h1 := getScratch_subtree tree1 _ next hg
          rw [scratchAt_update _ tree tree1 _ hm, hchain 0 (le_refl 0)] at h1
          have hnext : next = none := by
            simp [parentPtr] at h1
            exact h1.symm
          subst hnext
          rw [updateLoop_none] at h
          cases h
  | succ j ih =>
    intro fuel tree e hj hf hchain h
    cases fuel with
    | zero => omega
    | succ fuel =>
      simp only [V3.updateLoop] at h
      cases hm : modifyAt UpdateCentreOfMass tree (root.take (j + 1)) with
      | error e2 =>
        rw [hm] at h
        cases h
        exact modifyAt_error _ UpdateCentreOfMass_error _ _ _ hm
      | ok tree1 =>
        rw [hm] at h
        simp only [bind, Except.bind] at h
        cases hg : V3.getScratch (tree1.subtree (root.take (j + 1))) with
        | error e2 =>
          have h1 := scratchAt_update _ tree tree1 (root.take (j + 1)) hm
          rw [hchain (j + 1) (le_refl _)] at h1
          unfold scratchAt at h1
          cases hs : tree1.subtree (root.take (j + 1)) with
          | null => rw [hs] at h1; cases h1
          | node o ch s c => rw [hs] at hg; cases hg
        | ok next =>
          rw [hg] at h
          simp only at h
          have h1 := getScratch_subtree tree1 _ next hg
          rw [scratchAt_update _ tree tree1 _ hm, hchain (j + 1) (le_refl _)] at h1
          have hdl : (root.take (j + 1)).dropLast = root.take j := by
            rw [List.dropLast_eq_take]
            simp only [List.take_take, List.length_take]
            congr 1
            omega
          have hne : root.take (j + 1) ≠ [] := by
            intro he
            have := congrArg List.length he
            simp only [List.length_take, List.length_nil] at this
            omega
          have hnext : next = some (root.take j) := by
            simp only [parentPtr, hne, if_false, hdl, Option.some.injEq] at h1
            exact h1.symm
          subst hnext
          refine ih fuel tree1 e (by omega) (by omega) ?_ h
          intro k hk
          rw [scratchAt_update _ tree tree1 _ hm]
          exact hchain k (by omega)

/-- The budgets of the two loops of `insertImpl` are never used up: a call of V3's
`insertImpl` never ends in `Fault.fuel`, on any tree. -/
theorem insertImpl_fuel_suffices (t : Octree Ptr) (p : Vec4) :
    V3.insertImpl t p ≠ Except.error Fault.fuel := by
  intro h
  simp only [V3.insertImpl, bind, Except.bind] at h
  cases hd : V3.descend p (t.height + 1) t [] none with
  | error e =>
    rw [hd] at h
    cases h
    exact descend_fuel p _ t [] none _ (by rw [subtree_nil]; omega) hd rfl
  | ok r =>
    obtain ⟨tree1, root, tail⟩ := r
    rw [hd] at h
    simp only at h
    obtain ⟨htail, hchain, _⟩ :=
      descend_spec p _ t [] none tree1 root tail hd rfl (fun j hj => by simp at hj)
    cases hm : modifyAt (V3.leafStep p) tree1 root with
    | error e =>
      rw [hm] at h
      cases h
      exact modifyAt_error _ (leafStep_error p) root tree1 _ hm rfl
    | ok tree2 =>
      rw [hm] at h
      simp only at h
      cases hm2 : modifyAt (V3.setScratch tail) tree2 root with
      | error e =>
        rw [hm2] at h
        cases h
        exact modifyAt_error _ (setScratch_error tail) root tree2 _ hm2 rfl
      | ok tree3 =>
        rw [hm2] at h
        simp only at h
        have hchain3 : ∀ j, j < root.length →
            scratchAt tree3 (root.take j) = some (parentPtr (root.take j)) := by
          intro j hj
          rw [scratchAt_modifyAt_above _ root tree2 tree3 j hj hm2,
            scratchAt_modifyAt_above _ root tree1 tree2 j hj hm]
          exact hchain j hj
        by_cases hr : root = []
        · subst hr
          subst htail
          simp only [parentPtr, if_true] at h
          rw [updateLoop_none] at h
          cases h
        · have hlen : 0 < root.length := List.length_pos.2 hr
          have htl : tail = some (root.take (root.length - 1)) := by
            rw [htail, parentPtr, if_neg hr, List.dropLast_eq_take]
          rw [htl] at h
          exact updateLoop_fuel root (root.length - 1) _ tree3 _ (by omega) (by omega)
            (fun k hk => hchain3 k (by omega)) h rfl

/-! ## V3: the iterative query, case by case -/

theorem queryLoop_none (source : Vec4) (radius_sqr : ℚ) (n : Nat) (tree : Octree Ptr)
    (tail : Ptr) (out : List Vec4) :
    V3.queryLoop source radius_sqr n tree none tail out = Except.ok (tree, out) := by
  cases n <;> rfl

/-- A round of the loop on a node with `is_clean` set: nothing is passed to `f`. -/
theorem queryLoop_clean (source : Vec4) (radius_sqr : ℚ) (n : Nat) (tree : Octree Ptr)
    (root : Path) (out : List Vec4) (o : Vec4) (ch : Fin 8 → Octree Ptr) (s : Ptr)
    (hs : tree.subtree root = node o ch s true) :
    V3.queryLoop source radius_sqr (n + 1) tree (some root) (some root) out =
      V3.queryLoop source radius_sqr n tree s s out := by
  simp only [V3.queryLoop, hs, if_true, bind, Except.bind, pure, Except.pure, V3.getScratch]

/-- A round of the loop on a far node with children: its `origin` is passed to `f`, once. -/
theorem queryLoop_far (source : Vec4) (radius_sqr : ℚ) (n : Nat) (tree : Octree Ptr)
    (root : Path) (out : List Vec4) (o : Vec4) (ch : Fin 8 → Octree Ptr) (s : Ptr)
    (hs : tree.subtree root = node o ch s false) (hl : isLeafNode ch = false)
    (hfar : (source.sub o).normSquared > radius_sqr) :
    V3.queryLoop source radius_sqr (n + 1) tree (some root) (some root) out =
      V3.queryLoop source radius_sqr n tree s s (out ++ [o]) := by
  simp only [V3.queryLoop, hs, hl, hfar, Bool.false_eq_true, if_false, if_true, bind, Except.bind,
    pure, Except.pure, V3.getScratch]

/-- A round of the loop on a near node with children: the children are pushed. -/
theorem queryLoop_near (source : Vec4) (radius_sqr : ℚ) (n : Nat) (tree : Octree Ptr)
    (root : Path) (out : List Vec4) (o : Vec4) (ch : Fin 8 → Octree Ptr) (s : Ptr)
    (hs : tree.subtree root = node o ch s false) (hl : isLeafNode ch = false)
    (hnear : ¬ (source.sub o).normSquared > radius_sqr) :
    V3.queryLoop source radius_sqr (n + 1) tree (some root) (some root) out =
      (V3.pushChildren tree root).bind fun tree =>
        (V3.getScratch (tree.subtree root)).bind fun tail =>
          V3.queryLoop source radius_sqr n tree tail tail out := by
  simp only [V3.queryLoop, hs, hl, hnear, Bool.false_eq_true, if_false, bind, Except.bind,
    pure, Except.pure]

theorem setScratch_eq (v : Ptr) (t : Octree Ptr) (h : t.isNull = false) :
    V3.setScratch v t = Except.ok (setScratchOf v t) := by
  cases t with
  | null => cases h
  | node o ch s c => rfl

theorem setScratchOf_isNull (v : Ptr) (t : Octree Ptr) : (setScratchOf v t).isNull = t.isNull := by
  cases t <;> rfl

theorem pushChild_root (o : Vec4) (g : Fin 8 → Octree Ptr) (s : Ptr) (c : Bool) (i : Fin 8)
    (h : (g i).isNull = false) :
    V3.pushChild [] (node o g s c) i =
      Except.ok (node o (Function.update g i (setScratchOf s (g i))) (some [i]) c) := by
  simp only [V3.pushChild, subtree_nil, V3.getScratch, bind, Except.bind, pure, Except.pure,
    List.nil_append, modifyAt_singleton, setScratch_eq s (g i) h, modifyAt_nil]
  rfl

/-- The loop of `pushChildren` on the node the query was called on. -/
theorem foldlM_push (o : Vec4) (c : Bool) (l : List (Fin 8)) :
    ∀ (g : Fin 8 → Octree Ptr) (s : Ptr), AllChildren g →
      l.foldlM (V3.pushChild []) (node o g s c) =
      Except.ok (node o (linkChildren l g s).1 (linkChildren l g s).2 c) := by
  induction l with
  | nil => intro g s _; rfl
  | cons i l ih =>
    intro g s hall
    have hall2 : AllChildren (Function.update g i (setScratchOf s (g i))) := by
      intro k
      by_cases hk : k = i
      · subst hk
        simpa [setScratchOf_isNull] using hall k
      · simpa [hk] using hall k
    rw [List.foldlM_cons, pushChild_root o g s c i (hall i)]
    exact ih _ _ hall2

theorem pushChildren_root (o : Vec4) (g : Fin 8 → Octree Ptr) (s : Ptr) (c : Bool)
    (hall : AllChildren g) :
    V3.pushChildren (node o g s c) [] =
      Except.ok (node o (linkChildren (List.finRange 8) g s).1
        (linkChildren (List.finRange 8) g s).2 c) :=
  foldlM_push o c (List.finRange 8) g s hall

theorem size_node_eq {σ : Type} (o : Vec4) (ch : Fin 8 → Octree σ) (s : σ) (c : Bool) :
    (node o ch s c).size = (∑ i, size (ch i)) + 1 := by
  rw [size, Nat.add_comm]

/-- V3's query called on a far node with children passes its `origin` to `f` once. -/
theorem query3_far_root (o : Vec4) (ch : Fin 8 → Octree Ptr) (s : Ptr) (source : Vec4)
    (radius_sqr : ℚ) (hl : isLeafNode ch = false)
    (hfar : (source.sub o).normSquared > radius_sqr) :
    V3.getPointsInsideRadiusSqr (node o ch s false) source radius_sqr = Except.ok [o] := by
  simp only [V3.getPointsInsideRadiusSqr, V3.getPointsInsideRadiusSqrImpl, modifyAt_nil,
    V3.setScratch, bind, Except.bind, pure, Except.pure, size_node_eq]
  rw [queryLoop_far source radius_sqr _ _ [] [] o ch none (subtree_nil _) hl hfar,
    queryLoop_none]
  rfl

theorem size_twoTree3 : (node ⟨1 / 2, 1 / 2, 1 / 2, 2⟩
    (splitChildren (none : Ptr) 0 7 (node p000 (fun _ => null) none true)
      (node p111 (fun _ => null) none true))
    none false).size = 8 + 1 := by
  simp [size, Fin.sum_univ_eight, splitChildren, Function.update_apply, fresh]

theorem linked_twoTree3_snd :
    (linkChildren (List.finRange 8) (splitChildren (none : Ptr) 0 7
      (node p000 (fun _ => null) none true) (node p111 (fun _ => null) none true)) none).2
      = some [7] := by
  rw [finRange_eight]
  rfl

/-- The children of the root of `twoTree3` once `pushChildren` has chained them: all
flagged clean, child `k` linked to child `k - 1`, child `0` ending the list. -/
theorem linked_twoTree3 (k : Fin 8) :
    (linkChildren (List.finRange 8) (splitChildren (none : Ptr) 0 7
      (node p000 (fun _ => null) none true) (node p111 (fun _ => null) none true)) none).1 k
      = node (if k = 0 then p000 else if k = 7 then p111 else ⟨0, 0, 0, 0⟩) (fun _ => null)
          (if k = 0 then none else some [k - 1]) true := by
  rw [finRange_eight]
  simp only [linkChildren]
  fin_cases k <;> simp [Function.update_apply, splitChildren, setScratchOf, fresh]

/-- V3's query on `twoTree3` from `(0,0,0)` with `radius_sqr = 3`: the root is near, its
eight children are visited and all are skipped as clean; nothing is passed to `f`. -/
theorem query3_twoTree3 : V3.getPointsInsideRadiusSqr twoTree3 p000 3 = Except.ok [] := by
  have hnear : ¬ (p000.sub ⟨1 / 2, 1 / 2, 1 / 2, 2⟩).normSquared > 3 := by
    simp only [Vec4.sub, Vec4.normSquared, p000]
    norm_num
  have hl : isLeafNode (splitChildren (none : Ptr) 0 7 (node p000 (fun _ => null) none true)
      (node p111 (fun _ => null) none true)) = false := by
    simp [isLeafNode, splitChildren_zero, isNull]
  have hall : AllChildren (splitChildren (none : Ptr) 0 7 (node p000 (fun _ => null) none true)
      (node p111 (fun _ => null) none true)) :=
    splitChildren_allChildren none 0 7 _ _ rfl rfl
  simp only [V3.getPointsInsideRadiusSqr, V3.getPointsInsideRadiusSqrImpl, twoTree3, modifyAt_nil,
    V3.setScratch, bind, Except.bind, pure, Except.pure, size_twoTree3]
  rw [queryLoop_near p000 3 8 _ [] [] _ _ none (subtree_nil _) hl hnear,
    pushChildren_root _ _ _ _ hall]
  simp only [Except.bind, subtree_nil, V3.getScratch, linked_twoTree3_snd, pure, Except.pure]
  rw [queryLoop_clean p000 3 7 _ [7] [] _ _ _ (by rw [subtree_singleton, linked_twoTree3]),
    if_neg (show ¬ ((7 : Fin 8) = 0) by decide), show ((7 : Fin 8) - 1) = 6 from rfl]
  rw [queryLoop_clean p000 3 6 _ [6] [] _ _ _ (by rw [subtree_singleton, linked_twoTree3]),
    if_neg (show ¬ ((6 : Fin 8) = 0) by decide), show ((6 : Fin 8) - 1) = 5 from rfl]
  rw [queryLoop_clean p000 3 5 _ [5] [] _ _ _ (by rw [subtree_singleton, linked_twoTree3]),
    if_neg (show ¬ ((5 : Fin 8) = 0) by decide), show ((5 : Fin 8) - 1) = 4 from rfl]
  rw [queryLoop_clean p000 3 4 _ [4] [] _ _ _ (by rw [subtree_singleton, linked_twoTree3]),
    if_neg (show ¬ ((4 : Fin 8) = 0) by decide), show ((4 : Fin 8) - 1) = 3 from rfl]
  rw [queryLoop_clean p000 3 3 _ [3] [] _ _ _ (by rw [subtree_singleton, linked_twoTree3]),
    if_neg (show ¬ ((3 : Fin 8) = 0) by decide), show ((3 : Fin 8) - 1) = 2 from rfl]
  rw [queryLoop_clean p000 3 2 _ [2] [] _ _ _ (by rw [subtree_singleton, linked_twoTree3]),
    if_neg (show ¬ ((2 : Fin 8) = 0) by decide), show ((2 : Fin 8) - 1) = 1 from rfl]
  rw [queryLoop_clean p000 3 1 _ [1] [] _ _ _ (by rw [subtree_singleton, linked_twoTree3]),
    if_neg (show ¬ ((1 : Fin 8) = 0) by decide), show ((1 : Fin 8) - 1) = 0 from rfl]
  rw [queryLoop_clean p000 3 0 _ [0] [] _ _ _ (by rw [subtree_singleton, linked_twoTree3]),
    if_pos rfl, queryLoop_none]

/-- The recursive query on `twoTree` from `(10,10,10)` with `radius_sqr = 1`: the root is
far, and it is appended once per round of the loop over the children. -/
theorem query_twoTree_far :
    getPointsInsideRadiusSqr twoTree ⟨10, 10, 10, 0⟩ 1 [] =
      Except.ok (List.replicate 8 ⟨1 / 2, 1 / 2, 1 / 2, 2⟩) := by
  have hfar : ((⟨10, 10, 10, 0⟩ : Vec4).sub ⟨1 / 2, 1 / 2, 1 / 2, 2⟩).normSquared > 1 := by
    simp only [Vec4.sub, Vec4.normSquared]
    norm_num
  rw [twoTree, query_inner _ _ _ _ _ _ _ (by simp [isLeafNode, splitChildren_zero, isNull]),
    inner_far _ _ _ _ _ hfar]
  rfl

/-- V3's query on the same tree, source and radius: the root is passed to `f` once. -/
theorem query3_twoTree_far :
    V3.getPointsInsideRadiusSqr (withScratch (none : Ptr) twoTree) ⟨10, 10, 10, 0⟩ 1 =
      Except.ok [⟨1 / 2, 1 / 2, 1 / 2, 2⟩] := by
  have hfar : ((⟨10, 10, 10, 0⟩ : Vec4).sub ⟨1 / 2, 1 / 2, 1 / 2, 2⟩).normSquared > 1 := by
    simp only [Vec4.sub, Vec4.normSquared]
    norm_num
  rw [twoTree, withScratch]
  exact query3_far_root _ _ _ _ _
    (by simp [isLeafNode, splitChildren_zero, withScratch, isNull]) hfar

theorem leafTestExact_of_nodeInv {σ : Type} (t : Octree σ) (h : Forall NodeInv t) :
    Forall LeafTestExact t := by
  refine forall_imp _ _ t h (fun o ch s c hn => ⟨hn.1.1, ?_⟩)
  constructor
  · intro hl
    rcases hn.1.1 with h1 | h1
    · exact h1
    · have := h1 0
      rw [isLeafNode] at hl
      rw [hl] at this
      cases this
  · intro hno
    exact hno 0

/-! ## V3: the iterative query follows the decision rule -/

theorem graft_nil {σ : Type} (t u : Octree σ) : t.graft [] u = u := by
  cases t <;> rfl

theorem graft_subtree_self {σ : Type} (path : Path) :
    ∀ t : Octree σ, t.graft path (t.subtree path) = t := by
  induction path with
  | nil => intro t; rw [graft_nil, subtree_nil]
  | cons i rest ih =>
    intro t
    cases t with
    | null => rfl
    | node o ch s c =>
      simp only [graft, subtree, ih, Function.update_eq_self]

theorem graft_append {σ : Type} (p q : Path) (u : Octree σ) :
    ∀ t : Octree σ, t.graft (p ++ q) u = t.graft p ((t.subtree p).graft q u) := by
  induction p with
  | nil => intro t; rw [graft_nil, subtree_nil]; rfl
  | cons i rest ih =>
    intro t
    cases t with
    | null => rfl
    | node o ch s c =>
      show node o (Function.update ch i ((ch i).graft (rest ++ q) u)) s c = _
      rw [ih (ch i)]
      rfl

theorem graft_graft {σ : Type} (path : Path) (a b : Octree σ) :
    ∀ t : Octree σ, (t.graft path a).graft path b = t.graft path b := by
  induction path with
  | nil => intro t; rw [graft_nil, graft_nil]
  | cons i rest ih =>
    intro t
    cases t with
    | null => rfl
    | node o ch s c =>
      simp only [graft, Function.update_same, ih, Function.update_idem]

theorem subtree_graft {σ : Type} (path : Path) (u : Octree σ) :
    ∀ t : Octree σ, (t.subtree path).isNull = false → (t.graft path u).subtree path = u := by
  induction path with
  | nil => intro t _; rw [graft_nil, subtree_nil]
  | cons i rest ih =>
    intro t h
    cases t with
    | null => cases h
    | node o ch s c =>
      simp only [graft, subtree, Function.update_same]
      exact ih (ch i) h

theorem modifyAt_graft {σ : Type} (f : Octree σ → Except Fault (Octree σ)) (path : Path)
    (u : Octree σ) :
    ∀ t : Octree σ, (t.subtree path).isNull = false → f (t.subtree path) = Except.ok u →
      modifyAt f t path = Except.ok (t.graft path u) := by
  induction path with
  | nil => intro t _ h; rw [modifyAt_nil, graft_nil]; rw [subtree_nil] at h; exact h
  | cons i rest ih =>
    intro t hn h
    cases t with
    | null => cases hn
    | node o ch s c =>
      simp only [modifyAt, graft]
      rw [ih (ch i) hn h]
      rfl

theorem queryLoopVisits_none (source : Vec4) (radius_sqr : ℚ) (n : Nat) (tree : Octree Ptr)
    (tail : Ptr) (out : List Vec4) (seen : List Path) :
    V3.queryLoopVisits source radius_sqr n tree none tail out seen =
      Except.ok (tree, out, seen) := by
  cases n <;> rfl

theorem queryLoopVisits_clean (source : Vec4) (radius_sqr : ℚ) (n : Nat) (tree : Octree Ptr)
    (root : Path) (out : List Vec4) (seen : List Path) (o : Vec4) (ch : Fin 8 → Octree Ptr)
    (s : Ptr) (hs : tree.subtree root = node o ch s true) :
    V3.queryLoopVisits source radius_sqr (n + 1) tree (some root) (some root) out seen =
      V3.queryLoopVisits source radius_sqr n tree s s out (seen ++ [root]) := by
  simp only [V3.queryLoopVisits, hs, if_true, bind, Except.bind, pure, Except.pure,
    V3.getScratch]

theorem queryLoopVisits_leaf (source : Vec4) (radius_sqr : ℚ) (n : Nat) (tree : Octree Ptr)
    (root : Path) (out : List Vec4) (seen : List Path) (o : Vec4) (ch : Fin 8 → Octree Ptr)
    (s : Ptr) (hs : tree.subtree root = node o ch s false) (hl : isLeafNode ch = true) :
    V3.queryLoopVisits source radius_sqr (n + 1) tree (some root) (some root) out seen =
      V3.queryLoopVisits source radius_sqr n tree s s
        (out ++ if (source.sub o).normSquared ≤ radius_sqr then [o] else []) (seen ++ [root]) := by
  by_cases hd : (source.sub o).normSquared ≤ radius_sqr
  · simp only [V3.queryLoopVisits, hs, hl, hd, Bool.false_eq_true, if_false, if_true, bind,
      Except.bind, pure, Except.pure, V3.getScratch]
  · simp only [V3.queryLoopVisits, hs, hl, hd, Bool.false_eq_true, if_false, if_true, bind,
      Except.bind, pure, Except.pure, V3.getScratch, List.append_nil]

theorem queryLoopVisits_far (source : Vec4) (radius_sqr : ℚ) (n : Nat) (tree : Octree Ptr)
    (root : Path) (out : List Vec4) (seen : List Path) (o : Vec4) (ch : Fin 8 → Octree Ptr)
    (s : Ptr) (hs : tree.subtree root = node o ch s false) (hl : isLeafNode ch = false)
    (hfar : (source.sub o).normSquared > radius_sqr) :
    V3.queryLoopVisits source radius_sqr (n + 1) tree (some root) (some root) out seen =
      V3.queryLoopVisits source radius_sqr n tree s s (out ++ [o]) (seen ++ [root]) := by
  simp only [V3.queryLoopVisits, hs, hl, hfar, Bool.false_eq_true, if_false, if_true, bind,
    Except.bind, pure, Except.pure, V3.getScratch]

theorem queryLoopVisits_near (source : Vec4) (radius_sqr : ℚ) (n : Nat) (tree : Octree Ptr)
    (root : Path) (out : List Vec4) (seen : List Path) (o : Vec4) (ch : Fin 8 → Octree Ptr)
    (s : Ptr) (hs : tree.subtree root = node o ch s false) (hl : isLeafNode ch = false)
    (hnear : ¬ (source.sub o).normSquared > radius_sqr) :
    V3.queryLoopVisits source radius_sqr (n + 1) tree (some root) (some root) out seen =
      (V3.pushChildren tree root).bind fun tree =>
        (V3.getScratch (tree.subtree root)).bind fun tail =>
          V3.queryLoopVisits source radius_sqr n tree tail tail out (seen ++ [root]) := by
  simp only [V3.queryLoopVisits, hs, hl, hnear, Bool.false_eq_true, if_false, bind, Except.bind,
    pure, Except.pure]

/-- The loop without the record of the nodes is the loop with it, the record dropped. -/
theorem queryLoop_eq_visits (source : Vec4) (radius_sqr : ℚ) (n : Nat) :
    ∀ (tree : Octree Ptr) (root tail : Ptr) (out : List Vec4) (seen : List Path),
      V3.queryLoop source radius_sqr n tree root tail out =
        (V3.queryLoopVisits source radius_sqr n tree root tail out seen).map
          fun r => (r.1, r.2.1) := by
  induction n with
  | zero =>
    intro tree root tail out seen
    cases root <;> rfl
  | succ n ih =>
    intro tree root tail out seen
    cases root with
    | none => rfl
    | some root =>
      have key : ∀ (tree1 : Octree Ptr) (out1 : List Vec4),
          (match tail with
            | none => (throw Fault.nullDeref : Except Fault (Octree Ptr × List Vec4))
            | some t => do
              let tail ← V3.getScratch (tree1.subtree t)
              V3.queryLoop source radius_sqr n tree1 tail tail out1) =
          Except.map (fun r => (r.1, r.2.1))
            (match tail with
            | none => (throw Fault.nullDeref : Except Fault (Octree Ptr × List Vec4 × List Path))
            | some t => do
              let tail ← V3.getScratch (tree1.subtree t)
              V3.queryLoopVisits source radius_sqr n tree1 tail tail out1 (seen ++ [root])) := by
        intro tree1 out1
        cases tail with
        | none => rfl
        | some t =>
          simp only [bind, Except.bind]
          cases V3.getScratch (tree1.subtree t) with
          | error e => rfl
          | ok v => exact ih _ _ _ _ _
      simp only [V3.queryLoop, V3.queryLoopVisits]
      cases tree.subtree root with
      | null => rfl
      | node o ch s c =>
        simp only []
        split_ifs
        · exact key _ _
        · exact key _ _
        · exact key _ _
        · exact key _ _
        · simp only [bind, Except.bind]
          cases V3.pushChildren tree root with
          | error e => rfl
          | ok tree1 => exact key _ _

theorem subtree_graft_child {σ : Type} (t : Octree σ) (path : Path) (o : Vec4)
    (g : Fin 8 → Octree σ) (s : σ) (c : Bool) (i : Fin 8)
    (h : (t.subtree path).isNull = false) :
    (t.graft path (node o g s c)).subtree (path ++ [i]) = g i := by
  rw [subtree_append, subtree_graft path _ t h, subtree_singleton]

theorem graft_graft_child {σ : Type} (t : Octree σ) (path : Path) (o : Vec4)
    (g : Fin 8 → Octree σ) (s : σ) (c : Bool) (i : Fin 8) (u : Octree σ)
    (h : (t.subtree path).isNull = false) :
    (t.graft path (node o g s c)).graft (path ++ [i]) u =
      t.graft path (node o (Function.update g i u) s c) := by
  rw [graft_append, subtree_graft path _ t h, graft_graft]
  simp only [graft, graft_nil]

theorem isNull_subtree_graft {σ : Type} (t : Octree σ) (path : Path) (u : Octree σ)
    (h : (t.subtree path).isNull = false) (hu : u.isNull = false) :
    ((t.graft path u).subtree path).isNull = false := by
  rw [subtree_graft path u t h]; exact hu

theorem chained_update (path : Path) (nxt : Ptr) (ch : Fin 8 → Octree Ptr) (i : Fin 8)
    (u : Octree Ptr) :
    ∀ (l : List (Fin 8)) (g : Fin 8 → Octree Ptr), i ∉ l → Chained path nxt ch l g →
      Chained path nxt ch l (Function.update g i u) := by
  intro l
  induction l with
  | nil => intro g _ _; trivial
  | cons k l ih =>
    intro g hi h
    have hk : k ≠ i := fun e => hi (e ▸ List.mem_cons_self _ _)
    refine ⟨?_, ih g (fun hm => hi (List.mem_cons_of_mem _ hm)) h.2⟩
    rw [Function.update_noteq hk]
    exact h.1

/-- One round of the loop of `pushChildren` at the node at the end of a path. -/
theorem pushChild_at (t : Octree Ptr) (path : Path) (o : Vec4) (g : Fin 8 → Octree Ptr)
    (s : Ptr) (c : Bool) (i : Fin 8) (ht : (t.subtree path).isNull = false)
    (h : (g i).isNull = false) :
    V3.pushChild path (t.graft path (node o g s c)) i =
      Except.ok (t.graft path
        (node o (Function.update g i (setScratchOf s (g i))) (some (path ++ [i])) c)) := by
  have h1 : (t.graft path (node o g s c)).subtree path = node o g s c :=
    subtree_graft path _ t ht
  have h2 : (t.graft path (node o g s c)).subtree (path ++ [i]) = g i :=
    subtree_graft_child t path o g s c i ht
  simp only [V3.pushChild, h1, V3.getScratch, bind, Except.bind, pure, Except.pure]
  rw [modifyAt_graft (V3.setScratch s) (path ++ [i]) (setScratchOf s (g i)) _
    (by rw [h2]; exact h) (by rw [h2]; exact setScratch_eq s (g i) h),
    graft_graft_child t path o g s c i _ ht]
  simp only []
  rw [modifyAt_graft (V3.setScratch (some (path ++ [i]))) path
    (node o (Function.update g i (setScratchOf s (g i))) (some (path ++ [i])) c) _
    (by rw [subtree_graft path _ t ht]; rfl) (by rw [subtree_graft path _ t ht]; rfl),
    graft_graft]

/-- The loop of `pushChildren` at the node at the end of a path: the children pushed so
far are chained, last pushed first. -/
theorem foldlM_pushChild_at (t : Octree Ptr) (path : Path) (o : Vec4) (ch : Fin 8 → Octree Ptr)
    (nxt : Ptr) (c : Bool) (ht : (t.subtree path).isNull = false) (hall : AllChildren ch) :
    ∀ (l done : List (Fin 8)) (g : Fin 8 → Octree Ptr), (∀ i ∈ l, i ∉ done) → l.Nodup →
      Chained path nxt ch done g → (∀ k, k ∉ done → g k = ch k) →
      ∃ g', l.foldlM (V3.pushChild path)
            (t.graft path (node o g (headPtr path nxt done) c)) =
          Except.ok (t.graft path (node o g' (headPtr path nxt (l.reverse ++ done)) c)) ∧
        Chained path nxt ch (l.reverse ++ done) g' := by
  intro l
  induction l with
  | nil =>
    intro done g _ _ hc _
    exact ⟨g, rfl, hc⟩
  | cons i l ih =>
    intro done g hd hn hc hg
    have hi : i ∉ done := hd i (List.mem_cons_self _ _)
    have hgi : g i = ch i := hg i hi
    have hnull : (g i).isNull = false := by rw [hgi]; exact hall i
    rw [List.foldlM_cons, pushChild_at t path o g _ c i ht hnull]
    have hc1 : Chained path nxt ch (i :: done)
        (Function.update g i (setScratchOf (headPtr path nxt done) (g i))) := by
      refine ⟨?_, chained_update path nxt ch i _ done g hi hc⟩
      rw [Function.update_same, hgi]
    obtain ⟨g', e, hc'⟩ := ih (i :: done)
      (Function.update g i (setScratchOf (headPtr path nxt done) (g i)))
      (by
        intro k hk hk'
        rcases List.mem_cons.1 hk' with rfl | hk'
        · exact (List.nodup_cons.1 hn).1 hk
        · exact hd k (List.mem_cons_of_mem _ hk) hk')
      (List.nodup_cons.1 hn).2 hc1
      (by
        intro k hk
        have hki : k ≠ i := fun e => hk (e ▸ List.mem_cons_self _ _)
        rw [Function.update_noteq hki]
        exact hg k (fun h => hk (List.mem_cons_of_mem _ h)))
    refine ⟨g', ?_, ?_⟩
    · have e2 : (i :: l).reverse ++ done = l.reverse ++ i :: done := by
        rw [List.reverse_cons, List.append_assoc]; rfl
      rw [e2]
      exact e
    · have e2 : (i :: l).reverse ++ done = l.reverse ++ i :: done := by
        rw [List.reverse_cons, List.append_assoc]; rfl
      rw [e2]
      exact hc'

theorem pushChildren_at (t : Octree Ptr) (path : Path) (o : Vec4) (ch : Fin 8 → Octree Ptr)
    (nxt : Ptr) (c : Bool) (hs : t.subtree path = node o ch nxt c) (hall : AllChildren ch) :
    ∃ g, V3.pushChildren t path =
        Except.ok (t.graft path (node o g (headPtr path nxt childOrder) c)) ∧
      Chained path nxt ch childOrder g := by
  have ht : (t.subtree path).isNull = false := by rw [hs]; rfl
  obtain ⟨g, e, hc⟩ := foldlM_pushChild_at t path o ch nxt c ht hall (List.finRange 8) [] ch
    (fun _ _ h => by cases h) (List.nodup_finRange 8) trivial (fun _ _ => rfl)
  refine ⟨g, ?_, ?_⟩
  · have e0 : t.graft path (node o ch (headPtr path nxt []) c) = t := by
      show t.graft path (node o ch nxt c) = t
      rw [← hs, graft_subtree_self]
    rw [e0] at e
    exact e
  · exact hc

theorem isLeafNode_of_noChildren {σ : Type} (ch : Fin 8 → Octree σ)
    (h : ∀ i, (ch i).isNull = true) : isLeafNode ch = true := h 0

theorem isLeafNode_of_not_noChildren {σ : Type} (o : Vec4) (ch : Fin 8 → Octree σ) (s : σ)
    (c : Bool) (hz : ZeroOrEight o ch s c) (h : ¬ ∀ i, (ch i).isNull = true) :
    isLeafNode ch = false ∧ AllChildren ch := by
  rcases hz with hno | hall
  · exact absurd hno h
  · exact ⟨hall 0, hall⟩

/-- The loop over the children on the work list. -/
theorem visit_children (source : Vec4) (radius_sqr : ℚ) (tree : Octree Ptr) (path : Path)
    (o : Vec4) (ch : Fin 8 → Octree Ptr) (s : Ptr) (c : Bool) (nxt : Ptr)
    (ht : (tree.subtree path).isNull = false)
    (ih : ∀ i, SubtreeDone source radius_sqr (ch i)) :
    ∀ (l : List (Fin 8)), l.Nodup → ∀ (g : Fin 8 → Octree Ptr) (fuel : Nat) (out : List Vec4)
      (seen : List Path), Chained path nxt ch l g →
      ∃ g', V3.queryLoopVisits source radius_sqr
            (fuel + (l.flatMap fun i => visited source radius_sqr (ch i) (path ++ [i])).length)
            (tree.graft path (node o g s c)) (headPtr path nxt l) (headPtr path nxt l) out seen =
          V3.queryLoopVisits source radius_sqr fuel (tree.graft path (node o g' s c)) nxt nxt
            (out ++ l.flatMap fun i => specContributions source radius_sqr (ch i))
            (seen ++ l.flatMap fun i => visited source radius_sqr (ch i) (path ++ [i])) := by
  intro l
  induction l with
  | nil =>
    intro _ g fuel out seen _
    exact ⟨g, by simp [headPtr]⟩
  | cons i l ihl =>
    intro hn g fuel out seen hc
    obtain ⟨hi, hn'⟩ := List.nodup_cons.1 hn
    have hsub : (tree.graft path (node o g s c)).subtree (path ++ [i]) =
        setScratchOf (headPtr path nxt l) (ch i) := by
      rw [subtree_graft_child tree path o g s c i ht]
      exact hc.1
    obtain ⟨u, hu⟩ := ih i (tree.graft path (node o g s c)) (path ++ [i]) (headPtr path nxt l)
      (fuel + (l.flatMap fun k => visited source radius_sqr (ch k) (path ++ [k])).length)
      out seen hsub
    rw [graft_graft_child tree path o g s c i u ht] at hu
    obtain ⟨g', hg'⟩ := ihl hn' (Function.update g i u) fuel
      (out ++ specContributions source radius_sqr (ch i))
      (seen ++ visited source radius_sqr (ch i) (path ++ [i]))
      (chained_update path nxt ch i u l g hi hc.2)
    refine ⟨g', ?_⟩
    have e1 : fuel + ((i :: l).flatMap fun k =>
          visited source radius_sqr (ch k) (path ++ [k])).length =
        fuel + (l.flatMap fun k => visited source radius_sqr (ch k) (path ++ [k])).length +
          (visited source radius_sqr (ch i) (path ++ [i])).length := by
      simp only [List.flatMap_cons, List.length_append]
      omega
    rw [e1]
    show V3.queryLoopVisits source radius_sqr _ _ (some (path ++ [i])) (some (path ++ [i])) out
      seen = _
    rw [hu, hg']
    simp only [List.flatMap_cons, List.append_assoc]

theorem subtreeDone (source : Vec4) (radius_sqr : ℚ) :
    ∀ t : Octree Ptr, Forall ZeroOrEight t → t.isNull = false →
      SubtreeDone source radius_sqr t := by
  intro t
  induction t with
  | null => intro _ h; cases h
  | node o ch s c ih =>
    intro hz _ tree path nxt fuel out seen hs
    have hs' : tree.subtree path = node o ch nxt c := hs
    have hself : tree.graft path (node o ch nxt c) = tree := by
      rw [← hs', graft_subtree_self]
    cases c with
    | true =>
      refine ⟨node o ch nxt true, ?_⟩
      rw [hself]
      have e1 : visited source radius_sqr (node o ch s true) path = [path] := by
        simp only [visited, if_true]
      have e2 : specContributions source radius_sqr (node o ch s true) = [] := by
        simp only [specContributions, if_true]
      rw [e1, e2, List.length_singleton, List.append_nil]
      exact queryLoopVisits_clean source radius_sqr fuel tree path out seen o ch nxt hs'
    | false =>
      by_cases hno : ∀ i, (ch i).isNull = true
      · refine ⟨node o ch nxt false, ?_⟩
        rw [hself]
        have e1 : visited source radius_sqr (node o ch s false) path = [path] := by
          simp only [visited, Bool.false_eq_true, if_false, hno, implies_true, if_true]
        have e2 : specContributions source radius_sqr (node o ch s false) =
            if (source.sub o).normSquared ≤ radius_sqr then [o] else [] := by
          simp only [specContributions, Bool.false_eq_true, if_false, hno, implies_true, if_true]
        rw [e1, e2, List.length_singleton]
        exact queryLoopVisits_leaf source radius_sqr fuel tree path out seen o ch nxt hs'
          (isLeafNode_of_noChildren ch hno)
      · obtain ⟨hl, hall⟩ := isLeafNode_of_not_noChildren o ch s false hz.1 hno
        by_cases hfar : (source.sub o).normSquared > radius_sqr
        · refine ⟨node o ch nxt false, ?_⟩
          rw [hself]
          have e1 : visited source radius_sqr (node o ch s false) path = [path] := by
            simp only [visited, Bool.false_eq_true, if_false, hno, hfar, if_true]
          have e2 : specContributions source radius_sqr (node o ch s false) = [o] := by
            simp only [specContributions, Bool.false_eq_true, if_false, hno, hfar, if_true]
          rw [e1, e2, List.length_singleton]
          exact queryLoopVisits_far source radius_sqr fuel tree path out seen o ch nxt hs' hl hfar
        · have ht : (tree.subtree path).isNull = false := by rw [hs']; rfl
          obtain ⟨g, hp, hc⟩ := pushChildren_at tree path o ch nxt false hs' hall
          have e1 : visited source radius_sqr (node o ch s false) path =
              path :: childOrder.flatMap fun i =>
                visited source radius_sqr (ch i) (path ++ [i]) := by
            simp only [visited, Bool.false_eq_true, if_false, hno, hfar]
          have e2 : specContributions source radius_sqr (node o ch s false) =
              childOrder.flatMap fun i => specContributions source radius_sqr (ch i) := by
            simp only [specContributions, Bool.false_eq_true, if_false, hno, hfar]
          obtain ⟨g', hg'⟩ := visit_children source radius_sqr tree path o ch
            (headPtr path nxt childOrder) false nxt ht
            (fun i => ih i (hz.2 i) (hall i)) childOrder (by decide) g fuel out (seen ++ [path]) hc
          refine ⟨node o g' (headPtr path nxt childOrder) false, ?_⟩
          rw [e1, e2, List.length_cons, ← Nat.add_assoc,
            queryLoopVisits_near source radius_sqr _ tree path out seen o ch nxt hs' hl hfar, hp]
          simp only [Except.bind, subtree_graft path _ tree ht, V3.getScratch, pure, Except.pure]
          rw [hg']
          simp only [List.append_assoc, List.singleton_append]

theorem visited_length_le {σ : Type} (source : Vec4) (radius_sqr : ℚ) :
    ∀ (t : Octree σ) (path : Path), (visited source radius_sqr t path).length ≤ t.size := by
  intro t
  induction t with
  | null => intro path; simp [visited, size]
  | node o ch s c ih =>
    intro path
    have h7 := ih 7 (path ++ [7])
    have h6 := ih 6 (path ++ [6])
    have h5 := ih 5 (path ++ [5])
    have h4 := ih 4 (path ++ [4])
    have h3 := ih 3 (path ++ [3])
    have h2 := ih 2 (path ++ [2])
    have h1 := ih 1 (path ++ [1])
    have h0 := ih 0 (path ++ [0])
    simp only [visited, size, List.length_cons, Fin.sum_univ_eight]
    split_ifs
    · simp
    · simp
    · simp
    · simp only [childOrder, List.flatMap_cons, List.flatMap_nil, List.length_append,
        List.length_nil]
      omega

theorem visited_mem {σ : Type} (source : Vec4) (radius_sqr : ℚ) :
    ∀ (t : Octree σ) (path p : Path), p ∈ visited source radius_sqr t path →
      ∃ s, p = path ++ s ∧ (t.subtree s).isNull = false := by
  intro t
  induction t with
  | null => intro path p h; simp [visited] at h
  | node o ch s c ih =>
    intro path p h
    simp only [visited, List.mem_cons] at h
    rcases h with rfl | h
    · exact ⟨[], by simp, rfl⟩
    · split_ifs at h
      · cases h
      · cases h
      · cases h
      · obtain ⟨i, -, hi⟩ := List.mem_flatMap.1 h
        obtain ⟨s', rfl, hs'⟩ := ih i (path ++ [i]) p hi
        exact ⟨i :: s', by simp, hs'⟩

theorem visited_nodup {σ : Type} (source : Vec4) (radius_sqr : ℚ) :
    ∀ (t : Octree σ) (path : Path), (visited source radius_sqr t path).Nodup := by
  intro t
  induction t with
  | null => intro path; simp [visited]
  | node o ch s c ih =>
    intro path
    simp only [visited]
    rw [List.nodup_cons]
    split_ifs
    · simp
    · simp
    · simp
    · constructor
      · intro h
        obtain ⟨i, -, hi⟩ := List.mem_flatMap.1 h
        obtain ⟨s', e, -⟩ := visited_mem source radius_sqr (ch i) (path ++ [i]) path hi
        have := congrArg List.length e
        simp at this
      · rw [List.nodup_flatMap]
        refine ⟨fun i _ => ih i _, List.Nodup.pairwise_of_forall_ne (by decide) ?_⟩
        intro i _ j _ hij
        show List.Disjoint _ _
        intro p hp hq
        obtain ⟨s1, e1, -⟩ := visited_mem source radius_sqr (ch i) (path ++ [i]) p hp
        obtain ⟨s2, e2, -⟩ := visited_mem source radius_sqr (ch j) (path ++ [j]) p hq
        rw [e1, List.append_assoc, List.append_assoc] at e2
        have e3 := List.append_cancel_left e2
        simp only [List.singleton_append, List.cons.injEq] at e3
        exact hij e3.1

/-- A call of V3's query on a well-formed tree, with the nodes it looks at. -/
theorem queryVisits_ok (t : Octree Ptr) (hz : Forall ZeroOrEight t) (hn : t.isNull = false)
    (source : Vec4) (radius_sqr : ℚ) :
    ∃ tree, V3.getPointsInsideRadiusSqrImplVisits t source radius_sqr =
      Except.ok (tree, specContributions source radius_sqr t, visited source radius_sqr t []) := by
  have hlen := visited_length_le source radius_sqr t []
  obtain ⟨u, hu⟩ := subtreeDone source radius_sqr t hz hn (setScratchOf none t) [] none
    (t.size - (visited source radius_sqr t []).length) [] [] (subtree_nil _)
  refine ⟨u, ?_⟩
  have hsize : (setScratchOf none t).size = t.size := by
    cases t <;> rfl
  have hfuel : t.size - (visited source radius_sqr t []).length +
      (visited source radius_sqr t []).length = t.size := by omega
  rw [hfuel] at hu
  simp only [V3.getPointsInsideRadiusSqrImplVisits, modifyAt_nil, setScratch_eq none t hn, bind,
    Except.bind, hsize]
  rw [hu, queryLoopVisits_none, graft_nil]
  rfl

theorem queryImpl_eq_visits (t : Octree Ptr) (source : Vec4) (radius_sqr : ℚ) :
    V3.getPointsInsideRadiusSqrImpl t source radius_sqr =
      (V3.getPointsInsideRadiusSqrImplVisits t source radius_sqr).map fun r => (r.1, r.2.1) := by
  simp only [V3.getPointsInsideRadiusSqrImpl, V3.getPointsInsideRadiusSqrImplVisits, bind,
    Except.bind]
  cases modifyAt (V3.setScratch none) t [] with
  | error e => rfl
  | ok tree => exact queryLoop_eq_visits source radius_sqr _ _ _ _ _ _

theorem forall_zeroOrEight_threeTree3 : Forall ZeroOrEight threeTree3 :=
  forall_imp NodeInv ZeroOrEight threeTree3 (reachable_nodeInv_v3 reachable3_threeTree3)
    (fun _ _ _ _ h => h.1.1)

theorem specContributions_clean {σ : Type} (source : Vec4) (radius_sqr : ℚ) (o : Vec4)
    (ch : Fin 8 → Octree σ) (s : σ) :
    specContributions source radius_sqr (node o ch s true) = [] := by
  simp only [specContributions, if_true]

theorem specContributions_threeTree3 : specContributions p000 100 threeTree3 = [p222] := by
  have hno : ¬ ∀ i, ((splitChildren (none : Ptr) 0 7 (node p000 (fun _ => null) none true)
      (node p222 (fun _ => null) (some []) false)) i).isNull = true := by
    intro h
    have h0 := h 0
    rw [splitChildren_zero] at h0
    cases h0
  have hnear : ¬ (p000.sub ⟨1, 1, 1, 2⟩).normSquared > 100 := by
    simp only [Vec4.sub, Vec4.normSquared, p000]
    norm_num
  have h7 : specContributions p000 100
      (node p222 (fun _ => null) (some ([] : Path)) false : Octree Ptr) = [p222] := by
    simp only [specContributions, Bool.false_eq_true, if_false, isNull, implies_true, if_true,
      Vec4.sub, Vec4.normSquared, p000, p222]
    norm_num
  rw [threeTree3, specContributions]
  simp only [Bool.false_eq_true, if_false, hno, hnear, childOrder, List.flatMap_cons,
    List.flatMap_nil, splitChildren_seven, splitChildren_zero, h7, specContributions_clean,
    splitChildren_between _ _ _ (6 : Fin 8) (by decide) (by decide),
    splitChildren_between _ _ _ (5 : Fin 8) (by decide) (by decide),
    splitChildren_between _ _ _ (4 : Fin 8) (by decide) (by decide),
    splitChildren_between _ _ _ (3 : Fin 8) (by decide) (by decide),
    splitChildren_between _ _ _ (2 : Fin 8) (by decide) (by decide),
    splitChildren_between _ _ _ (1 : Fin 8) (by decide) (by decide), fresh,
    List.append_nil]

/-! ## Further cases of the inserts, the centre of mass of three points, and `Force` -/

theorem built_twoTree : Built twoTree := by
  obtain ⟨t, h, hb, -⟩ := ConstructOctTree_ok [p000, p111]
    (by intro p hp; simp [p000, p111] at hp; rcases hp with rfl | rfl <;> norm_num)
  rw [construct_p000_p111] at h
  cases h
  exact hb

theorem com_comm (a b : Vec4) : com a b = com b a := by
  simp only [com]
  ext <;> simp only [] <;> ring_nf

theorem com_assoc (a b c : Vec4) (hab : a.w + b.w ≠ 0) (hbc : b.w + c.w ≠ 0) :
    com (com a b) c = com a (com b c) := by
  simp only [com]
  ext <;> simp only []
  · rw [div_mul_cancel₀ _ hab, div_mul_cancel₀ _ hbc]; ring_nf
  · rw [div_mul_cancel₀ _ hab, div_mul_cancel₀ _ hbc]; ring_nf
  · rw [div_mul_cancel₀ _ hab, div_mul_cancel₀ _ hbc]; ring_nf
  · ring

theorem Force_same (sqrtf : ℚ → ℚ) (a b : Vec4) (G : ℚ)
    (hx : a.x = b.x) (hy : a.y = b.y) (hz : a.z = b.z) :
    Force sqrtf a b G = Except.error Fault.divByZero := by
  have h0 : (b.sub a).normSquared = 0 := by
    simp [Vec4.sub, Vec4.normSquared, hx, hy, hz]
  simp only [Force, h0, if_true, Vec4.normalized, Vec4.div]
  split <;> rfl

theorem Force_same_v1 (sqrtf : ℚ → ℚ) (a b : Vec4) (G : ℚ)
    (hx : a.x = b.x) (hy : a.y = b.y) (hz : a.z = b.z) :
    V1.Force sqrtf a b G = Except.ok ⟨0, 0, 0, 0⟩ := by
  have h0 : (b.sub a).normSquared = 0 := by
    simp [Vec4.sub, Vec4.normSquared, hx, hy, hz]
  simp only [V1.Force, h0, if_true]
  rfl

theorem Force_same_v2 (sqrtf : ℚ → ℚ) (a b : Vec4) (G : ℚ)
    (hx : a.x = b.x) (hy : a.y = b.y) (hz : a.z = b.z) :
    V2.Force sqrtf a b G = Except.ok ⟨0, 0, 0, 0⟩ := by
  have h0 : (b.sub a).normSquared = 0 := by
    simp [Vec4.sub, Vec4.normSquared, hx, hy, hz]
  simp only [V2.Force, h0, if_true]
  rfl



theorem insert_zero_weight_point :
    insert (node ⟨0, 0, 0, 1⟩ (fun _ => null) () false) ⟨1, 1, 1, 0⟩ =
      Except.error Fault.assertion := by
  have hc : com ⟨0, 0, 0, 1⟩ ⟨1, 1, 1, 0⟩ = ⟨0, 0, 0, 1⟩ := by
    simp only [com]
    norm_num
  have h1 : getOctantContainingPoint ⟨0, 0, 0, 1⟩ ⟨1, 1, 1, 0⟩ = 7 := by
    simp only [getOctantContainingPoint]
    norm_num
    decide
  have h2 : getOctantContainingPoint ⟨0, 0, 0, 1⟩ ⟨0, 0, 0, 1⟩ = 7 := by
    simp only [getOctantContainingPoint]
    norm_num
    decide
  rw [insert]
  have hl : isLeafNode (fun _ : Fin 8 => (null : Octree Unit)) = true := rfl
  simp only [hl, if_true, Bool.false_eq_true, dite_false]
  rw [if_neg (by norm_num), CentreofMass_ok _ _ (by norm_num), hc]
  simp only [bind, Except.bind, h1, h2, dite_true]
  rfl

theorem octant_self (p : Vec4) : getOctantContainingPoint p p = 7 := by
  simp only [getOctantContainingPoint, ge_iff_le, le_refl, if_true]
  decide

theorem setScratch_ok_inv (v : Ptr) (t u : Octree Ptr) (h : V3.setScratch v t = Except.ok u) :
    u = setScratchOf v t := by
  cases t with
  | null => cases h
  | node o ch s c => cases h; rfl

theorem insert_merge_leaf (x y z w w' : ℚ) (s : Unit) :
    insert (node ⟨x, y, z, w⟩ (fun _ => null) s false) ⟨x, y, z, w'⟩ =
      Except.ok (node ⟨x, y, z, w + w'⟩ (fun _ => null) s false) :=
  insert_merge ⟨x, y, z, w⟩ (fun _ => null) s ⟨x, y, z, w'⟩ rfl rfl rfl rfl

theorem insertImpl_merge_leaf (x y z w w' : ℚ) (s : Ptr) :
    V3.insertImpl (node ⟨x, y, z, w⟩ (fun _ => null) s false) ⟨x, y, z, w'⟩ =
      Except.ok (node ⟨x, y, z, w + w'⟩ (fun _ => null) none false) := by
  rw [insertImpl_leaf ⟨x, y, z, w⟩ (fun _ => null) s false ⟨x, y, z, w'⟩ rfl]
  simp only [V3.leafStep, Bool.false_eq_true, if_false, and_self, if_true]
  rfl

theorem insert3_fresh (p : Vec4) :
    V3.insert (fresh none) p = Except.ok (node p (fun _ => null) none false) := by
  show V3.insertImpl (node ⟨0, 0, 0, 0⟩ (fun _ => null) none true) p = _
  rw [insertImpl_leaf ⟨0, 0, 0, 0⟩ (fun _ => null) none true p rfl, leafStep_clean]
  rfl

/-! ## Points of equal coordinates: when they merge -/

/-- The split in exact arithmetic: for two points `p`, `q` of positive weight whose
coordinates differ, the recursive build from `p` then `q` returns a root with eight
children whose aggregate is `(p.pos*p.w + q.pos*q.w)/(p.w + q.w)` with weight `p.w + q.w`;
`p` and `q` are occupied leaves in two different children and the other six children are
empty leaves. The proof rests on `octant_ne_of_pos`: the mean of two different coordinates
lies strictly between them, which the rounded mean the code stores need not do. -/
theorem split_behaviour_exact (p q : Vec4) (hp : 0 < p.w) (hq : 0 < q.w)
    (hne : ¬ (q.x = p.x ∧ q.y = p.y ∧ q.z = p.z)) :
    ∃ (ch : Fin 8 → Octree Unit) (i j : Fin 8),
      ConstructOctTree [p, q] = Except.ok (node
        ⟨(p.x * p.w + q.x * q.w) / (p.w + q.w), (p.y * p.w + q.y * q.w) / (p.w + q.w),
          (p.z * p.w + q.z * q.w) / (p.w + q.w), p.w + q.w⟩ ch () false) ∧
      i ≠ j ∧
      ch i = node p (fun _ => null) () false ∧
      ch j = node q (fun _ => null) () false ∧
      ∀ k, k ≠ i → k ≠ j → ch k = node ⟨0, 0, 0, 0⟩ (fun _ => null) () true := by
  have hw : p.w + q.w ≠ 0 := by linarith
  have hoct := octant_ne_of_pos p q hp hq hne
  refine ⟨splitChildren () (getOctantContainingPoint (com p q) p)
      (getOctantContainingPoint (com p q) q) (node p (fun _ => null) () false)
      (node q (fun _ => null) () false),
    getOctantContainingPoint (com p q) p, getOctantContainingPoint (com p q) q, ?_,
    fun h => hoct h.symm, ?_, ?_, ?_⟩
  · simp only [ConstructOctTree, List.foldlM_cons, List.foldlM_nil, insert_fresh, bind,
      Except.bind]
    rw [insert_split p (fun _ => null) () q rfl hne hw hoct]
    rfl
  · simp only [splitChildren]
    rw [Function.update_noteq (fun h => hoct h.symm), Function.update_same]
  · simp only [splitChildren]
    rw [Function.update_same]
  · intro k hi hj
    simp only [splitChildren]
    rw [Function.update_noteq hj, Function.update_noteq hi]
    rfl

theorem insert_twoTree_p222 :
    insert twoTree p222 = Except.ok (node ⟨1, 1, 1, 3⟩
      (Function.update (splitChildren () 0 7 (node p000 (fun _ => null) () false)
        (node p111 (fun _ => null) () false)) 7 twoTreeB) () false) := by
  have hoct : getOctantContainingPoint ⟨1 / 2, 1 / 2, 1 / 2, 2⟩ p222 = 7 := by
    simp only [getOctantContainingPoint, p222]
    norm_num
    decide
  have h07 : (7 : Fin 8) ≠ 0 := by decide
  have hl : isLeafNode (splitChildren () 0 7 (node p000 (fun _ => null) () false)
      (node p111 (fun _ => null) () false)) = false := rfl
  have hall : AllChildren (Function.update (splitChildren () 0 7
      (node p000 (fun _ => null) () false) (node p111 (fun _ => null) () false)) 7
      twoTreeB) := by
    intro k
    by_cases hk : k = 7
    · subst hk
      rw [Function.update_same]
      rfl
    · rw [Function.update_noteq hk]
      exact splitChildren_allChildren () 0 7 (node p000 (fun _ => null) () false)
        (node p111 (fun _ => null) () false) rfl rfl k
  have ew : wsum (Function.update (splitChildren () 0 7
      (node p000 (fun _ => null) () false) (node p111 (fun _ => null) () false)) 7
      twoTreeB) = 3 := by
    rw [wsum, sum_update_child (fun t => t.originOf.w), splitChildren_seven]
    have := wsum_splitChildren () 0 7 h07 (node p000 (fun _ => null) () false)
      (node p111 (fun _ => null) () false)
    rw [wsum] at this
    rw [this]
    simp only [originOf, twoTreeB, p000, p111]
    norm_num
  have ex : xsum (Function.update (splitChildren () 0 7
      (node p000 (fun _ => null) () false) (node p111 (fun _ => null) () false)) 7
      twoTreeB) = 3 := by
    rw [xsum, sum_update_child (fun t => t.originOf.x * t.originOf.w), splitChildren_seven]
    have := xsum_splitChildren () 0 7 h07 (node p000 (fun _ => null) () false)
      (node p111 (fun _ => null) () false)
    rw [xsum] at this
    rw [this]
    simp only [originOf, twoTreeB, p000, p111]
    norm_num
  have ey : ysum (Function.update (splitChildren () 0 7
      (node p000 (fun _ => null) () false) (node p111 (fun _ => null) () false)) 7
      twoTreeB) = 3 := by
    rw [ysum, sum_update_child (fun t => t.originOf.y * t.originOf.w), splitChildren_seven]
    have := ysum_splitChildren () 0 7 h07 (node p000 (fun _ => null) () false)
      (node p111 (fun _ => null) () false)
    rw [ysum] at this
    rw [this]
    simp only [originOf, twoTreeB, p000, p111]
    norm_num
  have ez : zsum (Function.update (splitChildren () 0 7
      (node p000 (fun _ => null) () false) (node p111 (fun _ => null) () false)) 7
      twoTreeB) = 3 := by
    rw [zsum, sum_update_child (fun t => t.originOf.z * t.originOf.w), splitChildren_seven]
    have := zsum_splitChildren () 0 7 h07 (node p000 (fun _ => null) () false)
      (node p111 (fun _ => null) () false)
    rw [zsum] at this
    rw [this]
    simp only [originOf, twoTreeB, p000, p111]
    norm_num
  rw [twoTree, insert_interior _ _ _ _ p222 hl, hoct, splitChildren_seven, insert_p111_p222]
  simp only [Except.bind]
  rw [UpdateCentreOfMass_ok _ _ _ _ hall (by rw [ew]; norm_num), ew, ex, ey, ez]
  norm_num

/-! ## Claims -/

/-- C1. Order independence of the recursive build: for a list of points with positive
weights and any permutation of it, both builds return, and the two roots have the same
aggregate `origin` (position and weight). -/
theorem C1_order_independence (ps qs : List Vec4) (hpos : ∀ p ∈ ps, 0 < p.w)
    (hperm : List.Perm qs ps) :
    ∃ origin ch1 s1 c1 ch2 s2 c2,
      ConstructOctTree ps = Except.ok (node origin ch1 s1 c1) ∧
      ConstructOctTree qs = Except.ok (node origin ch2 s2 c2) := by
  have hposq : ∀ p ∈ qs, 0 < p.w := fun p hp => hpos p (hperm.subset hp)
  obtain ⟨t1, h1, b1, w1, x1, y1, z1⟩ := ConstructOctTree_ok ps hpos
  obtain ⟨t2, h2, b2, w2, x2, y2, z2⟩ := ConstructOctTree_ok qs hposq
  have ew : t2.originOf.w = t1.originOf.w := by
    rw [w1, w2]; exact (hperm.map _).sum_eq
  have heq : t2.originOf = t1.originOf := by
    by_cases h0 : t1.originOf.w = 0
    · rw [b1.origin_of_weight_zero h0, b2.origin_of_weight_zero (ew.trans h0)]
    · have ex : t2.originOf.x * t1.originOf.w = t1.originOf.x * t1.originOf.w := by
        rw [x1, ← ew, x2]; exact (hperm.map _).sum_eq
      have ey : t2.originOf.y * t1.originOf.w = t1.originOf.y * t1.originOf.w := by
        rw [y1, ← ew, y2]; exact (hperm.map _).sum_eq
      have ez : t2.originOf.z * t1.originOf.w = t1.originOf.z * t1.originOf.w := by
        rw [z1, ← ew, z2]; exact (hperm.map _).sum_eq
      exact Vec4.ext (mul_right_cancel₀ h0 ex) (mul_right_cancel₀ h0 ey)
        (mul_right_cancel₀ h0 ez) ew
  obtain ⟨ch1, s1, c1, e1⟩ := b1.exists_node
  obtain ⟨ch2, s2, c2, e2⟩ := b2.exists_node
  refine ⟨t1.originOf, ch1, s1, c1, ch2, s2, c2, ?_, ?_⟩
  · rw [h1, ← e1]
  · rw [h2, ← heq, ← e2]

/-- Witness of C1: the points `(0,0,0,1)`, `(1,1,1,1)` in both orders. -/
theorem C1_order_independence_witness :
    ∃ origin ch1 s1 c1 ch2 s2 c2,
      ConstructOctTree [p000, p111] = Except.ok (node origin ch1 s1 c1) ∧
      ConstructOctTree [p111, p000] = Except.ok (node origin ch2 s2 c2) :=
  C1_order_independence [p000, p111] [p111, p000]
    (by intro p hp; simp [p000, p111] at hp; rcases hp with rfl | rfl <;> norm_num)
    (List.Perm.swap _ _ _)

/-- C2 (the code at a failing input). Inserting `(0,0,0,1)`, `(1,1,1,1)`, `(2,2,2,1)` with
V3's `insert`: the split writes `(1,1,1,1)` into child `7` without clearing `is_clean`, so
the third insert overwrites it; the root ends with weight `2`, the points weigh `3`. -/
theorem C2_iterative_build_loses_mass :
    V3.insertAll [p000, p111, p222] = Except.ok threeTree3 ∧
    threeTree3.originOf = ⟨1, 1, 1, 2⟩ ∧
    ([p000, p111, p222].map fun p => p.w).sum = 3 := by
  refine ⟨insertAll_p000_p111_p222, rfl, ?_⟩
  simp only [List.map_cons, List.map_nil, List.sum_cons, List.sum_nil, p000, p111, p222]
  norm_num

/-- C3. Mass conservation per node: in every tree reachable from a fresh `Octree` by
returning calls of `insert` (the recursive one, and V3's `insertImpl`), every node with
children carries in `origin.w` the sum of `origin.w` over the leaves of its subtree. -/
theorem C3_mass_conservation :
    (∀ t, Reachable t → Forall SumOfLeaves t) ∧
    (∀ t, V3.Reachable t → Forall SumOfLeaves t) :=
  ⟨fun t h => sumOfLeaves_of_nodeInv t (reachable_nodeInv h),
   fun t h => sumOfLeaves_of_nodeInv t (reachable_nodeInv_v3 h)⟩

/-- Witness of C3: the tree the recursive `insert` builds from `(0,0,0,1)`, `(1,1,1,1)`,
and the tree V3's `insert` builds from `(0,0,0,1)`, `(1,1,1,1)`, `(2,2,2,1)`. -/
theorem C3_mass_conservation_witness :
    Forall SumOfLeaves twoTree ∧ Forall SumOfLeaves threeTree3 :=
  ⟨C3_mass_conservation.1 twoTree reachable_twoTree,
   C3_mass_conservation.2 threeTree3 reachable3_threeTree3⟩

/-- C4. Structural invariant: in every tree reachable from a fresh `Octree` by returning
calls of `insert` (recursive, and V3's `insertImpl`), every node has all eight child
pointers null or all eight non-null, and `isLeafNode()`, which looks at `children[0]`
only, is true exactly when the node has no children at all. -/
theorem C4_structural_invariant :
    (∀ t, Reachable t → Forall LeafTestExact t) ∧
    (∀ t, V3.Reachable t → Forall LeafTestExact t) :=
  ⟨fun t h => leafTestExact_of_nodeInv t (reachable_nodeInv h),
   fun t h => leafTestExact_of_nodeInv t (reachable_nodeInv_v3 h)⟩

/-- Witness of C4: the tree the recursive `insert` builds from `(0,0,0,1)`, `(1,1,1,1)`,
and the tree V3's `insert` builds from `(0,0,0,1)`, `(1,1,1,1)`, `(2,2,2,1)`. -/
theorem C4_structural_invariant_witness :
    Forall LeafTestExact twoTree ∧ Forall LeafTestExact threeTree3 :=
  ⟨C4_structural_invariant.1 twoTree reachable_twoTree,
   C4_structural_invariant.2 threeTree3 reachable3_threeTree3⟩

/-- C5 (the code at a failing input). On the tree built from `(0,0,0,1)`, `(1,1,1,1)`, with
the source at `(10,10,10)` and `radius_sqr = 1`, the recursive query appends the root
aggregate eight times and V3's query passes it to `f` once. -/
theorem C5_traversals_disagree :
    getPointsInsideRadiusSqr twoTree ⟨10, 10, 10, 0⟩ 1 [] =
      Except.ok (List.replicate 8 ⟨1 / 2, 1 / 2, 1 / 2, 2⟩) ∧
    V3.getPointsInsideRadiusSqr (withScratch (none : Ptr) twoTree) ⟨10, 10, 10, 0⟩ 1 =
      Except.ok [⟨1 / 2, 1 / 2, 1 / 2, 2⟩] :=
  ⟨query_twoTree_far, query3_twoTree_far⟩

/-- C6 (the code at a failing input). The root of the tree built from `(0,0,0,1)`,
`(1,1,1,1)` is an interior node; with the source at `(10,10,10)` and `radius_sqr = 1` its
aggregate is far, and the recursive query appends it eight times, not once. -/
theorem C6_far_node_appended_eight_times :
    ConstructOctTree [p000, p111] = Except.ok twoTree ∧
    (⟨10, 10, 10, 0⟩ : Vec4).sub twoTree.originOf = ⟨19 / 2, 19 / 2, 19 / 2, 0⟩ ∧
    getPointsInsideRadiusSqr twoTree ⟨10, 10, 10, 0⟩ 1 [] =
      Except.ok (List.replicate 8 twoTree.originOf) := by
  refine ⟨construct_p000_p111, ?_, query_twoTree_far⟩
  simp only [Vec4.sub, twoTree, originOf]
  norm_num

/-- C7 (the code at a failing input). On an empty leaf the recursive query appends the
`origin` `(0,0,0,0)` eight times when the source is farther than the radius, and calls
through a null child pointer otherwise. -/
theorem C7_empty_leaf_contributes :
    getPointsInsideRadiusSqr (fresh ()) ⟨1, 0, 0, 0⟩ 0 [] =
      Except.ok (List.replicate 8 ⟨0, 0, 0, 0⟩) ∧
    getPointsInsideRadiusSqr (fresh ()) ⟨0, 0, 0, 0⟩ 0 [] = Except.error Fault.nullDeref := by
  constructor
  · rw [query_fresh_far () _ _ _ (by simp only [Vec4.sub, Vec4.normSquared]; norm_num)]
    rfl
  · exact query_fresh_near () _ _ _ (by simp only [Vec4.sub, Vec4.normSquared]; norm_num)

/-- C8 (the code at a failing input). On the tree built from `(0,0,0,1)`, `(1,1,1,1)`, the
query from `(0,0,0)` with `radius_sqr = 1` descends into the root, reaches the empty leaf
in child `1` and calls through its null `children[0]`. -/
theorem C8_query_null_dereference :
    ConstructOctTree [p000, p111] = Except.ok twoTree ∧
    getPointsInsideRadiusSqr twoTree p000 1 [] = Except.error Fault.nullDeref := by
  refine ⟨construct_p000_p111, ?_⟩
  have hnear : ¬ (p000.sub ⟨1 / 2, 1 / 2, 1 / 2, 2⟩).normSquared > 1 := by
    simp only [Vec4.sub, Vec4.normSquared, p000]
    norm_num
  have hnear0 : ¬ (p000.sub ⟨0, 0, 0, 0⟩).normSquared > 1 := by
    simp only [Vec4.sub, Vec4.normSquared, p000]
    norm_num
  rw [twoTree, query_inner _ _ _ _ _ _ _ (by simp [isLeafNode, splitChildren_zero, isNull]),
    inner_near _ _ _ _ _ hnear, finRange_eight]
  simp only [List.foldlM_cons, splitChildren_zero, query_occupied_leaf, bind, Except.bind,
    splitChildren_between _ _ _ 1 (by decide) (by decide), query_fresh_near () _ _ _ hnear0]

/-- C9 (the code at a failing input). The V3 tree built from `(0,0,0,1)`, `(1,1,1,1)`,
queried from `(0,0,0)` with `radius_sqr = 3`, which covers both points: both leaves are
still flagged clean, so nothing is passed to `f`; the weights passed sum to `0`, the
points weigh `2`. -/
theorem C9_covering_query_passes_nothing :
    V3.insertAll [p000, p111] = Except.ok twoTree3 ∧
    (∀ p ∈ [p000, p111], (p000.sub p).normSquared ≤ 3) ∧
    V3.getPointsInsideRadiusSqr twoTree3 p000 3 = Except.ok [] ∧
    ([p000, p111].map fun p => p.w).sum = 2 := by
  refine ⟨insertAll_p000_p111, ?_, query3_twoTree3, ?_⟩
  · intro p hp
    simp only [List.mem_cons, List.mem_singleton, List.not_mem_nil, or_false] at hp
    rcases hp with rfl | rfl <;> simp only [Vec4.sub, Vec4.normSquared, p000, p111] <;> norm_num
  · simp only [List.map_cons, List.map_nil, List.sum_cons, List.sum_nil, p000, p111]
    norm_num

/-- C10 (counterexample). The tree built from `(1,1,1,1)`, `(2,2,2,1)`, queried from
`(2,2,2)` with `radius_sqr = 3`, which covers both points: the query descends into the
root and returns both points (and eight copies of `(0,0,0,0)` for each of the six empty
leaves), not the single root aggregate. -/
theorem C10_counterexample :
    ConstructOctTree [p111, p222] = Except.ok twoTreeB ∧
    (∀ p ∈ [p111, p222], (p222.sub p).normSquared ≤ 3) ∧
    getPointsInsideRadiusSqr twoTreeB p222 3 [] =
      Except.ok (p111 :: (List.replicate 48 ⟨0, 0, 0, 0⟩ ++ [p222])) := by
  refine ⟨construct_p111_p222, ?_, ?_⟩
  · intro p hp
    simp only [List.mem_cons, List.mem_singleton, List.not_mem_nil, or_false] at hp
    rcases hp with rfl | rfl <;> simp only [Vec4.sub, Vec4.normSquared, p111, p222] <;> norm_num
  · have hnear : ¬ (p222.sub ⟨3 / 2, 3 / 2, 3 / 2, 2⟩).normSquared > 3 := by
      simp only [Vec4.sub, Vec4.normSquared, p222]
      norm_num
    have hfar0 : (p222.sub ⟨0, 0, 0, 0⟩).normSquared > 3 := by
      simp only [Vec4.sub, Vec4.normSquared, p222]
      norm_num
    have h1 : (p222.sub p111).normSquared ≤ 3 := by
      simp only [Vec4.sub, Vec4.normSquared, p111, p222]
      norm_num
    have h2 : (p222.sub p222).normSquared ≤ 3 := by
      simp only [Vec4.sub, Vec4.normSquared, p222]
      norm_num
    rw [twoTreeB, query_inner _ _ _ _ _ _ _ (by simp [isLeafNode, splitChildren_zero, isNull]),
      inner_near _ _ _ _ _ hnear, finRange_eight]
    simp only [List.foldlM_cons, List.foldlM_nil, splitChildren_zero, splitChildren_seven,
      query_occupied_leaf, bind, Except.bind, getPointsInsideRadiusLeafImpl, h1, h2, if_true,
      splitChildren_between _ _ _ 1 (by decide) (by decide),
      splitChildren_between _ _ _ 2 (by decide) (by decide),
      splitChildren_between _ _ _ 3 (by decide) (by decide),
      splitChildren_between _ _ _ 4 (by decide) (by decide),
      splitChildren_between _ _ _ 5 (by decide) (by decide),
      splitChildren_between _ _ _ 6 (by decide) (by decide),
      query_fresh_far () _ _ _ hfar0]
    rfl

/-- C10 (amended). When all the points inserted have the same coordinates, the recursive
build returns a single occupied leaf holding these coordinates and the total weight (so
its position is the overall centre of mass), and a query whose radius covers the points
returns exactly this one contribution. -/
theorem C10_single_leaf_query (p : Vec4) (ps : List Vec4) (hpos : ∀ q ∈ p :: ps, 0 < q.w)
    (hsame : ∀ q ∈ ps, q.x = p.x ∧ q.y = p.y ∧ q.z = p.z) (source : Vec4) (radius_sqr : ℚ)
    (hcover : ∀ q ∈ p :: ps, (source.sub q).normSquared ≤ radius_sqr) :
    ∃ t, ConstructOctTree (p :: ps) = Except.ok t ∧
      t.originOf = ⟨p.x, p.y, p.z, ((p :: ps).map fun q => q.w).sum⟩ ∧
      t.originOf.x * t.originOf.w = ((p :: ps).map fun q => q.x * q.w).sum ∧
      t.originOf.y * t.originOf.w = ((p :: ps).map fun q => q.y * q.w).sum ∧
      t.originOf.z * t.originOf.w = ((p :: ps).map fun q => q.z * q.w).sum ∧
      0 < t.originOf.w ∧
      getPointsInsideRadiusSqr t source radius_sqr [] = Except.ok [t.originOf] := by
  obtain ⟨t, ht, hb, hw, hx, hy, hz⟩ := ConstructOctTree_ok (p :: ps) hpos
  have hshape : ConstructOctTree (p :: ps) = Except.ok
      (node ⟨p.x, p.y, p.z, p.w + (ps.map fun q => q.w).sum⟩ (fun _ => null) () false) := by
    simp only [ConstructOctTree, List.foldlM_cons, insert_fresh, bind, Except.bind]
    exact foldlM_insert_same p.x p.y p.z ps hsame p.w
  rw [hshape] at ht
  cases ht
  refine ⟨_, hshape, ?_, hx, hy, hz, ?_, ?_⟩
  · simp [originOf]
  · exact hb.weight_pos rfl
  · have hd := hcover p (List.mem_cons_self _ _)
    have hd' : ((source.sub ⟨p.x, p.y, p.z, p.w + (ps.map fun q => q.w).sum⟩).normSquared
        ≤ radius_sqr) := hd
    rw [query_occupied_leaf]
    simp only [getPointsInsideRadiusLeafImpl, hd', if_true, originOf, List.nil_append]

/-- Witness of C10 (amended): `(1,1,1,1)` inserted twice, queried from `(2,2,2)` with
`radius_sqr = 3`. -/
theorem C10_single_leaf_query_witness :
    ∃ t, ConstructOctTree [p111, p111] = Except.ok t ∧
      t.originOf = ⟨p111.x, p111.y, p111.z, ([p111, p111].map fun q => q.w).sum⟩ ∧
      t.originOf.x * t.originOf.w = ([p111, p111].map fun q => q.x * q.w).sum ∧
      t.originOf.y * t.originOf.w = ([p111, p111].map fun q => q.y * q.w).sum ∧
      t.originOf.z * t.originOf.w = ([p111, p111].map fun q => q.z * q.w).sum ∧
      0 < t.originOf.w ∧
      getPointsInsideRadiusSqr t p222 3 [] = Except.ok [t.originOf] :=
  C10_single_leaf_query p111 [p111]
    (by intro q hq; simp at hq; rw [hq]; simp only [p111]; norm_num)
    (by intro q hq; simp at hq; rw [hq]; exact ⟨rfl, rfl, rfl⟩)
    p222 3
    (by intro q hq; simp at hq; rw [hq]; simp only [Vec4.sub, Vec4.normSquared, p111, p222]; norm_num)

/-- C12. Merge behaviour: on an occupied leaf storing `(x,y,z,w)`, inserting `(x,y,z,w')`
(recursive `insert`, and V3's `insertImpl`) returns a leaf without children, at the same
position, with weight `w + w'`. Instance: `(0,0,0,5)` then `(0,0,0,3)` into a fresh
`Octree` gives the single leaf `(0,0,0)` of weight `8`, in both versions. -/
theorem C12_merge_behaviour (x y z w w' : ℚ) :
    (∀ s, insert (node ⟨x, y, z, w⟩ (fun _ => null) s false) ⟨x, y, z, w'⟩ =
      Except.ok (node ⟨x, y, z, w + w'⟩ (fun _ => null) s false)) ∧
    (∀ s, V3.insertImpl (node ⟨x, y, z, w⟩ (fun _ => null) s false) ⟨x, y, z, w'⟩ =
      Except.ok (node ⟨x, y, z, w + w'⟩ (fun _ => null) none false)) ∧
    ConstructOctTree [⟨0, 0, 0, 5⟩, ⟨0, 0, 0, 3⟩] =
      Except.ok (node ⟨0, 0, 0, 8⟩ (fun _ => null) () false) ∧
    V3.insertAll [⟨0, 0, 0, 5⟩, ⟨0, 0, 0, 3⟩] =
      Except.ok (node ⟨0, 0, 0, 8⟩ (fun _ => null) none false) := by
  refine ⟨insert_merge_leaf x y z w w', insertImpl_merge_leaf x y z w w', ?_, ?_⟩
  · simp only [ConstructOctTree, List.foldlM_cons, List.foldlM_nil, insert_fresh, bind,
      Except.bind, insert_merge_leaf]
    norm_num
    rfl
  · simp only [V3.insertAll, List.foldlM_cons, List.foldlM_nil, insert3_fresh, bind, Except.bind]
    simp only [V3.insert, insertImpl_merge_leaf]
    norm_num
    rfl

/-- C13 (the code at a failing input). The recursive build from `(0,0,0,1)` then
`(1,1,1,0)`, two points of non-negative weight: `CentreofMass` of the two is the first
point, both octant codes against it are `7`, and the second `insert` fails the assertion
`oct_point != oct_origin` of the split. -/
theorem C13_zero_weight_fails_assertion :
    (∀ p ∈ [(⟨0, 0, 0, 1⟩ : Vec4), ⟨1, 1, 1, 0⟩], 0 ≤ p.w) ∧
    CentreofMass ⟨0, 0, 0, 1⟩ ⟨1, 1, 1, 0⟩ = Except.ok ⟨0, 0, 0, 1⟩ ∧
    getOctantContainingPoint ⟨0, 0, 0, 1⟩ ⟨0, 0, 0, 1⟩ = 7 ∧
    getOctantContainingPoint ⟨0, 0, 0, 1⟩ ⟨1, 1, 1, 0⟩ = 7 ∧
    ConstructOctTree [⟨0, 0, 0, 1⟩, ⟨1, 1, 1, 0⟩] = Except.error Fault.assertion := by
  refine ⟨?_, ?_, ?_, ?_, ?_⟩
  · intro p hp
    simp only [List.mem_cons, List.mem_singleton, List.mem_nil_iff, or_false] at hp
    rcases hp with rfl | rfl <;> norm_num
  · rw [CentreofMass_ok _ _ (by norm_num)]
    simp only [com]
    norm_num
  · exact octant_self _
  · simp only [getOctantContainingPoint]
    norm_num
    decide
  · simp only [ConstructOctTree, List.foldlM_cons, List.foldlM_nil, insert_fresh, bind,
      Except.bind, insert_zero_weight_point]

/-- C14. Centre-of-mass combination: for `a`, `b`, `c` of positive weight,
`CentreofMass(a, b)` returns position `(a.pos*a.w + b.pos*b.w)/(a.w + b.w)` and weight
`a.w + b.w`; it is commutative, and associative: combining `a` with `b` and then with `c`
returns what combining `a` with the combination of `b` and `c` returns, namely the weighted
mean of the three with weight `a.w + b.w + c.w`. -/
theorem C14_centre_of_mass_algebra (a b c : Vec4) (ha : 0 < a.w) (hb : 0 < b.w) (hc : 0 < c.w) :
    CentreofMass a b = Except.ok
      ⟨(a.x * a.w + b.x * b.w) / (a.w + b.w), (a.y * a.w + b.y * b.w) / (a.w + b.w),
        (a.z * a.w + b.z * b.w) / (a.w + b.w), a.w + b.w⟩ ∧
    CentreofMass a b = CentreofMass b a ∧
    ((CentreofMass a b).bind fun ab => CentreofMass ab c) =
      ((CentreofMass b c).bind fun bc => CentreofMass a bc) ∧
    ((CentreofMass a b).bind fun ab => CentreofMass ab c) = Except.ok
      ⟨(a.x * a.w + b.x * b.w + c.x * c.w) / (a.w + b.w + c.w),
        (a.y * a.w + b.y * b.w + c.y * c.w) / (a.w + b.w + c.w),
        (a.z * a.w + b.z * b.w + c.z * c.w) / (a.w + b.w + c.w), a.w + b.w + c.w⟩ := by
  have hab : a.w + b.w ≠ 0 := by linarith
  have hba : b.w + a.w ≠ 0 := by linarith
  have hbc : b.w + c.w ≠ 0 := by linarith
  have habc : (com a b).w + c.w ≠ 0 := by
    show a.w + b.w + c.w ≠ 0
    linarith
  have habc' : a.w + (com b c).w ≠ 0 := by
    show a.w + (b.w + c.w) ≠ 0
    linarith
  refine ⟨CentreofMass_ok a b hab, ?_, ?_, ?_⟩
  · rw [CentreofMass_ok a b hab, CentreofMass_ok b a hba, com_comm]
  · rw [CentreofMass_ok a b hab, CentreofMass_ok b c hbc]
    show CentreofMass (com a b) c = CentreofMass a (com b c)
    rw [CentreofMass_ok _ _ habc, CentreofMass_ok _ _ habc', com_assoc a b c hab hbc]
  · rw [CentreofMass_ok a b hab]
    show CentreofMass (com a b) c = _
    rw [CentreofMass_ok _ _ habc]
    simp only [com]
    rw [div_mul_cancel₀ _ hab, div_mul_cancel₀ _ hab, div_mul_cancel₀ _ hab]

/-- Witness of C14: the points `(0,0,0,1)`, `(1,1,1,1)`, `(2,2,2,1)`. -/
theorem C14_centre_of_mass_algebra_witness :
    CentreofMass p000 p111 = Except.ok
      ⟨(p000.x * p000.w + p111.x * p111.w) / (p000.w + p111.w),
        (p000.y * p000.w + p111.y * p111.w) / (p000.w + p111.w),
        (p000.z * p000.w + p111.z * p111.w) / (p000.w + p111.w), p000.w + p111.w⟩ ∧
    CentreofMass p000 p111 = CentreofMass p111 p000 ∧
    ((CentreofMass p000 p111).bind fun ab => CentreofMass ab p222) =
      ((CentreofMass p111 p222).bind fun bc => CentreofMass p000 bc) ∧
    ((CentreofMass p000 p111).bind fun ab => CentreofMass ab p222) = Except.ok
      ⟨(p000.x * p000.w + p111.x * p111.w + p222.x * p222.w) / (p000.w + p111.w + p222.w),
        (p000.y * p000.w + p111.y * p111.w + p222.y * p222.w) / (p000.w + p111.w + p222.w),
        (p000.z * p000.w + p111.z * p111.w + p222.z * p222.w) / (p000.w + p111.w + p222.w),
        p000.w + p111.w + p222.w⟩ :=
  C14_centre_of_mass_algebra p000 p111 p222 (by norm_num [p000]) (by norm_num [p111])
    (by norm_num [p222])

/-- C15 (the code at a failing input). For `a = b = (0,0,0,1)`, whatever `sqrtf` and `G` are,
`Force` of `src/NZGDC18/NZGDC18.cpp` evaluates a division by zero (it has no test of `r2`),
while `Force` of V1 and of V2 return the zero vector. -/
theorem C15_force_divides_by_zero : ∀ (sqrtf : ℚ → ℚ) (G : ℚ),
    Force sqrtf p000 p000 G = Except.error Fault.divByZero ∧
    V1.Force sqrtf p000 p000 G = Except.ok ⟨0, 0, 0, 0⟩ ∧
    V2.Force sqrtf p000 p000 G = Except.ok ⟨0, 0, 0, 0⟩ :=
  fun sqrtf G => ⟨Force_same sqrtf p000 p000 G rfl rfl rfl,
    Force_same_v1 sqrtf p000 p000 G rfl rfl rfl, Force_same_v2 sqrtf p000 p000 G rfl rfl rfl⟩

/-- C16. The iterative work-list traversal implements the recursive decision rule: on
every tree whose nodes have no child or eight (`t` is the node the query is called on),
whatever the scratch slots hold, V3's `getPointsInsideRadiusSqrImpl` returns within its
budget of one round per node, passes to `f` exactly the sequence `specContributions` of the
rule, and the nodes its rounds visit (the record of `getPointsInsideRadiusSqrImplVisits`,
of which `getPointsInsideRadiusSqrImpl` is the projection) are nodes of the tree, each
visited at most once. -/
theorem C16_iterative_traversal (t : Octree Ptr) (hz : Forall ZeroOrEight t)
    (hn : t.isNull = false) (source : Vec4) (radius_sqr : ℚ) :
    V3.getPointsInsideRadiusSqr t source radius_sqr =
      Except.ok (specContributions source radius_sqr t) ∧
    V3.getPointsInsideRadiusSqrImpl t source radius_sqr =
      (V3.getPointsInsideRadiusSqrImplVisits t source radius_sqr).map (fun r => (r.1, r.2.1)) ∧
    ∃ (tree : Octree Ptr) (seen : List Path),
      V3.getPointsInsideRadiusSqrImplVisits t source radius_sqr =
        Except.ok (tree, specContributions source radius_sqr t, seen) ∧
      seen.Nodup ∧ ∀ p ∈ seen, (t.subtree p).isNull = false := by
  obtain ⟨tree, h⟩ := queryVisits_ok t hz hn source radius_sqr
  have h2 := queryImpl_eq_visits t source radius_sqr
  refine ⟨?_, h2, tree, _, h, visited_nodup source radius_sqr t [], ?_⟩
  · rw [V3.getPointsInsideRadiusSqr, h2, h]
    rfl
  · intro p hp
    obtain ⟨s, e, hs⟩ := visited_mem source radius_sqr t [] p hp
    rw [e]
    exact hs

/-- Witness of C16: the tree V3 builds from `(0,0,0,1)`, `(1,1,1,1)`, `(2,2,2,1)`, queried
from `(0,0,0)` with `radius_sqr = 100`: `f` receives the leaf `(2,2,2,1)` only. -/
theorem C16_iterative_traversal_witness :
    V3.getPointsInsideRadiusSqr threeTree3 p000 100 = Except.ok [p222] ∧
    ∃ (tree : Octree Ptr) (seen : List Path),
      V3.getPointsInsideRadiusSqrImplVisits threeTree3 p000 100 =
        Except.ok (tree, [p222], seen) ∧
      seen.Nodup ∧ ∀ p ∈ seen, (threeTree3.subtree p).isNull = false := by
  have h := C16_iterative_traversal threeTree3 forall_zeroOrEight_threeTree3 rfl p000 100
  rw [specContributions_threeTree3] at h
  exact ⟨h.1, h.2.2⟩

/-- C17 (the code at a failing input). From `(0,0,0,1)`, `(1,1,1,1)` the recursive build
returns `twoTree` and V3's build returns `twoTree3`: the children `0` and `7`, which hold
the two points, have `is_clean = false` in the first and `is_clean = true` in the second. -/
theorem C17_builds_differ :
    ConstructOctTree [p000, p111] = Except.ok twoTree ∧
    V3.insertAll [p000, p111] = Except.ok twoTree3 ∧
    (twoTree.subtree [7]).cleanOf = false ∧ (twoTree3.subtree [7]).cleanOf = true ∧
    (twoTree.subtree [0]).cleanOf = false ∧ (twoTree3.subtree [0]).cleanOf = true :=
  ⟨construct_p000_p111, insertAll_p000_p111, rfl, rfl, rfl, rfl⟩

/-- C18 (counterexample). The leaf storing `old = (0,0,0,1)` receives `(1,1,1,1)`: both
versions place `old` in child `0`, while the 3-bit code of `old` computed against the
position before the split, that of `old` itself, is `7`. -/
theorem C18_counterexample :
    insert (node p000 (fun _ => null) () false) p111 = Except.ok twoTree ∧
    V3.insertImpl (node p000 (fun _ => null) none false) p111 = Except.ok twoTree3 ∧
    twoTree.subtree [0] = node p000 (fun _ => null) () false ∧
    (twoTree3.subtree [0]).originOf = p000 ∧
    getOctantContainingPoint p000 p000 = 7 :=
  ⟨insert_p000_p111, insert3_p000_p111, rfl, rfl, octant_self p000⟩

/-- C18 (amended). Octant classification at a split uses the position after the
combination: when a call of `insert` (recursive, or V3's `insertImpl`) on an occupied leaf
storing `old` with a point of different coordinates returns, the node's `origin` is
`CentreofMass(old, point)`, `old` is in the child whose index is the 3-bit code of `old`
computed against that new `origin`, the point is in the child whose index is the code of
the point computed against it, and the six other children are fresh. -/
theorem C18_split_octants (old point : Vec4) (hne : ¬ (point.x = old.x ∧ point.y = old.y ∧
    point.z = old.z)) :
    (∀ s t', insert (node old (fun _ => null) s false) point = Except.ok t' →
      ∃ (origin : Vec4) (ch : Fin 8 → Octree Unit),
        CentreofMass old point = Except.ok origin ∧
        t' = node origin ch s false ∧
        ch (getOctantContainingPoint origin old) = node old (fun _ => null) () false ∧
        ch (getOctantContainingPoint origin point) = node point (fun _ => null) () false ∧
        ∀ k, k ≠ getOctantContainingPoint origin old → k ≠ getOctantContainingPoint origin point →
          ch k = fresh ()) ∧
    (∀ s t', V3.insertImpl (node old (fun _ => null) s false) point = Except.ok t' →
      ∃ (origin : Vec4) (ch : Fin 8 → Octree Ptr),
        CentreofMass old point = Except.ok origin ∧
        t' = node origin ch none false ∧
        (ch (getOctantContainingPoint origin old)).originOf = old ∧
        (ch (getOctantContainingPoint origin point)).originOf = point ∧
        ∀ k, k ≠ getOctantContainingPoint origin old → k ≠ getOctantContainingPoint origin point →
          ch k = fresh none) := by
  constructor
  · intro s t' h
    obtain ⟨hw, hoct, rfl⟩ := insert_split_inv old (fun _ => null) s point t' rfl hne h
    refine ⟨com old point, _, CentreofMass_ok old point hw, rfl, ?_, ?_, ?_⟩
    · simp only [splitChildren]
      rw [Function.update_noteq (fun e => hoct e.symm), Function.update_same]
    · simp only [splitChildren]
      rw [Function.update_same]
    · intro k h1 h2
      simp only [splitChildren]
      rw [Function.update_noteq h2, Function.update_noteq h1]
  · intro s t' h
    rw [insertImpl_leaf old (fun _ => null) s false point rfl] at h
    cases h1 : V3.leafStep point (node old (fun _ => null) s false) with
    | error e => rw [h1] at h; cases h
    | ok t1 =>
      rw [h1] at h
      obtain ⟨hw, hoct, rfl⟩ := leafStep_split_inv old (fun _ => null) s point t1 hne h1
      have h2 := setScratch_ok_inv none (node (com old point)
        (splitChildren none (getOctantContainingPoint (com old point) old)
          (getOctantContainingPoint (com old point) point) (node old (fun _ => null) none true)
          (node point (fun _ => null) none true)) s false) t' h
      refine ⟨com old point, _, CentreofMass_ok old point hw, h2, ?_, ?_, ?_⟩
      · simp only [splitChildren]
        rw [Function.update_noteq (fun e => hoct e.symm), Function.update_same]
        rfl
      · simp only [splitChildren]
        rw [Function.update_same]
        rfl
      · intro k h1 h2
        simp only [splitChildren]
        rw [Function.update_noteq h2, Function.update_noteq h1]

/-- Witness of C18 (amended): the leaf `(0,0,0,1)` receiving `(1,1,1,1)`, recursive
`insert`. -/
theorem C18_split_octants_witness :
    ¬ (p111.x = p000.x ∧ p111.y = p000.y ∧ p111.z = p000.z) ∧
    ∃ (origin : Vec4) (ch : Fin 8 → Octree Unit),
        CentreofMass p000 p111 = Except.ok origin ∧
        twoTree = node origin ch () false ∧
        ch (getOctantContainingPoint origin p000) = node p000 (fun _ => null) () false ∧
        ch (getOctantContainingPoint origin p111) = node p111 (fun _ => null) () false ∧
        ∀ k, k ≠ getOctantContainingPoint origin p000 →
          k ≠ getOctantContainingPoint origin p111 → ch k = fresh () :=
  ⟨by simp [p000, p111],
   (C18_split_octants p000 p111 (by simp [p000, p111])).1 () twoTree insert_p000_p111⟩

/-- C19. The split assertion is valid for positive weights: for an occupied leaf storing
`old` of positive weight and a point of positive weight with different coordinates,
`CentreofMass(old, point)` returns an `origin` against which the octant codes of the point
and of `old` differ, so the assertion `oct_point != oct_origin` holds and the call of the
recursive `insert` returns. -/
theorem C19_split_assertion_holds (old point : Vec4) (ho : 0 < old.w) (hp : 0 < point.w)
    (hne : ¬ (point.x = old.x ∧ point.y = old.y ∧ point.z = old.z)) :
    ∃ origin, CentreofMass old point = Except.ok origin ∧
      getOctantContainingPoint origin point ≠ getOctantContainingPoint origin old ∧
      ∀ s, ∃ t', insert (node old (fun _ => null) s false) point = Except.ok t' := by
  have hw : old.w + point.w ≠ 0 := by linarith
  have hoct := octant_ne_of_pos old point ho hp hne
  exact ⟨com old point, CentreofMass_ok old point hw, hoct,
    fun s => ⟨_, insert_split old (fun _ => null) s point rfl hne hw hoct⟩⟩

/-- Witness of C19: the leaf `(0,0,0,1)` receiving `(1,1,1,1)`. -/
theorem C19_split_assertion_holds_witness :
    ∃ origin, CentreofMass p000 p111 = Except.ok origin ∧
      getOctantContainingPoint origin p111 ≠ getOctantContainingPoint origin p000 ∧
      ∀ s, ∃ t', insert (node p000 (fun _ => null) s false) p111 = Except.ok t' :=
  C19_split_assertion_holds p000 p111 (by norm_num [p000]) (by norm_num [p111])
    (by simp [p000, p111])

/-- C20. Interior insertion touches one child only: on a node with children, with `i` the
octant code of `p` against the node's `origin` at the start of the call, a returning call
of the recursive `insert` leaves the seven children of index other than `i` as they were,
replaces child `i` by the result of inserting `p` into it, and sets the node's `origin` to
weight the sum of the eight children's `origin.w` and position the sum of their
`origin.pos * origin.w` divided by that weight. -/
theorem C20_interior_insert_frame (o : Vec4) (ch : Fin 8 → Octree Unit) (s : Unit) (c : Bool)
    (p : Vec4) (hl : isLeafNode ch = false) (t' : Octree Unit)
    (h : insert (node o ch s c) p = Except.ok t') :
    ∃ ch' : Fin 8 → Octree Unit,
      (∀ k, k ≠ getOctantContainingPoint o p → ch' k = ch k) ∧
      insert (ch (getOctantContainingPoint o p)) p =
        Except.ok (ch' (getOctantContainingPoint o p)) ∧
      t' = node ⟨(∑ k, (ch' k).originOf.x * (ch' k).originOf.w) / ∑ k, (ch' k).originOf.w,
        (∑ k, (ch' k).originOf.y * (ch' k).originOf.w) / ∑ k, (ch' k).originOf.w,
        (∑ k, (ch' k).originOf.z * (ch' k).originOf.w) / ∑ k, (ch' k).originOf.w,
        ∑ k, (ch' k).originOf.w⟩ ch' s c := by
  rw [insert_interior o ch s c p hl] at h
  cases h1 : insert (ch (getOctantContainingPoint o p)) p with
  | error e => rw [h1] at h; cases h
  | ok c' =>
    rw [h1] at h
    obtain ⟨-, -, rfl⟩ := UpdateCentreOfMass_inv o
      (Function.update ch (getOctantContainingPoint o p) c') s c t' h
    refine ⟨Function.update ch (getOctantContainingPoint o p) c', ?_, ?_, rfl⟩
    · intro k hk
      rw [Function.update_noteq hk]
    · rw [Function.update_same]

/-- Witness of C20: inserting `(2,2,2,1)` into the tree built from `(0,0,0,1)`,
`(1,1,1,1)` returns the root `(1,1,1)` of weight `3` with the former child `7` split. -/
theorem C20_interior_insert_frame_witness :
    insert twoTree p222 = Except.ok (node ⟨1, 1, 1, 3⟩
      (Function.update (splitChildren () 0 7 (node p000 (fun _ => null) () false)
        (node p111 (fun _ => null) () false)) 7 twoTreeB) () false) ∧
    ∃ ch' : Fin 8 → Octree Unit,
      (∀ k, k ≠ getOctantContainingPoint ⟨1 / 2, 1 / 2, 1 / 2, 2⟩ p222 →
        ch' k = splitChildren () 0 7 (node p000 (fun _ => null) () false)
          (node p111 (fun _ => null) () false) k) ∧
      insert (splitChildren () 0 7 (node p000 (fun _ => null) () false)
          (node p111 (fun _ => null) () false)
          (getOctantContainingPoint ⟨1 / 2, 1 / 2, 1 / 2, 2⟩ p222)) p222 =
        Except.ok (ch' (getOctantContainingPoint ⟨1 / 2, 1 / 2, 1 / 2, 2⟩ p222)) ∧
      (node ⟨1, 1, 1, 3⟩
        (Function.update (splitChildren () 0 7 (node p000 (fun _ => null) () false)
          (node p111 (fun _ => null) () false)) 7 twoTreeB) () false : Octree Unit) =
        node ⟨(∑ k, (ch' k).originOf.x * (ch' k).originOf.w) / ∑ k, (ch' k).originOf.w,
          (∑ k, (ch' k).originOf.y * (ch' k).originOf.w) / ∑ k, (ch' k).originOf.w,
          (∑ k, (ch' k).originOf.z * (ch' k).originOf.w) / ∑ k, (ch' k).originOf.w,
          ∑ k, (ch' k).originOf.w⟩ ch' () false :=
  ⟨insert_twoTree_p222,
   C20_interior_insert_frame ⟨1 / 2, 1 / 2, 1 / 2, 2⟩
    (splitChildren () 0 7 (node p000 (fun _ => null) () false)
      (node p111 (fun _ => null) () false)) () false p222 rfl _ insert_twoTree_p222⟩

end NZGDC18
